import Mathlib

/-!
# Write-back cache store

A shallow embedding of `tm2/pkg/store/cache/store.go`: the `cacheStore` decorator that
buffers reads and writes in front of a parent `types.Store`, keeps tombstones for deleted
keys, and merges its pending writes with the parent's contents on iteration.

* A Go `string` is a list of bytes (`Str`); a Go `[]byte` is an optional list of bytes
  (`Bytes`), `none` being the `nil` slice.
* A Go `map` is an association list with distinct keys (`AList`); the order of its entries
  stands for the unspecified iteration order of the map.
* A `panic` is the `Except.error` result.
* The parent is any state type `σ` together with its operations `StoreOps σ`; the optional
  capabilities probed by a type assertion are optional fields.
* The mutex is not modelled: every operation runs to completion on its own.
-/

namespace Cache

/-- A Go `string`: a sequence of bytes, ordered byte-wise lexicographically. -/
abbrev Str := List Nat

/-- A Go `[]byte`; `none` is the `nil` slice. -/
abbrev Bytes := Option (List Nat)

/-- The conversion `string(b)`; the `nil` slice gives the empty string. -/
def toStr : Bytes → Str
  | none => []
  | some b => b

/-- The conversion `[]byte(s)`; the result is never `nil`. -/
def toBytes (s : Str) : Bytes := some s

/-- The ways a call can panic. -/
inductive Panic
  | invalidKey
  | invalidValue
  | shouldNotHappen
  | typeAssertion
  | nilDeref
  | parentFailure
deriving DecidableEq

deriving instance DecidableEq for Except

/-- The helpers of other packages that `store.go` calls and that are taken as given:
`types.AssertValidKey`, `types.AssertValidValue` (as the predicate that must hold for the
call not to panic) and `dbm.IsKeyInDomain`. -/
structure Deps where
  validKey : Bytes → Bool
  validValue : Bytes → Bool
  isKeyInDomain : Str → Bytes → Bytes → Bool

/-- The cached entry `cValue`. -/
structure cValue where
  value : Bytes
  deleted : Bool
  dirty : Bool
deriving DecidableEq

/-- The pair `std.KVPair`; its key is always built by `[]byte(key)` from a map key. -/
structure KVPair where
  key : Str
  value : Bytes
deriving DecidableEq

/-- The interface `types.Store` as the cache store uses it, with the optional capabilities
`types.WriteThrougher`, `types.Flusher` and `types.ClearThrougher`. -/
structure StoreOps (σ : Type) where
  get : σ → Bytes → Except Panic (Bytes × σ)
  has : σ → Bytes → Except Panic (Bool × σ)
  set : σ → Bytes → Bytes → Except Panic σ
  delete : σ → Bytes → Except Panic σ
  iterator : σ → Bytes → Bytes → Except Panic (List KVPair × σ)
  reverseIterator : σ → Bytes → Bytes → Except Panic (List KVPair × σ)
  writeThrough : Option (σ → Int → Except Panic σ)
  flush : Option (σ → Except Panic σ)
  clearThrough : Option (σ → Except Panic σ)

/-- The struct `cacheStore`, with the state of its parent held in place of the reference. -/
structure cacheStore (σ : Type) where
  cache : AList (fun _ : Str => cValue)
  unsortedCache : AList (fun _ : Str => Unit)
  sortedCache : List KVPair
  parent : σ

/-- A loop `for _, x := range xs` whose body may panic. -/
def forEach {α β : Type} (f : β → α → Except Panic β) : β → List α → Except Panic β
  | b, [] => .ok b
  | b, a :: as =>
    match f b a with
    | .error e => .error e
    | .ok b1 => forEach f b1 as

/-- The function `sort.Strings`. -/
def sortStrings (keys : List Str) : List Str :=
  List.insertionSort (fun a b => a ≤ b) keys

/-- The call `sort.Slice(unsorted, ...)` of `dirtyItems`, ordering pairs by `bytes.Compare`
of their keys. -/
def sortPairs (items : List KVPair) : List KVPair :=
  List.insertionSort (fun a b => a.key ≤ b.key) items

namespace cacheStore

variable {σ : Type}

/-- The constructor `New`. -/
def New (parent : σ) : cacheStore σ :=
  { cache := ∅, unsortedCache := ∅, sortedCache := [], parent := parent }

/-- The method `setCacheValue`. -/
def setCacheValue (store : cacheStore σ) (key value : Bytes) (deleted dirty : Bool) :
    cacheStore σ :=
  let store1 := { store with cache := store.cache.insert (toStr key) ⟨value, deleted, dirty⟩ }
  if dirty then
    { store1 with unsortedCache := store1.unsortedCache.insert (toStr key) () }
  else store1

/-- The method `Get`. -/
def Get (E : Deps) (P : StoreOps σ) (store : cacheStore σ) (key : Bytes) :
    Except Panic (Bytes × cacheStore σ) :=
  if E.validKey key = false then .error .invalidKey
  else
    match store.cache.lookup (toStr key) with
    | none =>
      match P.get store.parent key with
      | .error e => .error e
      | .ok (value, parent) =>
        .ok (value, setCacheValue { store with parent := parent } key value false false)
    | some cacheValue => .ok (cacheValue.value, store)

/-- The method `Set`. -/
def Set (E : Deps) (store : cacheStore σ) (key value : Bytes) : Except Panic (cacheStore σ) :=
  if E.validKey key = false then .error .invalidKey
  else if E.validValue value = false then .error .invalidValue
  else .ok (setCacheValue store key value false true)

/-- The method `Has`. -/
def Has (E : Deps) (P : StoreOps σ) (store : cacheStore σ) (key : Bytes) :
    Except Panic (Bool × cacheStore σ) :=
  match Get E P store key with
  | .error e => .error e
  | .ok (value, store1) => .ok (value != none, store1)

/-- The method `Delete`. -/
def Delete (E : Deps) (store : cacheStore σ) (key : Bytes) : Except Panic (cacheStore σ) :=
  if E.validKey key = false then .error .invalidKey
  else .ok (setCacheValue store key none true true)

/-- The method `clear`. -/
def clear (store : cacheStore σ) : cacheStore σ :=
  { store with cache := ∅, unsortedCache := ∅, sortedCache := [] }

/-- The sorted `keys` slice of `Write`: the keys of the dirty entries, in the order the
map yields them, then sorted. -/
def writeKeys (store : cacheStore σ) : List Str :=
  sortStrings ((store.cache.entries.filter (fun e => e.2.dirty)).map (fun e => e.1))

/-- The body of the second loop of `Write`, for one key. -/
def writeKey (P : StoreOps σ) (cache : AList (fun _ : Str => cValue)) (parent : σ)
    (key : Str) : Except Panic σ :=
  match cache.lookup key with
  | none => .error .nilDeref
  | some cacheValue =>
    if cacheValue.deleted then P.delete parent (toBytes key)
    else
      match cacheValue.value with
      | none => .ok parent
      | some v => P.set parent (toBytes key) (some v)

/-- The method `Write`. -/
def Write (P : StoreOps σ) (store : cacheStore σ) : Except Panic (cacheStore σ) :=
  match forEach (writeKey P store.cache) store.parent (writeKeys store) with
  | .error e => .error e
  | .ok parent => .ok (clear { store with parent := parent })

/-- The method `WriteThrough`. -/
def WriteThrough (P : StoreOps σ) (store : cacheStore σ) (n : Int) :
    Except Panic (cacheStore σ) :=
  if n ≤ 0 then .error .shouldNotHappen
  else
    match Write P store with
    | .error e => .error e
    | .ok store1 =>
      if n ≥ 2 then
        match P.writeThrough with
        | none => .error .typeAssertion
        | some wt =>
          match wt store1.parent (n - 1) with
          | .error e => .error e
          | .ok parent => .ok { store1 with parent := parent }
      else .ok store1

/-- The method `Flush`. -/
def Flush (P : StoreOps σ) (store : cacheStore σ) : Except Panic (cacheStore σ) :=
  match Write P store with
  | .error e => .error e
  | .ok store1 =>
    match P.flush with
    | none => .ok store1
    | some fs =>
      match fs store1.parent with
      | .error e => .error e
      | .ok parent => .ok { store1 with parent := parent }

/-- The method `clearClean`: the loop visits the entries of the map and deletes the clean
ones from `cache` and `unsortedCache`. -/
def clearClean (store : cacheStore σ) : cacheStore σ :=
  store.cache.entries.foldl
    (fun st e =>
      if e.2.dirty = false then
        { st with cache := st.cache.erase e.1, unsortedCache := st.unsortedCache.erase e.1 }
      else st)
    store

/-- The method `ClearThrough`. -/
def ClearThrough (P : StoreOps σ) (store : cacheStore σ) : Except Panic (cacheStore σ) :=
  let store1 := clearClean store
  match P.clearThrough with
  | none => .ok store1
  | some cts =>
    match cts store1.parent with
    | .error e => .error e
    | .ok parent => .ok { store1 with parent := parent }

/-- The method `CacheWrap`: a new cache store whose parent is this one. -/
def CacheWrap (store : cacheStore σ) : cacheStore (cacheStore σ) :=
  New store

/-- The body of the first loop of `dirtyItems`, for one key of `unsortedCache`: the
accumulator is the `unsorted` slice and the `unsortedCache` map. -/
def dirtyStep (E : Deps) (cache : AList (fun _ : Str => cValue)) (start end_ : Bytes)
    (acc : List KVPair × AList (fun _ : Str => Unit)) (key : Str) :
    Except Panic (List KVPair × AList (fun _ : Str => Unit)) :=
  if E.isKeyInDomain key start end_ then
    match cache.lookup key with
    | none => .error .nilDeref
    | some cacheValue => .ok (acc.1 ++ [⟨key, cacheValue.value⟩], acc.2.erase key)
  else .ok acc

/-- The second loop of `dirtyItems` from a list element `e = sitem :: rest` on, `tail`
being the loop from `e.Next()` on; the argument is the remaining `unsorted` slice. -/
def mergeFrom (sitem : KVPair) (rest : List KVPair) (tail : List KVPair → List KVPair) :
    List KVPair → List KVPair
  | [] => sitem :: rest
  | uitem :: unsorted =>
    match compare uitem.key sitem.key with
    | .lt => uitem :: mergeFrom sitem rest tail unsorted
    | .gt => sitem :: tail (uitem :: unsorted)
    | .eq => uitem :: tail unsorted

/-- The second and third loops of `dirtyItems`: the list `sortedCache` from the cursor on,
after the remaining `unsorted` items have been inserted, overwritten or pushed back. -/
def mergeSorted : List KVPair → List KVPair → List KVPair
  | [], unsorted => unsorted
  | sitem :: rest, unsorted => mergeFrom sitem rest (mergeSorted rest) unsorted

/-- The method `dirtyItems`. -/
def dirtyItems (E : Deps) (store : cacheStore σ) (start end_ : Bytes) :
    Except Panic (cacheStore σ) :=
  match forEach (dirtyStep E store.cache start end_) ([], store.unsortedCache)
      store.unsortedCache.keys with
  | .error e => .error e
  | .ok (unsorted, unsortedCache) =>
    .ok { store with
      unsortedCache := unsortedCache
      sortedCache := mergeSorted store.sortedCache (sortPairs unsorted) }

/-- The direction-aware comparison of the merge iterator: for a descending iteration
the order of the keys is inverted. -/
def compareDir (ascending : Bool) (a b : Str) : Ordering :=
  if ascending then compare a b else compare b a

/-- Modelled from the spec: `newMemIterator` (not in this file), §4.4: the sequence drawn
from the `sorted` structure intersected with `[start, end)`, in ascending or descending
order; a tombstone is surfaced as an item whose value is absent. -/
def newMemIterator (E : Deps) (start end_ : Bytes) (items : List KVPair) (ascending : Bool) :
    List KVPair :=
  let itemsInDomain := items.filter (fun item => E.isKeyInDomain item.key start end_)
  if ascending then itemsInDomain else itemsInDomain.reverse

/-- Modelled from the spec: one step of the merge iterator (§4.5) when the parent iterator
stands at `pitem :: prest`, `tail` being the merge once the parent has advanced; the
argument is what remains of the cache iterator. -/
def mergeEmitFrom (ascending : Bool) (pitem : KVPair) (prest : List KVPair)
    (tail : List KVPair → List KVPair) : List KVPair → List KVPair
  | [] => pitem :: prest
  | citem :: crest =>
    match compareDir ascending pitem.key citem.key with
    | .lt => pitem :: tail (citem :: crest)
    | .gt =>
      if citem.value = none then mergeEmitFrom ascending pitem prest tail crest
      else citem :: mergeEmitFrom ascending pitem prest tail crest
    | .eq =>
      if citem.value = none then tail crest
      else citem :: tail crest

/-- Modelled from the spec: `newCacheMergeIterator` (not in this file), §4.5, as the whole
sequence it emits: the two-way merge by key of the parent iterator and the cache iterator,
the cache entry winning on equal keys and tombstoned cache entries being skipped. -/
def newCacheMergeIterator (ascending : Bool) : List KVPair → List KVPair → List KVPair
  | [], cache => cache.filter (fun citem => citem.value != none)
  | pitem :: prest, cache =>
    mergeEmitFrom ascending pitem prest (newCacheMergeIterator ascending prest) cache

/-- The method `iterator`; the result is the sequence the returned iterator emits. -/
def iterator (E : Deps) (P : StoreOps σ) (store : cacheStore σ) (start end_ : Bytes)
    (ascending : Bool) : Except Panic (List KVPair × cacheStore σ) :=
  match (if ascending then P.iterator store.parent start end_
         else P.reverseIterator store.parent start end_) with
  | .error e => .error e
  | .ok (parent, parentState) =>
    match dirtyItems E { store with parent := parentState } start end_ with
    | .error e => .error e
    | .ok store1 =>
      .ok (newCacheMergeIterator ascending parent
            (newMemIterator E start end_ store1.sortedCache ascending), store1)

/-- The method `Iterator`. -/
def Iterator (E : Deps) (P : StoreOps σ) (store : cacheStore σ) (start end_ : Bytes) :
    Except Panic (List KVPair × cacheStore σ) :=
  iterator E P store start end_ true

/-- The method `ReverseIterator`. -/
def ReverseIterator (E : Deps) (P : StoreOps σ) (store : cacheStore σ) (start end_ : Bytes) :
    Except Panic (List KVPair × cacheStore σ) :=
  iterator E P store start end_ false

/-- The cache store as a `types.Store`: it has all three optional capabilities. -/
def ops (E : Deps) (P : StoreOps σ) : StoreOps (cacheStore σ) where
  get := Get E P
  has := Has E P
  set := Set E
  delete := Delete E
  iterator := Iterator E P
  reverseIterator := ReverseIterator E P
  writeThrough := some (WriteThrough P)
  flush := some (Flush P)
  clearThrough := some (ClearThrough P)

end cacheStore

/-- A call of a public method of a cache store. -/
inductive Op
  | get (key : Bytes)
  | has (key : Bytes)
  | set (key value : Bytes)
  | delete (key : Bytes)
  | write
  | writeThrough (n : Int)
  | flush
  | clearThrough
  | iterator (start end_ : Bytes)
  | reverseIterator (start end_ : Bytes)
  | cacheWrap
deriving DecidableEq

/-- The state of a cache store after one call of a public method; the value the call
returns is dropped. `CacheWrap` builds a new store and leaves this one as it is. -/
def exec {σ : Type} (E : Deps) (P : StoreOps σ) (store : cacheStore σ) :
    Op → Except Panic (cacheStore σ)
  | .get key => (cacheStore.Get E P store key).map Prod.snd
  | .has key => (cacheStore.Has E P store key).map Prod.snd
  | .set key value => cacheStore.Set E store key value
  | .delete key => cacheStore.Delete E store key
  | .write => cacheStore.Write P store
  | .writeThrough n => cacheStore.WriteThrough P store n
  | .flush => cacheStore.Flush P store
  | .clearThrough => cacheStore.ClearThrough P store
  | .iterator start end_ => (cacheStore.Iterator E P store start end_).map Prod.snd
  | .reverseIterator start end_ =>
    (cacheStore.ReverseIterator E P store start end_).map Prod.snd
  | .cacheWrap => .ok store

/-- The state after a sequence of calls, each made on the state the previous one left. -/
def run {σ : Type} (E : Deps) (P : StoreOps σ) (store : cacheStore σ) (calls : List Op) :
    Except Panic (cacheStore σ) :=
  forEach (exec E P) store calls

/-- The states of a cache store that calls of its public methods can reach from `New`. -/
inductive Reachable {σ : Type} (E : Deps) (P : StoreOps σ) : cacheStore σ → Prop
  | new (parent : σ) : Reachable E P (cacheStore.New parent)
  | step (store store1 : cacheStore σ) (op : Op) :
      Reachable E P store → exec E P store op = .ok store1 → Reachable E P store1

/-- A chain of `n` cache stores stacked over a store of state `σ`, the top one first. -/
def Stack (σ : Type) : Nat → Type
  | 0 => σ
  | n + 1 => cacheStore (Stack σ n)

/-- The operations of a chain of `n` cache stores over the store `P`. -/
def stackOps {σ : Type} (E : Deps) (P : StoreOps σ) : (n : Nat) → StoreOps (Stack σ n)
  | 0 => P
  | n + 1 => cacheStore.ops E (stackOps E P n)

/-- A call a store receives from the cache store above it. -/
inductive Call
  | get (key : Bytes)
  | has (key : Bytes)
  | set (key value : Bytes)
  | delete (key : Bytes)
  | iterator (start end_ : Bytes)
  | reverseIterator (start end_ : Bytes)
  | writeThrough (n : Int)
  | flush
  | clearThrough
deriving DecidableEq

/-- Whether a call is `Set` or `Delete`. -/
def Call.isWrite : Call → Bool
  | .set _ _ => true
  | .delete _ => true
  | _ => false

/-- The key a call is made with, as a map key; the empty string for a call without key. -/
def Call.key : Call → Str
  | .get key => toStr key
  | .has key => toStr key
  | .set key _ => toStr key
  | .delete key => toStr key
  | _ => []

/-- A store that records every call it receives, in order, and passes it on to `P`. -/
def logged {σ : Type} (P : StoreOps σ) : StoreOps (σ × List Call) where
  get s key := (P.get s.1 key).map (fun r => (r.1, (r.2, s.2 ++ [Call.get key])))
  has s key := (P.has s.1 key).map (fun r => (r.1, (r.2, s.2 ++ [Call.has key])))
  set s key value := (P.set s.1 key value).map (fun r => (r, s.2 ++ [Call.set key value]))
  delete s key := (P.delete s.1 key).map (fun r => (r, s.2 ++ [Call.delete key]))
  iterator s start end_ :=
    (P.iterator s.1 start end_).map (fun r => (r.1, (r.2, s.2 ++ [Call.iterator start end_])))
  reverseIterator s start end_ :=
    (P.reverseIterator s.1 start end_).map
      (fun r => (r.1, (r.2, s.2 ++ [Call.reverseIterator start end_])))
  writeThrough :=
    P.writeThrough.map
      (fun wt s n => (wt s.1 n).map (fun r => (r, s.2 ++ [Call.writeThrough n])))
  flush := P.flush.map (fun fs s => (fs s.1).map (fun r => (r, s.2 ++ [Call.flush])))
  clearThrough :=
    P.clearThrough.map (fun cts s => (cts s.1).map (fun r => (r, s.2 ++ [Call.clearThrough])))

/-- The contents of a base store: a finite map from keys to values. -/
abbrev Base := AList (fun _ : Str => List Nat)

/-- Modelled from the spec: the ordered key-value store abstraction (§2, §6), the external
store at the bottom of a chain, as a finite map: point lookups, point writes and deletes
that reject what the validity contract rejects, and ascending and descending iteration
over the keys of a range. It exposes none of the optional capabilities. -/
def baseOps (E : Deps) : StoreOps Base where
  get m key :=
    if E.validKey key = false then .error .invalidKey else .ok (m.lookup (toStr key), m)
  has m key :=
    if E.validKey key = false then .error .invalidKey
    else .ok ((m.lookup (toStr key)).isSome, m)
  set m key value :=
    if E.validKey key = false then .error .invalidKey
    else if E.validValue value = false then .error .invalidValue
    else
      match value with
      | none => .error .invalidValue
      | some v => .ok (m.insert (toStr key) v)
  delete m key :=
    if E.validKey key = false then .error .invalidKey else .ok (m.erase (toStr key))
  iterator m start end_ :=
    .ok ((sortStrings (m.keys.filter (fun k => E.isKeyInDomain k start end_))).filterMap
      (fun k => (m.lookup k).map (fun v => ⟨k, some v⟩)), m)
  reverseIterator m start end_ :=
    .ok (((sortStrings (m.keys.filter (fun k => E.isKeyInDomain k start end_))).filterMap
      (fun k => (m.lookup k).map (fun v => ⟨k, some v⟩))).reverse, m)
  writeThrough := none
  flush := none
  clearThrough := none

/-- Whether a call propagates the pending writes to the parent: `Write`, `WriteThrough`
or `Flush`. -/
def Op.isFlush : Op → Bool
  | .write => true
  | .writeThrough _ => true
  | .flush => true
  | _ => false

/-- The result of the last `Set` or `Delete` made on `key` in a sequence of calls: the
value of the `Set`, or `none` (absent) for a `Delete`; no result when the sequence has no
such call. -/
def lastWrite (key : Str) : List Op → Option Bytes
  | [] => none
  | op :: rest =>
    match lastWrite key rest with
    | some r => some r
    | none =>
      match op with
      | .set k v => if toStr k = key then some v else none
      | .delete k => if toStr k = key then some none else none
      | _ => none

/-- A concrete choice of the helpers, used in the examples: a key must be a non-empty
slice, a value must not be `nil`, and the domain `[start, end)` is unbounded above when
`end` is `nil`. -/
def stdDeps : Deps where
  validKey key := match key with
    | none => false
    | some k => k != []
  validValue value := value.isSome
  isKeyInDomain key start end_ :=
    decide (toStr start ≤ key) &&
      (match end_ with
       | none => true
       | some e => decide (key < e))

/-- The base store `{a: 1, c: 3}` of the examples. -/
def exampleBase : Base :=
  AList.insert [97] [1] (AList.insert [99] [3] ∅)

/-- The call the second loop of `Write` makes to the parent for one key: `Delete` for a
tombstone, nothing for an absent value, `Set` otherwise. -/
def callOf (cache : AList (fun _ : Str => cValue)) (key : Str) : List Call :=
  match cache.lookup key with
  | none => []
  | some cacheValue =>
    if cacheValue.deleted then [Call.delete (toBytes key)]
    else
      match cacheValue.value with
      | none => []
      | some v => [Call.set (toBytes key) (some v)]

/-- The calls `Write` makes to the parent, in order. -/
def writeCalls {σ : Type} (store : cacheStore σ) : List Call :=
  (cacheStore.writeKeys store).flatMap (callOf store.cache)

/-- The value `store.cache[key].value` that `dirtyItems` reads for a key; absent when the
key has a tombstone or a negative entry (or no entry). -/
def cachedValue (cache : AList (fun _ : Str => cValue)) (key : Str) : Bytes :=
  (cache.lookup key).bind cValue.value

/-- The `unsorted` slice that the first loop of `dirtyItems` collects from the keys it
visits: one pair for each key in the domain. -/
def dirtyBatch (E : Deps) (cache : AList (fun _ : Str => cValue)) (start end_ : Bytes)
    (keys : List Str) : List KVPair :=
  (keys.filter (fun k => E.isKeyInDomain k start end_)).map
    (fun k => ⟨k, cachedValue cache k⟩)

/-- The invariant of the three structures of a cache store. -/
structure Inv {σ : Type} (store : cacheStore σ) : Prop where
  unsorted_dirty : ∀ k, k ∈ store.unsortedCache →
    ∃ cv, store.cache.lookup k = some cv ∧ cv.dirty = true
  sorted_dirty : ∀ kv ∈ store.sortedCache,
    ∃ cv, store.cache.lookup kv.key = some cv ∧ cv.dirty = true ∧
      (kv.key ∉ store.unsortedCache → kv.value = cv.value)
  sorted_asc : store.sortedCache.Pairwise (fun a b => a.key < b.key)
  dirty_indexed : ∀ k cv, store.cache.lookup k = some cv → cv.dirty = true →
    k ∈ store.unsortedCache ∨ ∃ kv ∈ store.sortedCache, kv.key = k
  tombstone_nil : ∀ k cv, store.cache.lookup k = some cv → cv.dirty = true →
    cv.deleted = true → cv.value = none

/-- The dirty entries of a cache store are what `Set` and `Delete` install for arguments
that pass validation: the key is valid, and the entry is either a tombstone with an absent
value or holds a valid, present value. -/
def DirtyValid {σ : Type} (E : Deps) (store : cacheStore σ) : Prop :=
  ∀ k cv, store.cache.lookup k = some cv → cv.dirty = true →
    E.validKey (toBytes k) = true ∧
      ((cv.deleted = true ∧ cv.value = none) ∨
        (cv.deleted = false ∧ ∃ v, cv.value = some v ∧ E.validValue (some v) = true))

/-- A store whose reading calls leave what it holds as it is: `view` gives the value held
for each key, and `Get`, `Has`, `Iterator`, `ReverseIterator` and `ClearThrough` do not
change it. -/
structure ReadsKeep {σ : Type} (P : StoreOps σ) (view : σ → Str → Bytes) : Prop where
  get : ∀ p key value p1, P.get p key = .ok (value, p1) → view p1 = view p
  has : ∀ p key b p1, P.has p key = .ok (b, p1) → view p1 = view p
  iterator : ∀ p start end_ items p1,
    P.iterator p start end_ = .ok (items, p1) → view p1 = view p
  reverseIterator : ∀ p start end_ items p1,
    P.reverseIterator p start end_ = .ok (items, p1) → view p1 = view p
  clearThrough : ∀ cts p p1, P.clearThrough = some cts → cts p = .ok p1 → view p1 = view p

/-- What a dirty entry for a key stands for: `some (some v)` for a pending `Set` of `v`,
`some none` for a pending `Delete`, and `none` when the key has no dirty entry. -/
def pendingOf (cache : AList (fun _ : Str => cValue)) (key : Str) : Option Bytes :=
  match cache.lookup key with
  | none => none
  | some cv => if cv.dirty then some (if cv.deleted then none else cv.value) else none

/-- A store that takes valid writes as a map does: `view` tells what the store holds for
each key, a `Set` of `v` makes it `fset v` and a `Delete` makes it `fdel`, for that key
only, and neither changes the part `below`. -/
structure WriteSpec {σ τ γ : Type} (E : Deps) (P : StoreOps σ) (view : σ → Str → γ)
    (fset : List Nat → γ) (fdel : γ) (below : σ → τ) : Prop where
  set : ∀ p k v, E.validKey (toBytes k) = true → E.validValue (some v) = true →
    ∃ p1, P.set p (toBytes k) (some v) = .ok p1 ∧
      view p1 = Function.update (view p) k (fset v) ∧ below p1 = below p
  delete : ∀ p k, E.validKey (toBytes k) = true →
    ∃ p1, P.delete p (toBytes k) = .ok p1 ∧
      view p1 = Function.update (view p) k fdel ∧ below p1 = below p

/-- What the pending writes of `key` amount to after one more call: a flush leaves none,
a `Set` or `Delete` on the key replaces them, any other call keeps them. -/
def pendingStep (key : Str) (acc : Option Bytes) (op : Op) : Option Bytes :=
  if op.isFlush then none
  else
    match op with
    | .set k v => if toStr k = key then some v else acc
    | .delete k => if toStr k = key then some none else acc
    | _ => acc

/-- The last local operation on `key` not yet flushed, after a sequence of calls on a new
store: `some v` for `Set(key, v)`, `some none` for `Delete(key)`, and `none` when the key
was not written since the last flush. -/
def pendingWrite (key : Str) (calls : List Op) : Option Bytes :=
  calls.foldl (pendingStep key) none

/-- The state of the store at the bottom of a chain. -/
def Stack.bottom {σ : Type} : (n : Nat) → Stack σ n → σ
  | 0, s => s
  | n + 1, s => Stack.bottom n (cacheStore.parent s)

/-- The chain of `n` empty cache stores over a store in state `p`. -/
def Stack.empty {σ : Type} (p : σ) : (n : Nat) → Stack σ n
  | 0 => p
  | n + 1 => cacheStore.New (Stack.empty p n)

/-- The topmost dirty entry for a key among the `n` cache stores of a chain. -/
def Stack.pending {σ : Type} : (n : Nat) → Stack σ n → Str → Option Bytes
  | 0, _, _ => none
  | n + 1, s, k =>
    match pendingOf (cacheStore.cache s) k with
    | some r => some r
    | none => Stack.pending n (cacheStore.parent s) k

/-- The dirty entries of all the `n` cache stores of a chain are valid. -/
def Stack.valid {σ : Type} (E : Deps) : (n : Nat) → Stack σ n → Prop
  | 0, _ => True
  | n + 1, s => @DirtyValid (Stack σ n) E s ∧ Stack.valid E n (cacheStore.parent s)

/-- The calls of the examples: `Set(b, 2)`, `Delete(a)`, `Get(c)`, an iteration over
`[a, z)`, then `Set(a, 7)`. -/
def exampleCalls : List Op :=
  [.set (some [98]) (some [2]), .delete (some [97]), .get (some [99]),
   .iterator (some [97]) (some [122]), .set (some [97]) (some [7])]

/-- The state of a cache store over `exampleBase` after `exampleCalls`, over the parent
state `parent`. -/
def exampleState {σ : Type} (parent : σ) : cacheStore σ where
  cache :=
    AList.insert [97] ⟨some [7], false, true⟩
      (AList.insert [99] ⟨some [3], false, false⟩
        (AList.insert [98] ⟨some [2], false, true⟩ ∅))
  unsortedCache := AList.insert [97] () ∅
  sortedCache := [⟨[97], none⟩, ⟨[98], some [2]⟩]
  parent := parent

/-- The cache store of the examples: `exampleState` over `exampleBase`. -/
def exampleStore : cacheStore Base := exampleState exampleBase

/-- The base store after the pending writes of `exampleStore` reached it. -/
def exampleWritten : Base :=
  AList.insert [98] [2] (AList.insert [97] [7] exampleBase)

/-- The state `exampleStore` after `ClearThrough`: the clean entry of `c` is gone. -/
def exampleCleared : cacheStore Base where
  cache :=
    AList.insert [97] ⟨some [7], false, true⟩ (AList.insert [98] ⟨some [2], false, true⟩ ∅)
  unsortedCache := AList.insert [97] () ∅
  sortedCache := [⟨[97], none⟩, ⟨[98], some [2]⟩]
  parent := exampleBase

/-- The calls of the example of the specification: `Set(b, 2)`, then `Delete(a)`. -/
def specCalls : List Op :=
  [.set (some [98]) (some [2]), .delete (some [97])]

/-- Every call of the store `P` that returns keeps the property `I` of its state. -/
structure OpsKeep {σ : Type} (P : StoreOps σ) (I : σ → Prop) : Prop where
  get : ∀ p key value p1, I p → P.get p key = .ok (value, p1) → I p1
  has : ∀ p key b p1, I p → P.has p key = .ok (b, p1) → I p1
  set : ∀ p key value p1, I p → P.set p key value = .ok p1 → I p1
  delete : ∀ p key p1, I p → P.delete p key = .ok p1 → I p1
  iterator : ∀ p start end_ items p1, I p → P.iterator p start end_ = .ok (items, p1) → I p1
  reverseIterator : ∀ p start end_ items p1, I p →
    P.reverseIterator p start end_ = .ok (items, p1) → I p1
  writeThrough : ∀ wt p n p1, P.writeThrough = some wt → I p → wt p n = .ok p1 → I p1
  flush : ∀ fs p p1, P.flush = some fs → I p → fs p = .ok p1 → I p1
  clearThrough : ∀ cts p p1, P.clearThrough = some cts → I p → cts p = .ok p1 → I p1

/-- No dirty entry of the cache map takes the skip branch of `Write`: a dirty entry that
is not a tombstone has a value. -/
def NoSkip {σ : Type} (store : cacheStore σ) : Prop :=
  ∀ k cv, store.cache.lookup k = some cv → cv.dirty = true → cv.deleted = false →
    cv.value ≠ none

/-- The state of a cache store over an empty base store that records its calls, after
`Delete(a)`. -/
def deletedAbsent : cacheStore (Base × List Call) where
  cache := AList.insert [97] ⟨none, true, true⟩ ∅
  unsortedCache := AList.insert [97] () ∅
  sortedCache := []
  parent := (∅, [])

/-- The state of a cache store over `exampleBase` that records its calls, after
`specCalls`: a pending `Set(b, 2)` and a tombstone for `a`, and no call made yet. -/
def specLogged : cacheStore (Base × List Call) where
  cache :=
    AList.insert [97] ⟨none, true, true⟩ (AList.insert [98] ⟨some [2], false, true⟩ ∅)
  unsortedCache := AList.insert [97] () (AList.insert [98] () ∅)
  sortedCache := []
  parent := (exampleBase, [])

/-- What a call leaves behind: the store as the call leaves it, when it returns and when
it panics alike, and the value it returns or its panic. When a call to the parent panics,
the parent is recorded in the state it had before that call. -/
structure Outcome (σ α : Type) where
  store : cacheStore σ
  result : Except Panic α

/-- A loop `for _, x := range xs` whose body may panic, with the state in which the loop
ends: after the last turn, or before the turn that panicked. -/
def forEachOutcome {α β : Type} (f : β → α → Except Panic β) : β → List α → β × Option Panic
  | b, [] => (b, none)
  | b, a :: as =>
    match f b a with
    | .error e => (b, some e)
    | .ok b1 => forEachOutcome f b1 as

namespace Traced

variable {σ : Type}

/-- The method `Get`, with the state of the store at its end. -/
def Get (E : Deps) (P : StoreOps σ) (store : cacheStore σ) (key : Bytes) : Outcome σ Bytes :=
  if E.validKey key = false then ⟨store, .error .invalidKey⟩
  else
    match store.cache.lookup (toStr key) with
    | none =>
      match P.get store.parent key with
      | .error e => ⟨store, .error e⟩
      | .ok (value, parent) =>
        ⟨cacheStore.setCacheValue { store with parent := parent } key value false false,
          .ok value⟩
    | some cacheValue => ⟨store, .ok cacheValue.value⟩

/-- The method `Set`, with the state of the store at its end. -/
def Set (E : Deps) (store : cacheStore σ) (key value : Bytes) : Outcome σ Unit :=
  if E.validKey key = false then ⟨store, .error .invalidKey⟩
  else if E.validValue value = false then ⟨store, .error .invalidValue⟩
  else ⟨cacheStore.setCacheValue store key value false true, .ok ()⟩

/-- The method `Delete`, with the state of the store at its end. -/
def Delete (E : Deps) (store : cacheStore σ) (key : Bytes) : Outcome σ Unit :=
  if E.validKey key = false then ⟨store, .error .invalidKey⟩
  else ⟨cacheStore.setCacheValue store key none true true, .ok ()⟩

/-- The method `Write`, with the state of the store at its end: when a call to the parent
panics the cache has not been cleared. -/
def Write (P : StoreOps σ) (store : cacheStore σ) : Outcome σ Unit :=
  match forEachOutcome (cacheStore.writeKey P store.cache) store.parent
      (cacheStore.writeKeys store) with
  | (parent, some e) => ⟨{ store with parent := parent }, .error e⟩
  | (parent, none) => ⟨cacheStore.clear { store with parent := parent }, .ok ()⟩

/-- The method `WriteThrough`, with the state of the store at its end. -/
def WriteThrough (P : StoreOps σ) (store : cacheStore σ) (n : Int) : Outcome σ Unit :=
  if n ≤ 0 then ⟨store, .error .shouldNotHappen⟩
  else
    match Write P store with
    | ⟨store1, .error e⟩ => ⟨store1, .error e⟩
    | ⟨store1, .ok _⟩ =>
      if n ≥ 2 then
        match P.writeThrough with
        | none => ⟨store1, .error .typeAssertion⟩
        | some wt =>
          match wt store1.parent (n - 1) with
          | .error e => ⟨store1, .error e⟩
          | .ok parent => ⟨{ store1 with parent := parent }, .ok ()⟩
      else ⟨store1, .ok ()⟩

end Traced

/-- A store none of whose writing calls raises the panic of the guard of `WriteThrough`:
`Set` and `Delete` never do, and `WriteThrough` does not for a positive level count. -/
structure NoGuardPanic {σ : Type} (P : StoreOps σ) : Prop where
  set : ∀ p key value, P.set p key value ≠ .error .shouldNotHappen
  delete : ∀ p key, P.delete p key ≠ .error .shouldNotHappen
  writeThrough : ∀ wt p n, P.writeThrough = some wt → 1 ≤ n →
    wt p n ≠ .error .shouldNotHappen

end Cache

/-!
# Measurement stack

A shallow embedding of `benchmarking/stack.go`: the package-level stack of running
measurements. The globals `measurementStack` and `stackSize` are the fields of an explicit
state; a slot of the slice holds `none` for a `nil` pointer; an `int` is a 64-bit machine
integer; a run-time panic is the `Except.error` result.
-/

namespace Benchmarking

/-- The run-time panics of the operations on the stack. -/
inductive Fault
  | indexOutOfRange
  | nilDereference
  | makeslice
deriving DecidableEq

/-- What `stack.go` uses and is declared elsewhere: the type `measurement` with its
methods `pause`, `resume` and `end`, its field `allocation` (as the update
`allocation += size`), the constructor `startNewMeasurement`, and the longest slice that
`make` allocates on the platform. -/
structure Env (M : Type) where
  startNewMeasurement : Nat → M
  pause : M → M
  resume : M → M
  end_ : M → Nat → M
  addAllocation : M → Nat → M
  maxLen : Nat

/-- The constant `initStackSize`. -/
def initStackSize : Int := 64

/-- The package-level variables `measurementStack` and `stackSize`. -/
structure State (M : Type) where
  measurementStack : List (Option M)
  stackSize : Int

/-- The result of an arithmetic operation on `int`: the value wrapped to 64 bits. -/
def wrapInt (x : Int) : Int :=
  (x + 2 ^ 63) % 2 ^ 64 - 2 ^ 63

/-- The call `make([]*measurement, n)`: a slice of `n` nil pointers; it panics when `n` is
negative or exceeds what the platform allocates. -/
def make {M : Type} (E : Env M) (n : Int) : Except Fault (List (Option M)) :=
  if n < 0 ∨ (E.maxLen : Int) < n then .error .makeslice
  else .ok (List.replicate n.toNat none)

/-- The call `copy(dst, src)`: the first `min(len(dst), len(src))` elements of `dst` are
overwritten by those of `src`. -/
def copy {α : Type} (dst src : List α) : List α :=
  src.take dst.length ++ dst.drop src.length

/-- A method call `measurementStack[i].f()` on the measurement that slot `i` points to:
it panics when `i` is out of range or the slot is `nil`. -/
def callAt {M : Type} (stack : List (Option M)) (i : Int) (f : M → M) :
    Except Fault (List (Option M)) :=
  if i < 0 ∨ (stack.length : Int) ≤ i then .error .indexOutOfRange
  else
    match stack.get? i.toNat with
    | none => .error .indexOutOfRange
    | some none => .error .nilDereference
    | some (some m) => .ok (stack.set i.toNat (some (f m)))

/-- The assignment `measurementStack[i] = m`: it panics when `i` is out of range. -/
def assignAt {M : Type} (stack : List (Option M)) (i : Int) (m : M) :
    Except Fault (List (Option M)) :=
  if i < 0 ∨ (stack.length : Int) ≤ i then .error .indexOutOfRange
  else .ok (stack.set i.toNat (some m))

/-- The function `initStack`. -/
def initStack {M : Type} (E : Env M) (st : State M) : Except Fault (State M) :=
  match make E initStackSize with
  | .error e => .error e
  | .ok stack => .ok { st with measurementStack := stack }

/-- The first statement of `StartMeasurement`: the measurement on top of the stack, if
there is one, is paused. -/
def pauseTop {M : Type} (E : Env M) (st : State M) : Except Fault (List (Option M)) :=
  if st.stackSize ≠ 0 then callAt st.measurementStack (st.stackSize - 1) E.pause
  else .ok st.measurementStack

/-- The second statement of `StartMeasurement`: a full slice is replaced by one of twice
the length, holding the same pointers. -/
def grow {M : Type} (E : Env M) (stackSize : Int) (stack : List (Option M)) :
    Except Fault (List (Option M)) :=
  if stackSize = (stack.length : Int) then
    match make E (wrapInt (stackSize * 2)) with
    | .error e => .error e
    | .ok newStack => .ok (copy newStack stack)
  else .ok stack

/-- The function `StartMeasurement`. -/
def StartMeasurement {M : Type} (E : Env M) (st : State M) (opCode : Nat) :
    Except Fault (State M) :=
  match pauseTop E st with
  | .error e => .error e
  | .ok stack1 =>
    match grow E st.stackSize stack1 with
    | .error e => .error e
    | .ok stack2 =>
      match assignAt stack2 st.stackSize (E.startNewMeasurement opCode) with
      | .error e => .error e
      | .ok stack3 =>
        .ok { measurementStack := stack3, stackSize := wrapInt (st.stackSize + 1) }

/-- The function `Pause`. -/
def Pause {M : Type} (E : Env M) (st : State M) : Except Fault (State M) :=
  if st.stackSize ≠ 0 then
    match callAt st.measurementStack (st.stackSize - 1) E.pause with
    | .error e => .error e
    | .ok stack => .ok { st with measurementStack := stack }
  else .ok st

/-- The function `Resume`. -/
def Resume {M : Type} (E : Env M) (st : State M) : Except Fault (State M) :=
  if st.stackSize ≠ 0 then
    match callAt st.measurementStack (st.stackSize - 1) E.resume with
    | .error e => .error e
    | .ok stack => .ok { st with measurementStack := stack }
  else .ok st

/-- The function `StopMeasurement`. -/
def StopMeasurement {M : Type} (E : Env M) (st : State M) (size : Nat) :
    Except Fault (State M) :=
  if st.stackSize = 0 then .ok st
  else
    match callAt st.measurementStack (st.stackSize - 1) (fun m => E.end_ m size) with
    | .error e => .error e
    | .ok stack1 =>
      let stackSize1 := wrapInt (st.stackSize - 1)
      if stackSize1 ≠ 0 then
        match callAt stack1 (stackSize1 - 1) E.resume with
        | .error e => .error e
        | .ok stack2 => .ok { measurementStack := stack2, stackSize := stackSize1 }
      else .ok { measurementStack := stack1, stackSize := stackSize1 }

/-- The function `RecordAllocation`. -/
def RecordAllocation {M : Type} (E : Env M) (st : State M) (size : Nat) :
    Except Fault (State M) :=
  if st.stackSize = 0 then .ok st
  else
    match callAt st.measurementStack (st.stackSize - 1)
        (fun m => E.addAllocation m size) with
    | .error e => .error e
    | .ok stack => .ok { st with measurementStack := stack }

/-- A call of one of the five exported functions. -/
inductive Call
  | start (opCode : Nat)
  | stop (size : Nat)
  | pause
  | resume
  | recordAllocation (size : Nat)
deriving DecidableEq

/-- The state after one call. -/
def exec {M : Type} (E : Env M) (st : State M) : Call → Except Fault (State M)
  | .start opCode => StartMeasurement E st opCode
  | .stop size => StopMeasurement E st size
  | .pause => Pause E st
  | .resume => Resume E st
  | .recordAllocation size => RecordAllocation E st size

/-- The state after a sequence of calls; a panic ends the sequence. -/
def run {M : Type} (E : Env M) : State M → List Call → Except Fault (State M)
  | st, [] => .ok st
  | st, c :: cs =>
    match exec E st c with
    | .error e => .error e
    | .ok st1 => run E st1 cs

/-- The stack is in bounds: `0 <= stackSize <= len(measurementStack)`, the slice is not
empty and not longer than what `make` allocates, and every slot below `stackSize` holds a
measurement. -/
structure InBounds {M : Type} (E : Env M) (st : State M) : Prop where
  nonneg : 0 ≤ st.stackSize
  le_len : st.stackSize ≤ (st.measurementStack.length : Int)
  len_pos : 0 < st.measurementStack.length
  len_max : st.measurementStack.length ≤ E.maxLen
  filled : ∀ i : Nat, (i : Int) < st.stackSize →
    ∃ m, st.measurementStack.get? i = some (some m)

/-- A concrete choice of the measurement operations, for the examples: a measurement is a
number of events, and at most `2 ^ 20` slots are allocated. -/
def exampleEnv : Env Nat where
  startNewMeasurement opCode := opCode
  pause m := m + 1
  resume m := m + 1
  end_ m size := m + size
  addAllocation m size := m + size
  maxLen := 2 ^ 20

end Benchmarking

namespace Cache

section

variable {σ : Type}

theorem forEach_nil {α β : Type} (f : β → α → Except Panic β) (b : β) :
    forEach f b [] = .ok b := rfl

theorem forEach_cons_ok {α β : Type} (f : β → α → Except Panic β) (b b1 : β) (a : α)
    (as : List α) (h : f b a = .ok b1) : forEach f b (a :: as) = forEach f b1 as := by
  simp [forEach, h]

theorem forEach_cons_inv {α β : Type} (f : β → α → Except Panic β) (b b2 : β) (a : α)
    (as : List α) (h : forEach f b (a :: as) = .ok b2) :
    ∃ b1, f b a = .ok b1 ∧ forEach f b1 as = .ok b2 := by
  unfold forEach at h
  cases hf : f b a with
  | error e => simp [hf] at h
  | ok b1 => exact ⟨b1, rfl, by simpa [hf] using h⟩

namespace cacheStore

theorem setCacheValue_cache (store : cacheStore σ) (key value : Bytes) (deleted dirty : Bool) :
    (setCacheValue store key value deleted dirty).cache =
      store.cache.insert (toStr key) ⟨value, deleted, dirty⟩ := by
  unfold setCacheValue
  cases dirty <;> rfl

theorem setCacheValue_parent (store : cacheStore σ) (key value : Bytes) (deleted dirty : Bool) :
    (setCacheValue store key value deleted dirty).parent = store.parent := by
  unfold setCacheValue
  cases dirty <;> rfl

theorem setCacheValue_sortedCache (store : cacheStore σ) (key value : Bytes)
    (deleted dirty : Bool) :
    (setCacheValue store key value deleted dirty).sortedCache = store.sortedCache := by
  unfold setCacheValue
  cases dirty <;> rfl

theorem setCacheValue_unsorted_clean (store : cacheStore σ) (key value : Bytes)
    (deleted : Bool) :
    (setCacheValue store key value deleted false).unsortedCache = store.unsortedCache := rfl

theorem setCacheValue_unsorted_dirty (store : cacheStore σ) (key value : Bytes)
    (deleted : Bool) :
    (setCacheValue store key value deleted true).unsortedCache =
      store.unsortedCache.insert (toStr key) () := rfl

/-- A cache hit: `Get` returns the cached value and leaves the store as it is. -/
theorem Get_hit (E : Deps) (P : StoreOps σ) (store : cacheStore σ) (key : Bytes)
    (cv : cValue) (hk : E.validKey key = true)
    (hc : store.cache.lookup (toStr key) = some cv) :
    Get E P store key = .ok (cv.value, store) := by
  simp [Get, hk, hc]

/-- A cache miss: `Get` asks the parent and records a clean entry. -/
theorem Get_miss (E : Deps) (P : StoreOps σ) (store : cacheStore σ) (key value : Bytes)
    (parent : σ) (hk : E.validKey key = true)
    (hc : store.cache.lookup (toStr key) = none)
    (hp : P.get store.parent key = .ok (value, parent)) :
    Get E P store key =
      .ok (value, setCacheValue { store with parent := parent } key value false false) := by
  simp [Get, hk, hc, hp]

end cacheStore

/-- C4 (read-through caching): when a valid key has no entry in the cache and the parent
answers `Get` with `value`, `Get` returns `value`, records the clean entry
`{value, deleted = false, dirty = false}`, leaves `unsortedCache` and `sortedCache` as they
are and makes the one call `Get(key)` to the parent; a second `Get` right after returns
the same value and leaves the store, and with it the record of the calls the parent
received, unchanged. -/
theorem C4_read_through (E : Deps) (P : StoreOps σ) (store : cacheStore (σ × List Call))
    (key value : Bytes) (parent : σ)
    (hk : E.validKey key = true)
    (hmiss : store.cache.lookup (toStr key) = none)
    (hp : P.get store.parent.1 key = .ok (value, parent)) :
    ∃ store1 : cacheStore (σ × List Call),
      cacheStore.Get E (logged P) store key = .ok (value, store1) ∧
      store1.cache.lookup (toStr key) = some ⟨value, false, false⟩ ∧
      store1.unsortedCache = store.unsortedCache ∧
      store1.sortedCache = store.sortedCache ∧
      store1.parent = (parent, store.parent.2 ++ [Call.get key]) ∧
      cacheStore.Get E (logged P) store1 key = .ok (value, store1) := by
  have hlp : (logged P).get store.parent key =
      .ok (value, (parent, store.parent.2 ++ [Call.get key])) := by
    simp [logged, hp, Except.map]
  refine ⟨_, cacheStore.Get_miss E (logged P) store key value _ hk hmiss hlp, ?_, ?_, ?_, ?_, ?_⟩
  · rw [cacheStore.setCacheValue_cache]; exact AList.lookup_insert _
  · rfl
  · rfl
  · rfl
  · exact cacheStore.Get_hit E (logged P) _ key ⟨value, false, false⟩ hk
      (by rw [cacheStore.setCacheValue_cache]; exact AList.lookup_insert _)

end

section

variable {σ : Type}

namespace cacheStore

/-- The body of the loop of `clearClean`. -/
theorem clearClean_eq (store : cacheStore σ) :
    clearClean store = store.cache.entries.foldl
      (fun st e =>
        if e.2.dirty = false then
          { st with cache := st.cache.erase e.1, unsortedCache := st.unsortedCache.erase e.1 }
        else st) store := rfl

theorem clearFold_frame (l : List (Sigma fun _ : Str => cValue)) (st : cacheStore σ) :
    (l.foldl (fun (st : cacheStore σ) e =>
        if e.2.dirty = false then
          { st with cache := st.cache.erase e.1, unsortedCache := st.unsortedCache.erase e.1 }
        else st) st).sortedCache = st.sortedCache ∧
    (l.foldl (fun (st : cacheStore σ) e =>
        if e.2.dirty = false then
          { st with cache := st.cache.erase e.1, unsortedCache := st.unsortedCache.erase e.1 }
        else st) st).parent = st.parent := by
  induction l generalizing st with
  | nil => exact ⟨rfl, rfl⟩
  | cons e l ih =>
    simp only [List.foldl_cons]
    by_cases hd : e.2.dirty = false
    · rw [if_pos hd]
      exact ih _
    · rw [if_neg hd]
      exact ih _

theorem clearFold_lookup (l : List (Sigma fun _ : Str => cValue)) (st : cacheStore σ)
    (k : Str) :
    (l.foldl (fun (st : cacheStore σ) e =>
        if e.2.dirty = false then
          { st with cache := st.cache.erase e.1, unsortedCache := st.unsortedCache.erase e.1 }
        else st) st).cache.lookup k =
      if (∃ e ∈ l, e.1 = k ∧ e.2.dirty = false) then none else st.cache.lookup k := by
  induction l generalizing st with
  | nil => simp
  | cons e l ih =>
    simp only [List.foldl_cons]
    rw [ih]
    by_cases hl : ∃ e ∈ l, e.1 = k ∧ e.2.dirty = false
    · have : ∃ e1 ∈ e :: l, e1.1 = k ∧ e1.2.dirty = false := by
        obtain ⟨e1, h1, h2⟩ := hl
        exact ⟨e1, List.mem_cons_of_mem _ h1, h2⟩
      rw [if_pos hl, if_pos this]
    · rw [if_neg hl]
      by_cases hd : e.2.dirty = false
      · rw [if_pos hd]
        by_cases hk : e.1 = k
        · have : ∃ e1 ∈ e :: l, e1.1 = k ∧ e1.2.dirty = false :=
            ⟨e, List.mem_cons_self _ _, hk, hd⟩
          rw [if_pos this, ← hk]
          exact AList.lookup_erase _ _
        · have : ¬ ∃ e1 ∈ e :: l, e1.1 = k ∧ e1.2.dirty = false := by
            rintro ⟨e1, h1, h2, h3⟩
            rcases List.mem_cons.1 h1 with h | h
            · exact hk (h ▸ h2)
            · exact hl ⟨e1, h, h2, h3⟩
          rw [if_neg this]
          exact AList.lookup_erase_ne (fun h => hk h.symm)
      · rw [if_neg hd]
        have : ¬ ∃ e1 ∈ e :: l, e1.1 = k ∧ e1.2.dirty = false := by
          rintro ⟨e1, h1, h2, h3⟩
          rcases List.mem_cons.1 h1 with h | h
          · exact hd (h ▸ h3)
          · exact hl ⟨e1, h, h2, h3⟩
        rw [if_neg this]

/-- After `clearClean` the cache holds exactly the dirty entries it held before. -/
theorem clearClean_lookup (store : cacheStore σ) (k : Str) :
    (clearClean store).cache.lookup k =
      (store.cache.lookup k).filter (fun cv => cv.dirty) := by
  rw [clearClean_eq, clearFold_lookup]
  cases hc : store.cache.lookup k with
  | none => simp
  | some cv =>
    by_cases hd : cv.dirty = true
    · have hno : ¬ ∃ e ∈ store.cache.entries, e.1 = k ∧ e.2.dirty = false := by
        rintro ⟨⟨k1, cv1⟩, h1, h2, h3⟩
        simp only at h2 h3
        subst h2
        have : cv1 ∈ store.cache.lookup k1 := AList.mem_lookup_iff.2 h1
        rw [hc] at this
        have : cv = cv1 := by simpa using this
        rw [this] at hd
        rw [hd] at h3
        exact absurd h3 (by simp)
      rw [if_neg hno]
      simp [Option.filter, hd]
    · have hyes : ∃ e ∈ store.cache.entries, e.1 = k ∧ e.2.dirty = false :=
        ⟨⟨k, cv⟩, AList.mem_lookup_iff.1 (by rw [hc]; exact rfl), rfl, by simpa using hd⟩
      rw [if_pos hyes]
      simp [Option.filter, hd]

theorem clearClean_sortedCache (store : cacheStore σ) :
    (clearClean store).sortedCache = store.sortedCache :=
  (clearFold_frame _ store).1

theorem clearClean_parent (store : cacheStore σ) :
    (clearClean store).parent = store.parent :=
  (clearFold_frame _ store).2

theorem clearFold_dirty (l : List (Sigma fun _ : Str => cValue)) (st : cacheStore σ)
    (h : ∀ e ∈ l, e.2.dirty = true) :
    l.foldl (fun (st : cacheStore σ) e =>
        if e.2.dirty = false then
          { st with cache := st.cache.erase e.1, unsortedCache := st.unsortedCache.erase e.1 }
        else st) st = st := by
  induction l generalizing st with
  | nil => rfl
  | cons e l ih =>
    simp only [List.foldl_cons]
    have hd : e.2.dirty = true := h e (List.mem_cons_self _ _)
    rw [if_neg (by simp [hd])]
    exact ih st (fun e1 h1 => h e1 (List.mem_cons_of_mem _ h1))

theorem clearClean_all_dirty (store : cacheStore σ) :
    ∀ e ∈ (clearClean store).cache.entries, e.2.dirty = true := by
  rintro ⟨k, cv⟩ he
  have h1 : cv ∈ (clearClean store).cache.lookup k := AList.mem_lookup_iff.2 he
  rw [clearClean_lookup] at h1
  cases hc : store.cache.lookup k with
  | none => simp [hc, Option.filter] at h1
  | some cv0 =>
    rw [hc] at h1
    by_cases hd : cv0.dirty = true
    · simp [Option.filter, hd] at h1
      simpa [← h1] using hd
    · simp [Option.filter, hd] at h1

/-- A second `clearClean` changes nothing. -/
theorem clearClean_idem (store : cacheStore σ) :
    clearClean (clearClean store) = clearClean store := by
  conv_lhs => rw [clearClean_eq]
  exact clearFold_dirty _ _ (clearClean_all_dirty store)

theorem erase_of_not_mem {β : Type} (m : AList (fun _ : Str => β)) (k : Str) (h : k ∉ m) :
    m.erase k = m := by
  apply AList.ext
  exact List.kerase_of_not_mem_keys (by simpa [AList.mem_keys] using h)

theorem clearFold_unsorted (l : List (Sigma fun _ : Str => cValue)) (st : cacheStore σ)
    (h : ∀ e ∈ l, e.2.dirty = false → e.1 ∉ st.unsortedCache) :
    (l.foldl (fun (st : cacheStore σ) e =>
        if e.2.dirty = false then
          { st with cache := st.cache.erase e.1, unsortedCache := st.unsortedCache.erase e.1 }
        else st) st).unsortedCache = st.unsortedCache := by
  induction l generalizing st with
  | nil => rfl
  | cons e l ih =>
    simp only [List.foldl_cons]
    by_cases hd : e.2.dirty = false
    · rw [if_pos hd]
      have he : e.1 ∉ st.unsortedCache := h e (List.mem_cons_self _ _) hd
      rw [ih]
      · exact erase_of_not_mem _ _ he
      · intro e1 h1 hd1
        show e1.1 ∉ st.unsortedCache.erase e.1
        rw [erase_of_not_mem _ _ he]
        exact h e1 (List.mem_cons_of_mem _ h1) hd1
    · rw [if_neg hd]
      exact ih st (fun e1 h1 => h e1 (List.mem_cons_of_mem _ h1))

/-- `dirtyItems` touches neither the cache map nor the parent. -/
theorem dirtyItems_frame (E : Deps) (store store1 : cacheStore σ) (start end_ : Bytes)
    (h : dirtyItems E store start end_ = .ok store1) :
    store1.cache = store.cache ∧ store1.parent = store.parent := by
  unfold dirtyItems at h
  split at h
  · exact absurd h (by simp)
  · simp only [Except.ok.injEq] at h
    subst h
    exact ⟨rfl, rfl⟩

theorem iterator_cache (E : Deps) (P : StoreOps σ) (store store1 : cacheStore σ)
    (start end_ : Bytes) (ascending : Bool) (items : List KVPair)
    (h : iterator E P store start end_ ascending = .ok (items, store1)) :
    store1.cache = store.cache := by
  unfold iterator at h
  split at h
  · exact absurd h (by simp)
  · split at h
    · exact absurd h (by simp)
    · rename_i hd
      simp only [Except.ok.injEq, Prod.mk.injEq] at h
      rw [← h.2]
      exact (dirtyItems_frame E _ _ _ _ hd).1

end cacheStore

end

section

variable {σ : Type}

theorem map_snd_ok {α β : Type} (x : Except Panic (α × β)) (b : β)
    (h : x.map Prod.snd = .ok b) : ∃ a, x = .ok (a, b) := by
  cases x with
  | error e => simp [Except.map] at h
  | ok r =>
    simp only [Except.map, Except.ok.injEq] at h
    exact ⟨r.1, by rw [← h]⟩

namespace cacheStore

/-- What `Get` leaves in the cache map: the map as it was, or the map with a clean entry
for a key that had none. -/
theorem Get_cache (E : Deps) (P : StoreOps σ) (store store1 : cacheStore σ) (key value : Bytes)
    (h : Get E P store key = .ok (value, store1)) :
    store1.cache = store.cache ∨
      (store.cache.lookup (toStr key) = none ∧
        store1.cache = store.cache.insert (toStr key) ⟨value, false, false⟩) := by
  unfold Get at h
  split at h
  · exact absurd h (by simp)
  · split at h
    · rename_i hc
      split at h
      · exact absurd h (by simp)
      · simp only [Except.ok.injEq, Prod.mk.injEq] at h
        right
        refine ⟨hc, ?_⟩
        rw [← h.2, setCacheValue_cache, h.1]
    · simp only [Except.ok.injEq, Prod.mk.injEq] at h
      left
      rw [← h.2]

theorem Has_cache (E : Deps) (P : StoreOps σ) (store store1 : cacheStore σ) (key : Bytes)
    (b : Bool) (h : Has E P store key = .ok (b, store1)) :
    ∃ value, Get E P store key = .ok (value, store1) ∧ b = (value != none) := by
  unfold Has at h
  split at h
  · exact absurd h (by simp)
  · rename_i value st hg
    simp only [Except.ok.injEq, Prod.mk.injEq] at h
    exact ⟨value, by rw [hg, h.2], h.1.symm⟩

theorem ClearThrough_cache (P : StoreOps σ) (store store1 : cacheStore σ)
    (h : ClearThrough P store = .ok store1) :
    store1.cache = (clearClean store).cache ∧
    store1.unsortedCache = (clearClean store).unsortedCache ∧
    store1.sortedCache = (clearClean store).sortedCache := by
  unfold ClearThrough at h
  simp only at h
  split at h
  · simp only [Except.ok.injEq] at h
    rw [← h]
    exact ⟨rfl, rfl, rfl⟩
  · split at h
    · exact absurd h (by simp)
    · simp only [Except.ok.injEq] at h
      rw [← h]
      exact ⟨rfl, rfl, rfl⟩

end cacheStore

/-- A call that neither flushes nor writes `k` keeps a dirty entry of `k` as it is. -/
theorem exec_keeps_dirty (E : Deps) (P : StoreOps σ) (store store1 : cacheStore σ) (op : Op)
    (k : Str) (cv : cValue)
    (hc : store.cache.lookup k = some cv) (hd : cv.dirty = true)
    (hnf : op.isFlush = false) (hnw : lastWrite k [op] = none)
    (hex : exec E P store op = .ok store1) :
    store1.cache.lookup k = some cv := by
  cases op with
  | get key =>
    obtain ⟨value, hg⟩ := map_snd_ok _ _ hex
    rcases cacheStore.Get_cache E P _ _ _ _ hg with h | ⟨h1, h2⟩
    · rw [h]; exact hc
    · rw [h2]
      have hne : k ≠ toStr key := by
        intro he
        rw [he, h1] at hc
        exact absurd hc (by simp)
      rw [AList.lookup_insert_ne hne]; exact hc
  | has key =>
    obtain ⟨b, hg⟩ := map_snd_ok _ _ hex
    obtain ⟨value, hg, -⟩ := cacheStore.Has_cache E P _ _ _ _ hg
    rcases cacheStore.Get_cache E P _ _ _ _ hg with h | ⟨h1, h2⟩
    · rw [h]; exact hc
    · rw [h2]
      have hne : k ≠ toStr key := by
        intro he
        rw [he, h1] at hc
        exact absurd hc (by simp)
      rw [AList.lookup_insert_ne hne]; exact hc
  | set key value =>
    have hne : k ≠ toStr key := by
      intro he
      simp [lastWrite, he] at hnw
    simp only [exec, cacheStore.Set] at hex
    split at hex
    · exact absurd hex (by simp)
    · split at hex
      · exact absurd hex (by simp)
      · simp only [Except.ok.injEq] at hex
        rw [← hex, cacheStore.setCacheValue_cache, AList.lookup_insert_ne hne]
        exact hc
  | delete key =>
    have hne : k ≠ toStr key := by
      intro he
      simp [lastWrite, he] at hnw
    simp only [exec, cacheStore.Delete] at hex
    split at hex
    · exact absurd hex (by simp)
    · simp only [Except.ok.injEq] at hex
      rw [← hex, cacheStore.setCacheValue_cache, AList.lookup_insert_ne hne]
      exact hc
  | write => simp [Op.isFlush] at hnf
  | writeThrough n => simp [Op.isFlush] at hnf
  | flush => simp [Op.isFlush] at hnf
  | clearThrough =>
    simp only [exec] at hex
    rw [(cacheStore.ClearThrough_cache P _ _ hex).1, cacheStore.clearClean_lookup, hc]
    simp [Option.filter, hd]
  | iterator start end_ =>
    obtain ⟨items, hg⟩ := map_snd_ok _ _ hex
    rw [cacheStore.iterator_cache E P _ _ _ _ _ _ hg]; exact hc
  | reverseIterator start end_ =>
    obtain ⟨items, hg⟩ := map_snd_ok _ _ hex
    rw [cacheStore.iterator_cache E P _ _ _ _ _ _ hg]; exact hc
  | cacheWrap =>
    simp only [exec, Except.ok.injEq] at hex
    rw [← hex]; exact hc

/-- A `Set` or `Delete` on `k` leaves a dirty entry for `k` holding what was written. -/
theorem exec_write_dirty (E : Deps) (P : StoreOps σ) (store store1 : cacheStore σ) (op : Op)
    (k : Str) (r : Bytes)
    (hw : lastWrite k [op] = some r)
    (hex : exec E P store op = .ok store1) :
    ∃ cv, store1.cache.lookup k = some cv ∧ cv.dirty = true ∧ cv.value = r := by
  cases op with
  | set key value =>
    simp only [lastWrite] at hw
    split at hw
    · rename_i he
      simp only [Option.some.injEq] at hw
      simp only [exec, cacheStore.Set] at hex
      split at hex
      · exact absurd hex (by simp)
      · split at hex
        · exact absurd hex (by simp)
        · simp only [Except.ok.injEq] at hex
          refine ⟨⟨value, false, true⟩, ?_, rfl, hw⟩
          rw [← hex, cacheStore.setCacheValue_cache, ← he]
          exact AList.lookup_insert _
    · exact absurd hw (by simp)
  | delete key =>
    simp only [lastWrite] at hw
    split at hw
    · rename_i he
      simp only [Option.some.injEq] at hw
      simp only [exec, cacheStore.Delete] at hex
      split at hex
      · exact absurd hex (by simp)
      · simp only [Except.ok.injEq] at hex
        refine ⟨⟨none, true, true⟩, ?_, rfl, hw⟩
        rw [← hex, cacheStore.setCacheValue_cache, ← he]
        exact AList.lookup_insert _
    · exact absurd hw (by simp)
  | get _ => simp [lastWrite] at hw
  | has _ => simp [lastWrite] at hw
  | write => simp [lastWrite] at hw
  | writeThrough _ => simp [lastWrite] at hw
  | flush => simp [lastWrite] at hw
  | clearThrough => simp [lastWrite] at hw
  | iterator _ _ => simp [lastWrite] at hw
  | reverseIterator _ _ => simp [lastWrite] at hw
  | cacheWrap => simp [lastWrite] at hw

theorem lastWrite_cons (k : Str) (op : Op) (rest : List Op) :
    lastWrite k (op :: rest) =
      match lastWrite k rest with
      | some r => some r
      | none => lastWrite k [op] := by
  cases h : lastWrite k rest with
  | some r => simp [lastWrite, h]
  | none => cases op <;> simp [lastWrite, h]

theorem run_keeps_dirty (E : Deps) (P : StoreOps σ) (calls : List Op) :
    ∀ (store store1 : cacheStore σ) (k : Str) (cv : cValue),
      store.cache.lookup k = some cv → cv.dirty = true →
      (∀ op ∈ calls, op.isFlush = false) → lastWrite k calls = none →
      run E P store calls = .ok store1 → store1.cache.lookup k = some cv := by
  induction calls with
  | nil =>
    intro store store1 k cv hc _ _ _ hrun
    simp only [run, forEach, Except.ok.injEq] at hrun
    rw [← hrun]; exact hc
  | cons op rest ih =>
    intro store store1 k cv hc hd hnf hnw hrun
    obtain ⟨s1, h1, h2⟩ := forEach_cons_inv _ _ _ _ _ hrun
    rw [lastWrite_cons] at hnw
    cases hr : lastWrite k rest with
    | some r => simp [hr] at hnw
    | none =>
      rw [hr] at hnw
      have hs1 := exec_keeps_dirty E P store s1 op k cv hc hd
        (hnf op (List.mem_cons_self _ _)) hnw h1
      exact ih s1 store1 k cv hs1 hd (fun o ho => hnf o (List.mem_cons_of_mem _ ho)) hr h2

theorem run_last_write (E : Deps) (P : StoreOps σ) (calls : List Op) :
    ∀ (store store1 : cacheStore σ) (k : Str) (r : Bytes),
      (∀ op ∈ calls, op.isFlush = false) → lastWrite k calls = some r →
      run E P store calls = .ok store1 →
      ∃ cv, store1.cache.lookup k = some cv ∧ cv.dirty = true ∧ cv.value = r := by
  induction calls with
  | nil =>
    intro store store1 k r _ hw _
    simp [lastWrite] at hw
  | cons op rest ih =>
    intro store store1 k r hnf hw hrun
    obtain ⟨s1, h1, h2⟩ := forEach_cons_inv _ _ _ _ _ hrun
    rw [lastWrite_cons] at hw
    cases hr : lastWrite k rest with
    | some r1 =>
      rw [hr] at hw
      simp only [Option.some.injEq] at hw
      subst hw
      exact ih s1 store1 k r1 (fun o ho => hnf o (List.mem_cons_of_mem _ ho)) hr h2
    | none =>
      rw [hr] at hw
      obtain ⟨cv, hc, hd, hv⟩ := exec_write_dirty E P store s1 op k r hw h1
      exact ⟨cv, run_keeps_dirty E P rest s1 store1 k cv hc hd
        (fun o ho => hnf o (List.mem_cons_of_mem _ ho)) hr h2, hd, hv⟩

/-- C1 (last-write-wins): take any store state, any parent, and any sequence of calls
without `Write`, `WriteThrough` or `Flush` that runs without a panic. If the last `Set` or
`Delete` of the sequence on the key is `Set(key, v)` then `Get(key)` on the final state
returns `v`, and if it is `Delete(key)` then `Get(key)` returns absent (`lastWrite` gives
`some v`, or `none` for absent), whatever the parent holds; the final `Get` does not
change the store. -/
theorem C1_last_write_wins (E : Deps) (P : StoreOps σ) (store store1 : cacheStore σ)
    (calls : List Op) (key r : Bytes)
    (hk : E.validKey key = true)
    (hnf : ∀ op ∈ calls, op.isFlush = false)
    (hrun : run E P store calls = .ok store1)
    (hlast : lastWrite (toStr key) calls = some r) :
    cacheStore.Get E P store1 key = .ok (r, store1) := by
  obtain ⟨cv, hc, -, hv⟩ := run_last_write E P calls store store1 (toStr key) r hnf hlast hrun
  rw [← hv]
  exact cacheStore.Get_hit E P store1 key cv hk hc

end

section

variable {σ : Type}

namespace cacheStore

theorem dirtyKeys_nodup (cache : AList (fun _ : Str => cValue)) :
    ((cache.entries.filter (fun e => e.2.dirty)).map (fun e => e.1)).Nodup := by
  have h : (cache.entries.map (fun e => e.1)).Nodup := cache.keys_nodup
  exact h.sublist ((List.filter_sublist _).map _)

theorem mem_dirtyKeys (cache : AList (fun _ : Str => cValue)) (k : Str) :
    k ∈ (cache.entries.filter (fun e => e.2.dirty)).map (fun e => e.1) ↔
      ∃ cv, cache.lookup k = some cv ∧ cv.dirty = true := by
  constructor
  · intro h
    obtain ⟨⟨k1, cv⟩, h1, h2⟩ := List.mem_map.1 h
    simp only at h2
    subst h2
    obtain ⟨h3, h4⟩ := List.mem_filter.1 h1
    exact ⟨cv, by simpa using (AList.mem_lookup_iff.2 h3), by simpa using h4⟩
  · rintro ⟨cv, h1, h2⟩
    have h3 : (⟨k, cv⟩ : Sigma fun _ : Str => cValue) ∈ cache.entries :=
      AList.mem_lookup_iff.1 (by rw [h1]; exact rfl)
    exact List.mem_map.2 ⟨⟨k, cv⟩, List.mem_filter.2 ⟨h3, by simpa using h2⟩, rfl⟩

theorem sortStrings_perm (keys : List Str) : (sortStrings keys).Perm keys :=
  List.perm_insertionSort _ _

theorem sortStrings_sorted (keys : List Str) : (sortStrings keys).Sorted (fun a b => a ≤ b) :=
  List.sorted_insertionSort _ _

theorem sortStrings_strict (keys : List Str) (h : keys.Nodup) :
    (sortStrings keys).Sorted (fun a b => a < b) :=
  (sortStrings_sorted keys).lt_of_le ((sortStrings_perm keys).nodup_iff.2 h)

theorem sortStrings_congr (l1 l2 : List Str) (h : l1.Perm l2) :
    sortStrings l1 = sortStrings l2 :=
  List.eq_of_perm_of_sorted
    (((sortStrings_perm l1).trans h).trans (sortStrings_perm l2).symm)
    (sortStrings_sorted l1) (sortStrings_sorted l2)

/-- The keys `Write` visits are the keys of the dirty entries. -/
theorem mem_writeKeys (store : cacheStore σ) (k : Str) :
    k ∈ writeKeys store ↔ ∃ cv, store.cache.lookup k = some cv ∧ cv.dirty = true := by
  unfold writeKeys
  rw [(sortStrings_perm _).mem_iff]
  exact mem_dirtyKeys _ _

/-- The keys `Write` visits are strictly ascending. -/
theorem writeKeys_sorted (store : cacheStore σ) :
    (writeKeys store).Sorted (fun a b => a < b) :=
  sortStrings_strict _ (dirtyKeys_nodup _)

theorem writeKeys_nodup (store : cacheStore σ) : (writeKeys store).Nodup :=
  (sortStrings_perm _).nodup_iff.2 (dirtyKeys_nodup _)

/-- The keys `Write` visits do not depend on the order of the entries of the map. -/
theorem writeKeys_perm (store store2 : cacheStore σ)
    (h : store2.cache.entries.Perm store.cache.entries) :
    writeKeys store2 = writeKeys store := by
  unfold writeKeys
  exact sortStrings_congr _ _ ((h.filter _).map _)

theorem writeKey_perm (P : StoreOps σ) (c1 c2 : AList (fun _ : Str => cValue))
    (h : c2.entries.Perm c1.entries) : writeKey P c2 = writeKey P c1 := by
  funext parent key
  unfold writeKey
  rw [AList.perm_lookup h]

/-- The result of `Write` does not depend on the order of the entries of the map. -/
theorem Write_perm (P : StoreOps σ) (store store2 : cacheStore σ)
    (h : store2.cache.entries.Perm store.cache.entries) (hp : store2.parent = store.parent) :
    Write P store2 = Write P store := by
  unfold Write
  rw [writeKeys_perm store store2 h, writeKey_perm P _ _ h, hp]
  rfl

/-- A successful `Write` leaves a store that is empty, over the parent the loop left. -/
theorem Write_ok (P : StoreOps σ) (store store1 : cacheStore σ)
    (h : Write P store = .ok store1) :
    ∃ parent, forEach (writeKey P store.cache) store.parent (writeKeys store) = .ok parent ∧
      store1 = New parent := by
  unfold Write at h
  split at h
  · exact absurd h (by simp)
  · rename_i parent hf
    simp only [Except.ok.injEq] at h
    exact ⟨parent, hf, h.symm⟩

theorem Write_of_loop (P : StoreOps σ) (store : cacheStore σ) (parent : σ)
    (h : forEach (writeKey P store.cache) store.parent (writeKeys store) = .ok parent) :
    Write P store = .ok (New parent) := by
  unfold Write
  rw [h]
  rfl

end cacheStore

theorem callOf_isWrite (cache : AList (fun _ : Str => cValue)) (k : Str) :
    ∀ c ∈ callOf cache k, c.isWrite = true ∧ c.key = k := by
  intro c hc
  unfold callOf at hc
  split at hc
  · simp at hc
  · split at hc
    · simp only [List.mem_singleton] at hc
      subst hc
      exact ⟨rfl, rfl⟩
    · split at hc
      · simp at hc
      · simp only [List.mem_singleton] at hc
        subst hc
        exact ⟨rfl, rfl⟩

theorem callOf_keys (cache : AList (fun _ : Str => cValue)) (keys : List Str) :
    ((keys.flatMap (callOf cache)).map Call.key).Sublist keys := by
  induction keys with
  | nil => simp
  | cons k rest ih =>
    simp only [List.flatMap_cons, List.map_append]
    have hk : (callOf cache k).map Call.key = [] ∨ (callOf cache k).map Call.key = [k] := by
      unfold callOf
      split
      · left; rfl
      · split
        · right; rfl
        · split
          · left; rfl
          · right; rfl
    rcases hk with hk | hk
    · rw [hk]
      exact List.Sublist.cons _ ih
    · rw [hk]
      exact List.Sublist.cons₂ _ ih

/-- The second loop of `Write`, run against a recording parent, appends to the record the
calls of `callOf`, key by key. -/
theorem writeLoop_log (P : StoreOps σ) (cache : AList (fun _ : Str => cValue))
    (keys : List Str) :
    ∀ (p p1 : σ × List Call),
      forEach (cacheStore.writeKey (logged P) cache) p keys = .ok p1 →
      p1.2 = p.2 ++ keys.flatMap (callOf cache) := by
  induction keys with
  | nil =>
    intro p p1 h
    simp only [forEach, Except.ok.injEq] at h
    simp [← h]
  | cons k rest ih =>
    intro p p1 h
    obtain ⟨p2, h1, h2⟩ := forEach_cons_inv _ _ _ _ _ h
    have h3 := ih p2 p1 h2
    rw [h3, List.flatMap_cons, ← List.append_assoc]
    congr 1
    cases hc : cache.lookup k with
    | none => simp [cacheStore.writeKey, hc] at h1
    | some cv =>
      by_cases hd : cv.deleted = true
      · have h4 : (logged P).delete p (toBytes k) = .ok p2 := by
          simpa [cacheStore.writeKey, hc, hd] using h1
        have h5 : callOf cache k = [Call.delete (toBytes k)] := by
          simp [callOf, hc, hd]
        rw [h5]
        simp only [logged] at h4
        cases hp : P.delete p.1 (toBytes k) with
        | error e => simp [hp, Except.map] at h4
        | ok r =>
          simp only [hp, Except.map, Except.ok.injEq] at h4
          rw [← h4]
      · cases hv : cv.value with
        | none =>
          have h4 : p2 = p := by
            simpa [cacheStore.writeKey, hc, hd, hv] using h1.symm
          have h5 : callOf cache k = [] := by
            simp [callOf, hc, hd, hv]
          rw [h5, h4]
          simp
        | some v =>
          have h4 : (logged P).set p (toBytes k) (some v) = .ok p2 := by
            simpa [cacheStore.writeKey, hc, hd, hv] using h1
          have h5 : callOf cache k = [Call.set (toBytes k) (some v)] := by
            simp [callOf, hc, hd, hv]
          rw [h5]
          simp only [logged] at h4
          cases hp : P.set p.1 (toBytes k) (some v) with
          | error e => simp [hp, Except.map] at h4
          | ok r =>
            simp only [hp, Except.map, Except.ok.injEq] at h4
            rw [← h4]

/-- C7 (deterministic flush order): the calls that a `Write` which returns has made to
the parent are all `Set` or `Delete` calls, their keys are strictly ascending in the
byte-wise lexicographic order, no key occurs twice, every key has a dirty cache entry,
and a store whose cache map holds the same entries in another order makes `Write` return
the same result, record of calls included. -/
theorem C7_flush_order (P : StoreOps σ) (store store1 : cacheStore (σ × List Call))
    (h : cacheStore.Write (logged P) store = .ok store1) :
    ∃ calls : List Call,
      store1.parent.2 = store.parent.2 ++ calls ∧
      (∀ c ∈ calls, c.isWrite = true) ∧
      (calls.map Call.key).Sorted (fun a b => a < b) ∧
      (calls.map Call.key).Nodup ∧
      (∀ c ∈ calls, ∃ cv, store.cache.lookup c.key = some cv ∧ cv.dirty = true) ∧
      (∀ store2 : cacheStore (σ × List Call),
        store2.cache.entries.Perm store.cache.entries → store2.parent = store.parent →
        cacheStore.Write (logged P) store2 = .ok store1) := by
  obtain ⟨parent, hloop, hs1⟩ := cacheStore.Write_ok _ _ _ h
  have hlog := writeLoop_log P store.cache _ _ _ hloop
  have hsub := callOf_keys store.cache (cacheStore.writeKeys store)
  have hsorted : ((writeCalls store).map Call.key).Sorted (fun a b => a < b) :=
    (cacheStore.writeKeys_sorted store).sublist hsub
  refine ⟨writeCalls store, ?_, ?_, hsorted, ?_, ?_, ?_⟩
  · rw [hs1]; exact hlog
  · intro c hc
    obtain ⟨k, -, hk⟩ := List.mem_flatMap.1 hc
    exact (callOf_isWrite _ _ c hk).1
  · exact (cacheStore.writeKeys_nodup store).sublist hsub
  · intro c hc
    obtain ⟨k, hk1, hk⟩ := List.mem_flatMap.1 hc
    rw [(callOf_isWrite _ _ c hk).2]
    exact (cacheStore.mem_writeKeys store k).1 hk1
  · intro store2 hperm hpar
    rw [cacheStore.Write_perm (logged P) store store2 hperm hpar]
    exact h

end

section

namespace cacheStore

theorem mergeSorted_nil (unsorted : List KVPair) : mergeSorted [] unsorted = unsorted := rfl

theorem mergeSorted_cons_nil (s : KVPair) (ss : List KVPair) :
    mergeSorted (s :: ss) [] = s :: ss := rfl

/-- One turn of the second loop of `dirtyItems`, by the three cases of its `switch`. -/
theorem mergeSorted_cons_cons (s u : KVPair) (ss us : List KVPair) :
    mergeSorted (s :: ss) (u :: us) =
      match compare u.key s.key with
      | .lt => u :: mergeSorted (s :: ss) us
      | .gt => s :: mergeSorted ss (u :: us)
      | .eq => u :: mergeSorted ss us := by
  show mergeFrom s ss (mergeSorted ss) (u :: us) = _
  unfold mergeFrom
  cases compare u.key s.key <;> rfl

theorem mergeSorted_lt (s u : KVPair) (ss us : List KVPair) (h : u.key < s.key) :
    mergeSorted (s :: ss) (u :: us) = u :: mergeSorted (s :: ss) us := by
  rw [mergeSorted_cons_cons, compare_lt_iff_lt.2 h]

theorem mergeSorted_gt (s u : KVPair) (ss us : List KVPair) (h : s.key < u.key) :
    mergeSorted (s :: ss) (u :: us) = s :: mergeSorted ss (u :: us) := by
  rw [mergeSorted_cons_cons, compare_gt_iff_gt.2 h]

theorem mergeSorted_eq (s u : KVPair) (ss us : List KVPair) (h : u.key = s.key) :
    mergeSorted (s :: ss) (u :: us) = u :: mergeSorted ss us := by
  rw [mergeSorted_cons_cons, compare_eq_iff_eq.2 h]

/-- What the merged list holds: every item of the batch, and the items of the old list
whose key is not in the batch. -/
theorem mem_mergeSorted (n : Nat) :
    ∀ (ss us : List KVPair), ss.length + us.length ≤ n →
      ss.Pairwise (fun a b => a.key < b.key) → us.Pairwise (fun a b => a.key < b.key) →
      ∀ kv, kv ∈ mergeSorted ss us ↔ kv ∈ us ∨ (kv ∈ ss ∧ ∀ u ∈ us, u.key ≠ kv.key) := by
  induction n with
  | zero =>
    intro ss us hn _ _ kv
    have h1 : ss = [] := List.length_eq_zero.1 (by omega)
    have h2 : us = [] := List.length_eq_zero.1 (by omega)
    subst h1 h2
    simp [mergeSorted]
  | succ n ih =>
    intro ss us hn hs hu kv
    cases ss with
    | nil => simp [mergeSorted]
    | cons s ss =>
      cases us with
      | nil => simp [mergeSorted_cons_nil]
      | cons u us =>
        have hs1 := List.pairwise_cons.1 hs
        have hu1 := List.pairwise_cons.1 hu
        rcases lt_trichotomy u.key s.key with hlt | heq | hgt
        · rw [mergeSorted_lt _ _ _ _ hlt, List.mem_cons,
            ih (s :: ss) us (by simp at hn ⊢; omega) hs hu1.2]
          constructor
          · rintro (h | h | ⟨h1, h2⟩)
            · exact Or.inl (h ▸ List.mem_cons_self _ _)
            · exact Or.inl (List.mem_cons_of_mem _ h)
            · right
              refine ⟨h1, ?_⟩
              intro u1 hu2
              rcases List.mem_cons.1 hu2 with h3 | h3
              · subst h3
                rcases List.mem_cons.1 h1 with h4 | h4
                · subst h4; exact ne_of_lt hlt
                · exact ne_of_lt (lt_trans hlt (hs1.1 _ h4))
              · exact h2 u1 h3
          · rintro (h | ⟨h1, h2⟩)
            · rcases List.mem_cons.1 h with h3 | h3
              · exact Or.inl h3
              · exact Or.inr (Or.inl h3)
            · exact Or.inr (Or.inr ⟨h1, fun u1 hu2 => h2 u1 (List.mem_cons_of_mem _ hu2)⟩)
        · rw [mergeSorted_eq _ _ _ _ heq, List.mem_cons,
            ih ss us (by simp at hn ⊢; omega) hs1.2 hu1.2]
          constructor
          · rintro (h | h | ⟨h1, h2⟩)
            · exact Or.inl (h ▸ List.mem_cons_self _ _)
            · exact Or.inl (List.mem_cons_of_mem _ h)
            · right
              refine ⟨List.mem_cons_of_mem _ h1, ?_⟩
              intro u1 hu2
              rcases List.mem_cons.1 hu2 with h3 | h3
              · subst h3
                rw [heq]
                exact ne_of_lt (hs1.1 _ h1)
              · exact h2 u1 h3
          · rintro (h | ⟨h1, h2⟩)
            · rcases List.mem_cons.1 h with h3 | h3
              · exact Or.inl h3
              · exact Or.inr (Or.inl h3)
            · rcases List.mem_cons.1 h1 with h4 | h4
              · subst h4
                exact absurd heq (h2 u (List.mem_cons_self _ _))
              · exact Or.inr (Or.inr ⟨h4, fun u1 hu2 => h2 u1 (List.mem_cons_of_mem _ hu2)⟩)
        · rw [mergeSorted_gt _ _ _ _ hgt, List.mem_cons,
            ih ss (u :: us) (by simp at hn ⊢; omega) hs1.2 hu]
          constructor
          · rintro (h | h | ⟨h1, h2⟩)
            · right
              subst h
              refine ⟨List.mem_cons_self _ _, ?_⟩
              intro u1 hu2
              rcases List.mem_cons.1 hu2 with h3 | h3
              · subst h3; exact (ne_of_lt hgt).symm
              · exact (ne_of_lt (lt_trans hgt (hu1.1 _ h3))).symm
            · exact Or.inl h
            · exact Or.inr ⟨List.mem_cons_of_mem _ h1, h2⟩
          · rintro (h | ⟨h1, h2⟩)
            · exact Or.inr (Or.inl h)
            · rcases List.mem_cons.1 h1 with h4 | h4
              · exact Or.inl h4
              · exact Or.inr (Or.inr ⟨h4, h2⟩)

/-- The merged list is strictly ascending by key. -/
theorem mergeSorted_sorted (n : Nat) :
    ∀ (ss us : List KVPair), ss.length + us.length ≤ n →
      ss.Pairwise (fun a b => a.key < b.key) → us.Pairwise (fun a b => a.key < b.key) →
      (mergeSorted ss us).Pairwise (fun a b => a.key < b.key) := by
  induction n with
  | zero =>
    intro ss us hn _ _
    have h1 : ss = [] := List.length_eq_zero.1 (by omega)
    have h2 : us = [] := List.length_eq_zero.1 (by omega)
    subst h1 h2
    simp [mergeSorted]
  | succ n ih =>
    intro ss us hn hs hu
    cases ss with
    | nil => simpa [mergeSorted] using hu
    | cons s ss =>
      cases us with
      | nil => simpa [mergeSorted_cons_nil] using hs
      | cons u us =>
        have hs1 := List.pairwise_cons.1 hs
        have hu1 := List.pairwise_cons.1 hu
        rcases lt_trichotomy u.key s.key with hlt | heq | hgt
        · rw [mergeSorted_lt _ _ _ _ hlt]
          refine List.pairwise_cons.2 ⟨?_, ih (s :: ss) us (by simp at hn ⊢; omega) hs hu1.2⟩
          intro kv hkv
          rcases (mem_mergeSorted _ _ _ (le_refl _) hs hu1.2 kv).1 hkv with h | ⟨h, -⟩
          · exact hu1.1 _ h
          · rcases List.mem_cons.1 h with h4 | h4
            · subst h4; exact hlt
            · exact lt_trans hlt (hs1.1 _ h4)
        · rw [mergeSorted_eq _ _ _ _ heq]
          refine List.pairwise_cons.2 ⟨?_, ih ss us (by simp at hn ⊢; omega) hs1.2 hu1.2⟩
          intro kv hkv
          rcases (mem_mergeSorted _ _ _ (le_refl _) hs1.2 hu1.2 kv).1 hkv with h | ⟨h, -⟩
          · exact hu1.1 _ h
          · rw [heq]; exact hs1.1 _ h
        · rw [mergeSorted_gt _ _ _ _ hgt]
          refine List.pairwise_cons.2 ⟨?_, ih ss (u :: us) (by simp at hn ⊢; omega) hs1.2 hu⟩
          intro kv hkv
          rcases (mem_mergeSorted _ _ _ (le_refl _) hs1.2 hu kv).1 hkv with h | ⟨h, -⟩
          · rcases List.mem_cons.1 h with h4 | h4
            · subst h4; exact hgt
            · exact lt_trans hgt (hu1.1 _ h4)
          · exact hs1.1 _ h

end cacheStore

end

section

variable {σ : Type}

namespace cacheStore

/-- The first loop of `dirtyItems` over keys that all have a cache entry: it collects the
batch and removes the keys of the domain from `unsortedCache`. -/
theorem dirtyLoop (E : Deps) (cache : AList (fun _ : Str => cValue)) (start end_ : Bytes)
    (keys : List Str) :
    ∀ (acc : List KVPair) (uc : AList (fun _ : Str => Unit)),
      (∀ k ∈ keys, E.isKeyInDomain k start end_ = true → ∃ cv, cache.lookup k = some cv) →
      ∃ uc1, forEach (dirtyStep E cache start end_) (acc, uc) keys =
          .ok (acc ++ dirtyBatch E cache start end_ keys, uc1) ∧
        ∀ k, k ∈ uc1 ↔ k ∈ uc ∧ ¬ (k ∈ keys ∧ E.isKeyInDomain k start end_ = true) := by
  induction keys with
  | nil =>
    intro acc uc _
    exact ⟨uc, by simp [forEach, dirtyBatch], by simp⟩
  | cons k rest ih =>
    intro acc uc h
    have hrest : ∀ k1 ∈ rest, E.isKeyInDomain k1 start end_ = true →
        ∃ cv, cache.lookup k1 = some cv :=
      fun k1 h1 => h k1 (List.mem_cons_of_mem _ h1)
    by_cases hd : E.isKeyInDomain k start end_ = true
    · obtain ⟨cv, hcv⟩ := h k (List.mem_cons_self _ _) hd
      obtain ⟨uc1, h1, h2⟩ := ih (acc ++ [⟨k, cv.value⟩]) (uc.erase k) hrest
      refine ⟨uc1, ?_, ?_⟩
      · rw [forEach_cons_ok _ _ (acc ++ [⟨k, cv.value⟩], uc.erase k)]
        · rw [h1]
          simp [dirtyBatch, hd, cachedValue, hcv]
        · simp [dirtyStep, hd, hcv]
      · intro k1
        rw [h2, AList.mem_erase]
        constructor
        · rintro ⟨⟨h3, h4⟩, h5⟩
          refine ⟨h4, ?_⟩
          rintro ⟨h6, h7⟩
          rcases List.mem_cons.1 h6 with h8 | h8
          · exact h3 h8
          · exact h5 ⟨h8, h7⟩
        · rintro ⟨h3, h4⟩
          refine ⟨⟨?_, h3⟩, fun h5 => h4 ⟨List.mem_cons_of_mem _ h5.1, h5.2⟩⟩
          intro h6
          exact h4 ⟨h6 ▸ List.mem_cons_self _ _, h6 ▸ hd⟩
    · obtain ⟨uc1, h1, h2⟩ := ih acc uc hrest
      refine ⟨uc1, ?_, ?_⟩
      · rw [forEach_cons_ok _ _ (acc, uc)]
        · rw [h1]
          simp [dirtyBatch, hd]
        · simp [dirtyStep, hd]
      · intro k1
        rw [h2]
        constructor
        · rintro ⟨h3, h4⟩
          refine ⟨h3, ?_⟩
          rintro ⟨h6, h7⟩
          rcases List.mem_cons.1 h6 with h8 | h8
          · exact hd (h8 ▸ h7)
          · exact h4 ⟨h8, h7⟩
        · rintro ⟨h3, h4⟩
          exact ⟨h3, fun h5 => h4 ⟨List.mem_cons_of_mem _ h5.1, h5.2⟩⟩

theorem sortPairs_perm (items : List KVPair) : (sortPairs items).Perm items :=
  List.perm_insertionSort _ _

theorem sortPairs_sorted (items : List KVPair)
    (h : (items.map KVPair.key).Nodup) :
    (sortPairs items).Pairwise (fun a b => a.key < b.key) := by
  haveI : IsTotal KVPair (fun a b => a.key ≤ b.key) := ⟨fun a b => le_total a.key b.key⟩
  haveI : IsTrans KVPair (fun a b => a.key ≤ b.key) := ⟨fun a b c h1 h2 => le_trans h1 h2⟩
  have h1 : (sortPairs items).Pairwise (fun a b => a.key ≤ b.key) :=
    List.sorted_insertionSort _ _
  have h2 : ((sortPairs items).map KVPair.key).Nodup :=
    ((sortPairs_perm items).map _).nodup_iff.2 h
  have h3 : (sortPairs items).Pairwise (fun a b => a.key ≠ b.key) :=
    (List.pairwise_map).1 h2
  exact (h1.and h3).imp (fun h => lt_of_le_of_ne h.1 h.2)

theorem dirtyBatch_keys (E : Deps) (cache : AList (fun _ : Str => cValue)) (start end_ : Bytes)
    (keys : List Str) :
    (dirtyBatch E cache start end_ keys).map KVPair.key =
      keys.filter (fun k => E.isKeyInDomain k start end_) := by
  simp [dirtyBatch, List.map_map, Function.comp_def]

theorem mem_dirtyBatch (E : Deps) (cache : AList (fun _ : Str => cValue)) (start end_ : Bytes)
    (keys : List Str) (kv : KVPair) :
    kv ∈ dirtyBatch E cache start end_ keys ↔
      kv.key ∈ keys ∧ E.isKeyInDomain kv.key start end_ = true ∧
        kv.value = cachedValue cache kv.key := by
  unfold dirtyBatch
  rw [List.mem_map]
  constructor
  · rintro ⟨k, h1, h2⟩
    obtain ⟨h3, h4⟩ := List.mem_filter.1 h1
    subst h2
    exact ⟨h3, by simpa using h4, rfl⟩
  · rintro ⟨h1, h2, h3⟩
    refine ⟨kv.key, List.mem_filter.2 ⟨h1, by simpa using h2⟩, ?_⟩
    cases kv
    simp only at h3
    simp [h3]

/-- The effect of `dirtyItems` on a store whose unsorted keys all have a cache entry. -/
theorem dirtyItems_spec (E : Deps) (store : cacheStore σ) (start end_ : Bytes)
    (h : ∀ k, k ∈ store.unsortedCache → ∃ cv, store.cache.lookup k = some cv) :
    ∃ uc1 : AList (fun _ : Str => Unit),
      dirtyItems E store start end_ = .ok { store with
        unsortedCache := uc1
        sortedCache := mergeSorted store.sortedCache
          (sortPairs (dirtyBatch E store.cache start end_ store.unsortedCache.keys)) } ∧
      ∀ k, k ∈ uc1 ↔ k ∈ store.unsortedCache ∧ E.isKeyInDomain k start end_ = false := by
  obtain ⟨uc1, h1, h2⟩ := dirtyLoop E store.cache start end_ store.unsortedCache.keys []
    store.unsortedCache (fun k hk _ => h k (AList.mem_keys.2 hk))
  refine ⟨uc1, ?_, ?_⟩
  · unfold dirtyItems
    rw [h1]
    simp
  · intro k
    rw [h2]
    constructor
    · rintro ⟨h3, h4⟩
      refine ⟨h3, ?_⟩
      cases hd : E.isKeyInDomain k start end_ with
      | false => rfl
      | true => exact absurd ⟨AList.mem_keys.1 h3, hd⟩ h4
    · rintro ⟨h3, h4⟩
      exact ⟨h3, fun h5 => by rw [h4] at h5; exact absurd h5.2 (by simp)⟩

end cacheStore

end

section

variable {σ τ : Type}

namespace cacheStore

theorem Inv_congr (store : cacheStore σ) (store1 : cacheStore τ)
    (h1 : store1.cache = store.cache) (h2 : store1.unsortedCache = store.unsortedCache)
    (h3 : store1.sortedCache = store.sortedCache) (h : Inv store) : Inv store1 := by
  constructor
  · rw [h1, h2]; exact h.unsorted_dirty
  · rw [h1, h2, h3]; exact h.sorted_dirty
  · rw [h3]; exact h.sorted_asc
  · rw [h1, h2, h3]; exact h.dirty_indexed
  · rw [h1]; exact h.tombstone_nil

theorem Inv_New (parent : σ) : Inv (New parent) := by
  constructor
  · intro k hk
    exact absurd hk (AList.not_mem_empty k)
  · intro kv hkv
    simp [New] at hkv
  · simp [New]
  · intro k cv hc
    simp [New] at hc
  · intro k cv hc
    simp [New] at hc

theorem Inv_setCacheValue_dirty (store : cacheStore σ) (key value : Bytes) (deleted : Bool)
    (hdel : deleted = true → value = none)
    (h : Inv store) : Inv (setCacheValue store key value deleted true) := by
  constructor
  · intro k hk
    rw [setCacheValue_cache]
    by_cases hkk : k = toStr key
    · subst hkk
      exact ⟨_, AList.lookup_insert _, rfl⟩
    · rw [AList.lookup_insert_ne hkk]
      rw [setCacheValue_unsorted_dirty, AList.mem_insert] at hk
      rcases hk with hk | hk
      · exact absurd hk hkk
      · exact h.unsorted_dirty k hk
  · intro kv hkv
    rw [setCacheValue_sortedCache] at hkv
    rw [setCacheValue_cache, setCacheValue_unsorted_dirty]
    by_cases hkk : kv.key = toStr key
    · rw [hkk]
      refine ⟨_, AList.lookup_insert _, rfl, ?_⟩
      intro hn
      exact absurd ((AList.mem_insert _).2 (Or.inl rfl)) hn
    · rw [AList.lookup_insert_ne hkk]
      obtain ⟨cv, h1, h2, h3⟩ := h.sorted_dirty kv hkv
      refine ⟨cv, h1, h2, ?_⟩
      intro hn
      exact h3 (fun hm => hn ((AList.mem_insert _).2 (Or.inr hm)))
  · rw [setCacheValue_sortedCache]; exact h.sorted_asc
  · intro k cv hc hd
    rw [setCacheValue_unsorted_dirty, setCacheValue_sortedCache]
    rw [setCacheValue_cache] at hc
    by_cases hkk : k = toStr key
    · exact Or.inl ((AList.mem_insert _).2 (Or.inl hkk))
    · rw [AList.lookup_insert_ne hkk] at hc
      rcases h.dirty_indexed k cv hc hd with h1 | h1
      · exact Or.inl ((AList.mem_insert _).2 (Or.inr h1))
      · exact Or.inr h1
  · intro k cv hc hd hdl
    rw [setCacheValue_cache] at hc
    by_cases hkk : k = toStr key
    · subst hkk
      rw [AList.lookup_insert] at hc
      simp only [Option.some.injEq] at hc
      subst hc
      exact hdel hdl
    · rw [AList.lookup_insert_ne hkk] at hc
      exact h.tombstone_nil k cv hc hd hdl

theorem Inv_setCacheValue_clean (store : cacheStore σ) (key value : Bytes) (deleted : Bool)
    (hmiss : store.cache.lookup (toStr key) = none)
    (h : Inv store) : Inv (setCacheValue store key value deleted false) := by
  constructor
  · intro k hk
    rw [setCacheValue_unsorted_clean] at hk
    obtain ⟨cv, h1, h2⟩ := h.unsorted_dirty k hk
    have hkk : k ≠ toStr key := by
      intro he; rw [he, hmiss] at h1; exact absurd h1 (by simp)
    rw [setCacheValue_cache, AList.lookup_insert_ne hkk]
    exact ⟨cv, h1, h2⟩
  · intro kv hkv
    rw [setCacheValue_sortedCache] at hkv
    obtain ⟨cv, h1, h2, h3⟩ := h.sorted_dirty kv hkv
    have hkk : kv.key ≠ toStr key := by
      intro he; rw [he, hmiss] at h1; exact absurd h1 (by simp)
    rw [setCacheValue_cache, AList.lookup_insert_ne hkk, setCacheValue_unsorted_clean]
    exact ⟨cv, h1, h2, h3⟩
  · rw [setCacheValue_sortedCache]; exact h.sorted_asc
  · intro k cv hc hd
    rw [setCacheValue_unsorted_clean, setCacheValue_sortedCache]
    rw [setCacheValue_cache] at hc
    by_cases hkk : k = toStr key
    · subst hkk
      rw [AList.lookup_insert] at hc
      simp only [Option.some.injEq] at hc
      rw [← hc] at hd
      exact absurd hd (by simp)
    · rw [AList.lookup_insert_ne hkk] at hc
      exact h.dirty_indexed k cv hc hd
  · intro k cv hc hd hdl
    rw [setCacheValue_cache] at hc
    by_cases hkk : k = toStr key
    · subst hkk
      rw [AList.lookup_insert] at hc
      simp only [Option.some.injEq] at hc
      rw [← hc] at hd
      exact absurd hd (by simp)
    · rw [AList.lookup_insert_ne hkk] at hc
      exact h.tombstone_nil k cv hc hd hdl

/-- On a store that satisfies the invariant `clearClean` leaves `unsortedCache` as it is. -/
theorem clearClean_unsorted (store : cacheStore σ) (h : Inv store) :
    (clearClean store).unsortedCache = store.unsortedCache := by
  rw [clearClean_eq]
  apply clearFold_unsorted
  rintro ⟨k, cv⟩ he hd hm
  obtain ⟨cv1, h1, h2⟩ := h.unsorted_dirty k hm
  have h3 : cv ∈ store.cache.lookup k := AList.mem_lookup_iff.2 he
  rw [h1] at h3
  have h4 : cv1 = cv := by simpa using h3
  subst h4
  simp only at hd
  rw [hd] at h2
  exact absurd h2 (by simp)

theorem Inv_clearClean (store : cacheStore σ) (h : Inv store) : Inv (clearClean store) := by
  have hkeep : ∀ k cv, store.cache.lookup k = some cv → cv.dirty = true →
      (clearClean store).cache.lookup k = some cv := by
    intro k cv h1 h2
    rw [clearClean_lookup, h1]
    simp [Option.filter, h2]
  have hback : ∀ k cv, (clearClean store).cache.lookup k = some cv →
      store.cache.lookup k = some cv := by
    intro k cv h1
    rw [clearClean_lookup] at h1
    cases hc : store.cache.lookup k with
    | none => simp [hc, Option.filter] at h1
    | some cv0 =>
      rw [hc] at h1
      by_cases hd : cv0.dirty = true
      · simpa [Option.filter, hd] using h1
      · simp [Option.filter, hd] at h1
  constructor
  · intro k hk
    rw [clearClean_unsorted store h] at hk
    obtain ⟨cv, h1, h2⟩ := h.unsorted_dirty k hk
    exact ⟨cv, hkeep k cv h1 h2, h2⟩
  · intro kv hkv
    rw [clearClean_sortedCache] at hkv
    obtain ⟨cv, h1, h2, h3⟩ := h.sorted_dirty kv hkv
    rw [clearClean_unsorted store h]
    exact ⟨cv, hkeep _ cv h1 h2, h2, h3⟩
  · rw [clearClean_sortedCache]; exact h.sorted_asc
  · intro k cv hc hd
    rw [clearClean_unsorted store h, clearClean_sortedCache]
    exact h.dirty_indexed k cv (hback k cv hc) hd
  · intro k cv hc hd hdl
    exact h.tombstone_nil k cv (hback k cv hc) hd hdl

theorem cachedValue_eq (cache : AList (fun _ : Str => cValue)) (k : Str) (cv : cValue)
    (h : cache.lookup k = some cv) : cachedValue cache k = cv.value := by
  simp [cachedValue, h]

/-- The result of `dirtyItems` on a store that satisfies the invariant. -/
theorem dirtyItems_Inv (E : Deps) (store : cacheStore σ) (start end_ : Bytes) (h : Inv store) :
    ∃ store1, dirtyItems E store start end_ = .ok store1 ∧ Inv store1 ∧
      store1.cache = store.cache ∧ store1.parent = store.parent ∧
      (∀ k, k ∈ store1.unsortedCache ↔
        k ∈ store.unsortedCache ∧ E.isKeyInDomain k start end_ = false) ∧
      (∀ kv, kv ∈ store1.sortedCache ↔
        (kv ∈ dirtyBatch E store.cache start end_ store.unsortedCache.keys ∨
          (kv ∈ store.sortedCache ∧
            ¬ (kv.key ∈ store.unsortedCache ∧ E.isKeyInDomain kv.key start end_ = true)))) := by
  obtain ⟨uc1, h1, h2⟩ := dirtyItems_spec E store start end_
    (fun k hk => (h.unsorted_dirty k hk).imp (fun cv hcv => hcv.1))
  have hnd : ((dirtyBatch E store.cache start end_ store.unsortedCache.keys).map
      KVPair.key).Nodup := by
    rw [dirtyBatch_keys]
    exact (AList.keys_nodup _).sublist (List.filter_sublist _)
  have hsp := sortPairs_sorted _ hnd
  have hmem : ∀ kv, kv ∈ mergeSorted store.sortedCache
        (sortPairs (dirtyBatch E store.cache start end_ store.unsortedCache.keys)) ↔
      (kv ∈ dirtyBatch E store.cache start end_ store.unsortedCache.keys ∨
        (kv ∈ store.sortedCache ∧
          ¬ (kv.key ∈ store.unsortedCache ∧ E.isKeyInDomain kv.key start end_ = true))) := by
    intro kv
    rw [mem_mergeSorted _ _ _ (le_refl _) h.sorted_asc hsp, (sortPairs_perm _).mem_iff]
    apply or_congr Iff.rfl
    apply and_congr Iff.rfl
    constructor
    · rintro h3 ⟨h4, h5⟩
      have h6 : (⟨kv.key, cachedValue store.cache kv.key⟩ : KVPair) ∈
          dirtyBatch E store.cache start end_ store.unsortedCache.keys :=
        (mem_dirtyBatch _ _ _ _ _ _).2 ⟨AList.mem_keys.1 h4, h5, rfl⟩
      exact h3 _ ((sortPairs_perm _).mem_iff.2 h6) rfl
    · intro h3 u hu hk
      rw [(sortPairs_perm _).mem_iff, mem_dirtyBatch] at hu
      exact h3 ⟨AList.mem_keys.2 (hk ▸ hu.1), hk ▸ hu.2.1⟩
  refine ⟨_, h1, ?_, rfl, rfl, h2, hmem⟩
  constructor
  · intro k hk
    exact h.unsorted_dirty k ((h2 k).1 hk).1
  · intro kv hkv
    rcases (hmem kv).1 hkv with h3 | ⟨h3, h4⟩
    · obtain ⟨h5, h6, h7⟩ := (mem_dirtyBatch _ _ _ _ _ _).1 h3
      obtain ⟨cv, h8, h9⟩ := h.unsorted_dirty kv.key (AList.mem_keys.2 h5)
      exact ⟨cv, h8, h9, fun _ => by rw [h7, cachedValue_eq _ _ _ h8]⟩
    · obtain ⟨cv, h5, h6, h7⟩ := h.sorted_dirty kv h3
      refine ⟨cv, h5, h6, ?_⟩
      intro hn
      apply h7
      intro hm
      cases hd : E.isKeyInDomain kv.key start end_ with
      | false => exact hn ((h2 _).2 ⟨hm, hd⟩)
      | true => exact h4 ⟨hm, hd⟩
  · exact mergeSorted_sorted _ _ _ (le_refl _) h.sorted_asc hsp
  · intro k cv hc hd
    rcases h.dirty_indexed k cv hc hd with h3 | ⟨kv, h3, h4⟩
    · cases hdom : E.isKeyInDomain k start end_ with
      | false => exact Or.inl ((h2 k).2 ⟨h3, hdom⟩)
      | true =>
        right
        exact ⟨⟨k, cachedValue store.cache k⟩,
          (hmem _).2 (Or.inl ((mem_dirtyBatch _ _ _ _ _ _).2 ⟨AList.mem_keys.1 h3, hdom, rfl⟩)),
          rfl⟩
    · by_cases hb : kv.key ∈ store.unsortedCache ∧ E.isKeyInDomain kv.key start end_ = true
      · right
        exact ⟨⟨k, cachedValue store.cache k⟩,
          (hmem _).2 (Or.inl ((mem_dirtyBatch _ _ _ _ _ _).2
            ⟨AList.mem_keys.1 (h4 ▸ hb.1), h4 ▸ hb.2, rfl⟩)),
          rfl⟩
      · right
        exact ⟨kv, (hmem _).2 (Or.inr ⟨h3, hb⟩), h4⟩
  · exact h.tombstone_nil

end cacheStore

end

section

variable {σ τ : Type}

namespace cacheStore

/-- The two ways `Get` returns: a hit, or a miss answered by the parent. -/
theorem Get_cases (E : Deps) (P : StoreOps σ) (store store1 : cacheStore σ)
    (key value : Bytes) (h : Get E P store key = .ok (value, store1)) :
    E.validKey key = true ∧
    ((∃ cv, store.cache.lookup (toStr key) = some cv ∧ value = cv.value ∧ store1 = store) ∨
      (store.cache.lookup (toStr key) = none ∧
        ∃ parent, P.get store.parent key = .ok (value, parent) ∧
          store1 = setCacheValue { store with parent := parent } key value false false)) := by
  unfold Get at h
  split at h
  · exact absurd h (by simp)
  · rename_i hk
    refine ⟨by simpa using hk, ?_⟩
    split at h
    · rename_i hc
      split at h
      · exact absurd h (by simp)
      · rename_i v p hp
        simp only [Except.ok.injEq, Prod.mk.injEq] at h
        right
        refine ⟨hc, p, ?_, ?_⟩
        · rw [hp, h.1]
        · rw [← h.2, h.1]
    · rename_i cv hc
      simp only [Except.ok.injEq, Prod.mk.injEq] at h
      left
      exact ⟨cv, hc, h.1.symm, h.2.symm⟩

theorem Set_cases (E : Deps) (store store1 : cacheStore σ) (key value : Bytes)
    (h : Set E store key value = .ok store1) :
    E.validKey key = true ∧ E.validValue value = true ∧
      store1 = setCacheValue store key value false true := by
  unfold Set at h
  split at h
  · exact absurd h (by simp)
  · rename_i hk
    split at h
    · exact absurd h (by simp)
    · rename_i hv
      simp only [Except.ok.injEq] at h
      exact ⟨by simpa using hk, by simpa using hv, h.symm⟩

theorem Delete_cases (E : Deps) (store store1 : cacheStore σ) (key : Bytes)
    (h : Delete E store key = .ok store1) :
    E.validKey key = true ∧ store1 = setCacheValue store key none true true := by
  unfold Delete at h
  split at h
  · exact absurd h (by simp)
  · rename_i hk
    simp only [Except.ok.injEq] at h
    exact ⟨by simpa using hk, h.symm⟩

theorem WriteThrough_cases (P : StoreOps σ) (store store1 : cacheStore σ) (n : Int)
    (h : WriteThrough P store n = .ok store1) :
    0 < n ∧ ∃ s1, Write P store = .ok s1 ∧
      ((n < 2 ∧ store1 = s1) ∨
        (2 ≤ n ∧ ∃ wt parent, P.writeThrough = some wt ∧ wt s1.parent (n - 1) = .ok parent ∧
          store1 = { s1 with parent := parent })) := by
  unfold WriteThrough at h
  split at h
  · exact absurd h (by simp)
  · rename_i hn
    refine ⟨by omega, ?_⟩
    split at h
    · exact absurd h (by simp)
    · rename_i s1 hw
      refine ⟨s1, hw, ?_⟩
      split at h
      · rename_i h2
        split at h
        · exact absurd h (by simp)
        · rename_i wt hwt
          split at h
          · exact absurd h (by simp)
          · rename_i parent hp
            simp only [Except.ok.injEq] at h
            exact Or.inr ⟨h2, wt, parent, hwt, hp, h.symm⟩
      · rename_i h2
        simp only [Except.ok.injEq] at h
        exact Or.inl ⟨by omega, h.symm⟩

theorem Flush_cases (P : StoreOps σ) (store store1 : cacheStore σ)
    (h : Flush P store = .ok store1) :
    ∃ s1, Write P store = .ok s1 ∧
      ((P.flush = none ∧ store1 = s1) ∨
        (∃ fs parent, P.flush = some fs ∧ fs s1.parent = .ok parent ∧
          store1 = { s1 with parent := parent })) := by
  unfold Flush at h
  split at h
  · exact absurd h (by simp)
  · rename_i s1 hw
    refine ⟨s1, hw, ?_⟩
    split at h
    · rename_i hf
      simp only [Except.ok.injEq] at h
      exact Or.inl ⟨hf, h.symm⟩
    · rename_i fs hf
      split at h
      · exact absurd h (by simp)
      · rename_i parent hp
        simp only [Except.ok.injEq] at h
        exact Or.inr ⟨fs, parent, hf, hp, h.symm⟩

theorem ClearThrough_cases (P : StoreOps σ) (store store1 : cacheStore σ)
    (h : ClearThrough P store = .ok store1) :
    (P.clearThrough = none ∧ store1 = clearClean store) ∨
      (∃ cts parent, P.clearThrough = some cts ∧ cts (clearClean store).parent = .ok parent ∧
        store1 = { clearClean store with parent := parent }) := by
  unfold ClearThrough at h
  simp only at h
  split at h
  · rename_i hf
    simp only [Except.ok.injEq] at h
    exact Or.inl ⟨hf, h.symm⟩
  · rename_i cts hf
    split at h
    · exact absurd h (by simp)
    · rename_i parent hp
      simp only [Except.ok.injEq] at h
      exact Or.inr ⟨cts, parent, hf, hp, h.symm⟩

/-- How `iterator` returns: the parent's iterator, then `dirtyItems`, then the merge. -/
theorem iterator_cases (E : Deps) (P : StoreOps σ) (store store1 : cacheStore σ)
    (start end_ : Bytes) (ascending : Bool) (items : List KVPair)
    (h : iterator E P store start end_ ascending = .ok (items, store1)) :
    ∃ pitems parent,
      (if ascending then P.iterator store.parent start end_
        else P.reverseIterator store.parent start end_) = .ok (pitems, parent) ∧
      dirtyItems E { store with parent := parent } start end_ = .ok store1 ∧
      items = newCacheMergeIterator ascending pitems
        (newMemIterator E start end_ store1.sortedCache ascending) := by
  unfold iterator at h
  split at h
  · exact absurd h (by simp)
  · rename_i pitems parent hp
    split at h
    · exact absurd h (by simp)
    · rename_i s1 hd
      simp only [Except.ok.injEq, Prod.mk.injEq] at h
      refine ⟨pitems, parent, hp, ?_, ?_⟩
      · rw [hd, h.2]
      · rw [← h.1, h.2]

theorem flushed_is_New (P : StoreOps σ) (store store1 : cacheStore σ) (op : Op)
    (hf : op.isFlush = true) (E : Deps) (h : exec E P store op = .ok store1) :
    ∃ parent, store1 = New parent := by
  cases op with
  | write => exact (Write_ok P _ _ h).imp (fun p hp => hp.2)
  | writeThrough n =>
    obtain ⟨-, s1, hw, h1 | ⟨-, wt, parent, -, -, h1⟩⟩ := WriteThrough_cases P _ _ _ h
    · obtain ⟨p, -, hp⟩ := Write_ok P _ _ hw
      exact ⟨p, by rw [h1.2, hp]⟩
    · obtain ⟨p, -, hp⟩ := Write_ok P _ _ hw
      exact ⟨parent, by rw [h1, hp]; rfl⟩
  | flush =>
    obtain ⟨s1, hw, h1 | ⟨fs, parent, -, -, h1⟩⟩ := Flush_cases P _ _ h
    · obtain ⟨p, -, hp⟩ := Write_ok P _ _ hw
      exact ⟨p, by rw [h1.2, hp]⟩
    · obtain ⟨p, -, hp⟩ := Write_ok P _ _ hw
      exact ⟨parent, by rw [h1, hp]; rfl⟩
  | get _ => simp [Op.isFlush] at hf
  | has _ => simp [Op.isFlush] at hf
  | set _ _ => simp [Op.isFlush] at hf
  | delete _ => simp [Op.isFlush] at hf
  | clearThrough => simp [Op.isFlush] at hf
  | iterator _ _ => simp [Op.isFlush] at hf
  | reverseIterator _ _ => simp [Op.isFlush] at hf
  | cacheWrap => simp [Op.isFlush] at hf

end cacheStore

open cacheStore

/-- Every call of a public method preserves the invariant. -/
theorem exec_Inv (E : Deps) (P : StoreOps σ) (store store1 : cacheStore σ) (op : Op)
    (h : Inv store) (hex : exec E P store op = .ok store1) : Inv store1 := by
  have hget : ∀ key value s1, Get E P store key = .ok (value, s1) → Inv s1 := by
    intro key value s1 hg
    obtain ⟨-, ⟨cv, -, -, h1⟩ | ⟨hmiss, parent, -, h1⟩⟩ := Get_cases E P _ _ _ _ hg
    · rw [h1]; exact h
    · rw [h1]
      exact Inv_setCacheValue_clean _ _ _ _ hmiss (Inv_congr store _ rfl rfl rfl h)
  have hiter : ∀ start end_ asc items s1,
      iterator E P store start end_ asc = .ok (items, s1) → Inv s1 := by
    intro start end_ asc items s1 hi
    obtain ⟨pitems, parent, -, hd, -⟩ := iterator_cases E P _ _ _ _ _ _ hi
    obtain ⟨s2, h1, h2, -⟩ := dirtyItems_Inv E { store with parent := parent } start end_
      (Inv_congr store _ rfl rfl rfl h)
    rw [hd] at h1
    simp only [Except.ok.injEq] at h1
    rw [h1]; exact h2
  cases hop : op.isFlush with
  | true =>
    obtain ⟨parent, hp⟩ := flushed_is_New P _ _ op hop E hex
    rw [hp]; exact Inv_New parent
  | false =>
    cases op with
    | get key =>
      obtain ⟨value, hg⟩ := map_snd_ok _ _ hex
      exact hget key value store1 hg
    | has key =>
      obtain ⟨b, hg⟩ := map_snd_ok _ _ hex
      obtain ⟨value, hg, -⟩ := Has_cache E P _ _ _ _ hg
      exact hget key value store1 hg
    | set key value =>
      obtain ⟨-, -, h1⟩ := Set_cases E _ _ _ _ hex
      rw [h1]; exact Inv_setCacheValue_dirty _ _ _ _ (fun hf => absurd hf (by simp)) h
    | delete key =>
      obtain ⟨-, h1⟩ := Delete_cases E _ _ _ hex
      rw [h1]; exact Inv_setCacheValue_dirty _ _ _ _ (fun _ => rfl) h
    | write => simp [Op.isFlush] at hop
    | writeThrough n => simp [Op.isFlush] at hop
    | flush => simp [Op.isFlush] at hop
    | clearThrough =>
      obtain ⟨h1, h2, h3⟩ := ClearThrough_cache P _ _ hex
      exact Inv_congr _ _ h1 h2 h3 (Inv_clearClean store h)
    | iterator start end_ =>
      obtain ⟨items, hg⟩ := map_snd_ok _ _ hex
      exact hiter _ _ _ _ _ hg
    | reverseIterator start end_ =>
      obtain ⟨items, hg⟩ := map_snd_ok _ _ hex
      exact hiter _ _ _ _ _ hg
    | cacheWrap =>
      simp only [exec, Except.ok.injEq] at hex
      rw [← hex]; exact h

/-- Every reachable state satisfies the invariant. -/
theorem Reachable.inv (E : Deps) (P : StoreOps σ) (store : cacheStore σ)
    (h : Reachable E P store) : Inv store := by
  induction h with
  | new parent => exact Inv_New parent
  | step s s1 op _ hex ih => exact exec_Inv E P s s1 op ih hex

theorem DirtyValid_New (E : Deps) (parent : σ) : DirtyValid E (New parent) := by
  intro k cv hc
  simp [New] at hc

theorem DirtyValid_congr (E : Deps) (store : cacheStore σ) (store1 : cacheStore τ)
    (h1 : store1.cache = store.cache) (h : DirtyValid E store) : DirtyValid E store1 := by
  intro k cv hc
  rw [h1] at hc
  exact h k cv hc

theorem DirtyValid_insert_clean (E : Deps) (store store1 : cacheStore σ) (k : Str)
    (value : Bytes) (deleted : Bool)
    (h1 : store1.cache = store.cache.insert k ⟨value, deleted, false⟩)
    (h : DirtyValid E store) : DirtyValid E store1 := by
  intro k1 cv hc hd
  rw [h1] at hc
  by_cases hkk : k1 = k
  · subst hkk
    rw [AList.lookup_insert] at hc
    simp only [Option.some.injEq] at hc
    rw [← hc] at hd
    exact absurd hd (by simp)
  · rw [AList.lookup_insert_ne hkk] at hc
    exact h k1 cv hc hd

theorem validKey_toStr (E : Deps) (hnilK : E.validKey none = false) (key : Bytes)
    (hk : E.validKey key = true) : E.validKey (toBytes (toStr key)) = true := by
  cases key with
  | none => rw [hnilK] at hk; exact absurd hk (by simp)
  | some b => exact hk

/-- Every call of a public method keeps the dirty entries valid, when the validity helpers
reject `nil`. -/
theorem exec_DirtyValid (E : Deps) (P : StoreOps σ) (store store1 : cacheStore σ) (op : Op)
    (hnilK : E.validKey none = false) (hnilV : E.validValue none = false)
    (h : DirtyValid E store) (hex : exec E P store op = .ok store1) :
    DirtyValid E store1 := by
  have hget : ∀ key value s1, Get E P store key = .ok (value, s1) → DirtyValid E s1 := by
    intro key value s1 hg
    rcases Get_cache E P _ _ _ _ hg with h1 | ⟨-, h1⟩
    · exact DirtyValid_congr E store s1 h1 h
    · exact DirtyValid_insert_clean E store s1 _ _ _ h1 h
  cases hop : op.isFlush with
  | true =>
    obtain ⟨parent, hp⟩ := flushed_is_New P _ _ op hop E hex
    rw [hp]; exact DirtyValid_New E parent
  | false =>
    cases op with
    | get key =>
      obtain ⟨value, hg⟩ := map_snd_ok _ _ hex
      exact hget key value store1 hg
    | has key =>
      obtain ⟨b, hg⟩ := map_snd_ok _ _ hex
      obtain ⟨value, hg, -⟩ := Has_cache E P _ _ _ _ hg
      exact hget key value store1 hg
    | set key value =>
      obtain ⟨hk, hv, h1⟩ := Set_cases E _ _ _ _ hex
      intro k cv hc hd
      rw [h1, setCacheValue_cache] at hc
      by_cases hkk : k = toStr key
      · subst hkk
        rw [AList.lookup_insert] at hc
        simp only [Option.some.injEq] at hc
        subst hc
        refine ⟨validKey_toStr E hnilK key hk, Or.inr ⟨rfl, ?_⟩⟩
        cases value with
        | none => rw [hnilV] at hv; exact absurd hv (by simp)
        | some v => exact ⟨v, rfl, hv⟩
      · rw [AList.lookup_insert_ne hkk] at hc
        exact h k cv hc hd
    | delete key =>
      obtain ⟨hk, h1⟩ := Delete_cases E _ _ _ hex
      intro k cv hc hd
      rw [h1, setCacheValue_cache] at hc
      by_cases hkk : k = toStr key
      · subst hkk
        rw [AList.lookup_insert] at hc
        simp only [Option.some.injEq] at hc
        subst hc
        exact ⟨validKey_toStr E hnilK key hk, Or.inl ⟨rfl, rfl⟩⟩
      · rw [AList.lookup_insert_ne hkk] at hc
        exact h k cv hc hd
    | write => simp [Op.isFlush] at hop
    | writeThrough n => simp [Op.isFlush] at hop
    | flush => simp [Op.isFlush] at hop
    | clearThrough =>
      obtain ⟨h1, -, -⟩ := ClearThrough_cache P _ _ hex
      intro k cv hc hd
      rw [h1, clearClean_lookup] at hc
      cases hl : store.cache.lookup k with
      | none => simp [hl, Option.filter] at hc
      | some cv0 =>
        rw [hl] at hc
        by_cases hd0 : cv0.dirty = true
        · simp only [Option.filter, hd0, if_true, Option.some.injEq] at hc
          subst hc
          exact h k cv0 hl hd
        · simp [Option.filter, hd0] at hc
    | iterator start end_ =>
      obtain ⟨items, hg⟩ := map_snd_ok _ _ hex
      exact DirtyValid_congr E store store1 (iterator_cache E P _ _ _ _ _ _ hg) h
    | reverseIterator start end_ =>
      obtain ⟨items, hg⟩ := map_snd_ok _ _ hex
      exact DirtyValid_congr E store store1 (iterator_cache E P _ _ _ _ _ _ hg) h
    | cacheWrap =>
      simp only [exec, Except.ok.injEq] at hex
      rw [← hex]; exact h

/-- In every reachable state the dirty entries are valid. -/
theorem Reachable.dirtyValid (E : Deps) (P : StoreOps σ) (store : cacheStore σ)
    (hnilK : E.validKey none = false) (hnilV : E.validValue none = false)
    (h : Reachable E P store) : DirtyValid E store := by
  induction h with
  | new parent => exact DirtyValid_New E parent
  | step s s1 op _ hex ih => exact exec_DirtyValid E P s s1 op hnilK hnilV ih hex

end

section

variable {σ τ : Type}

open cacheStore

theorem logged_get (P : StoreOps σ) (p p1 : σ × List Call) (key value : Bytes)
    (h : (logged P).get p key = .ok (value, p1)) :
    P.get p.1 key = .ok (value, p1.1) ∧ p1.2 = p.2 ++ [Call.get key] := by
  simp only [logged] at h
  cases hp : P.get p.1 key with
  | error e => simp [hp, Except.map] at h
  | ok r =>
    simp only [hp, Except.map, Except.ok.injEq, Prod.mk.injEq] at h
    rw [← h.2]
    exact ⟨by rw [← h.1], rfl⟩

theorem logged_iterator (P : StoreOps σ) (p p1 : σ × List Call) (start end_ : Bytes)
    (items : List KVPair) (h : (logged P).iterator p start end_ = .ok (items, p1)) :
    P.iterator p.1 start end_ = .ok (items, p1.1) ∧
      p1.2 = p.2 ++ [Call.iterator start end_] := by
  simp only [logged] at h
  cases hp : P.iterator p.1 start end_ with
  | error e => simp [hp, Except.map] at h
  | ok r =>
    simp only [hp, Except.map, Except.ok.injEq, Prod.mk.injEq] at h
    rw [← h.2]
    exact ⟨by rw [← h.1], rfl⟩

theorem logged_reverseIterator (P : StoreOps σ) (p p1 : σ × List Call) (start end_ : Bytes)
    (items : List KVPair) (h : (logged P).reverseIterator p start end_ = .ok (items, p1)) :
    P.reverseIterator p.1 start end_ = .ok (items, p1.1) ∧
      p1.2 = p.2 ++ [Call.reverseIterator start end_] := by
  simp only [logged] at h
  cases hp : P.reverseIterator p.1 start end_ with
  | error e => simp [hp, Except.map] at h
  | ok r =>
    simp only [hp, Except.map, Except.ok.injEq, Prod.mk.injEq] at h
    rw [← h.2]
    exact ⟨by rw [← h.1], rfl⟩

theorem logged_clearThrough (P : StoreOps σ) (cts : σ × List Call → Except Panic (σ × List Call))
    (p p1 : σ × List Call)
    (hc : (logged P).clearThrough = some cts) (h : cts p = .ok p1) :
    ∃ f, P.clearThrough = some f ∧ f p.1 = .ok p1.1 ∧ p1.2 = p.2 ++ [Call.clearThrough] := by
  simp only [logged] at hc
  cases hf : P.clearThrough with
  | none => simp [hf] at hc
  | some f =>
    simp only [hf, Option.map_some', Option.some.injEq] at hc
    subst hc
    simp only at h
    cases hp : f p.1 with
    | error e => simp [hp, Except.map] at h
    | ok r =>
      simp only [hp, Except.map, Except.ok.injEq] at h
      rw [← h]
      exact ⟨f, rfl, hp, rfl⟩

/-- One call that is not a flush, made on a store over a recording parent: the parent
receives at most one call, and it is neither `Set` nor `Delete`. -/
theorem exec_isolated (E : Deps) (P : StoreOps σ) (view : σ → Str → Bytes)
    (store store1 : cacheStore (σ × List Call)) (op : Op) (hnf : op.isFlush = false)
    (hex : exec E (logged P) store op = .ok store1) :
    (ReadsKeep P view → view store1.parent.1 = view store.parent.1) ∧
    ∃ log, store1.parent.2 = store.parent.2 ++ log ∧ ∀ c ∈ log, c.isWrite = false := by
  have hsame : ∀ s1 : cacheStore (σ × List Call), s1.parent = store.parent →
      (ReadsKeep P view → view s1.parent.1 = view store.parent.1) ∧
      ∃ log, s1.parent.2 = store.parent.2 ++ log ∧ ∀ c ∈ log, c.isWrite = false := by
    intro s1 h
    rw [h]
    exact ⟨fun _ => rfl, [], by simp, by simp⟩
  have hget : ∀ key value s1, Get E (logged P) store key = .ok (value, s1) →
      (ReadsKeep P view → view s1.parent.1 = view store.parent.1) ∧
      ∃ log, s1.parent.2 = store.parent.2 ++ log ∧ ∀ c ∈ log, c.isWrite = false := by
    intro key value s1 hg
    obtain ⟨-, ⟨cv, -, -, h1⟩ | ⟨hmiss, parent, hp, h1⟩⟩ := Get_cases E _ _ _ _ _ hg
    · exact hsame s1 (by rw [h1])
    · obtain ⟨h2, h3⟩ := logged_get P _ _ _ _ hp
      rw [h1, setCacheValue_parent]
      exact ⟨fun hro => hro.get _ _ _ _ h2, [Call.get key], h3, by simp [Call.isWrite]⟩
  have hiter : ∀ start end_ asc items s1,
      iterator E (logged P) store start end_ asc = .ok (items, s1) →
      (ReadsKeep P view → view s1.parent.1 = view store.parent.1) ∧
      ∃ log, s1.parent.2 = store.parent.2 ++ log ∧ ∀ c ∈ log, c.isWrite = false := by
    intro start end_ asc items s1 hi
    obtain ⟨pitems, parent, hp, hd, -⟩ := iterator_cases E _ _ _ _ _ _ _ hi
    rw [(dirtyItems_frame E _ _ _ _ hd).2]
    cases asc with
    | true =>
      simp only [if_true] at hp
      obtain ⟨h2, h3⟩ := logged_iterator P _ _ _ _ _ hp
      exact ⟨fun hro => hro.iterator _ _ _ _ _ h2, [Call.iterator start end_], h3, by simp [Call.isWrite]⟩
    | false =>
      simp only [Bool.false_eq_true, if_false] at hp
      obtain ⟨h2, h3⟩ := logged_reverseIterator P _ _ _ _ _ hp
      exact ⟨fun hro => hro.reverseIterator _ _ _ _ _ h2, [Call.reverseIterator start end_], h3,
        by simp [Call.isWrite]⟩
  cases op with
  | get key =>
    obtain ⟨value, hg⟩ := map_snd_ok _ _ hex
    exact hget key value store1 hg
  | has key =>
    obtain ⟨b, hg⟩ := map_snd_ok _ _ hex
    obtain ⟨value, hg, -⟩ := Has_cache E _ _ _ _ _ hg
    exact hget key value store1 hg
  | set key value =>
    obtain ⟨-, -, h1⟩ := Set_cases E _ _ _ _ hex
    exact hsame store1 (by rw [h1, setCacheValue_parent])
  | delete key =>
    obtain ⟨-, h1⟩ := Delete_cases E _ _ _ hex
    exact hsame store1 (by rw [h1, setCacheValue_parent])
  | write => simp [Op.isFlush] at hnf
  | writeThrough n => simp [Op.isFlush] at hnf
  | flush => simp [Op.isFlush] at hnf
  | clearThrough =>
    rcases ClearThrough_cases _ _ _ hex with ⟨-, h1⟩ | ⟨cts, parent, hc, hp, h1⟩
    · exact hsame store1 (by rw [h1, clearClean_parent])
    · obtain ⟨f, hf, h2, h3⟩ := logged_clearThrough P cts _ _ hc hp
      rw [clearClean_parent] at h2 h3
      rw [h1]
      exact ⟨fun hro => hro.clearThrough f _ _ hf h2, [Call.clearThrough], h3, by simp [Call.isWrite]⟩
  | iterator start end_ =>
    obtain ⟨items, hg⟩ := map_snd_ok _ _ hex
    exact hiter _ _ _ _ _ hg
  | reverseIterator start end_ =>
    obtain ⟨items, hg⟩ := map_snd_ok _ _ hex
    exact hiter _ _ _ _ _ hg
  | cacheWrap =>
    simp only [exec, Except.ok.injEq] at hex
    exact hsame store1 (by rw [← hex])

/-- C8 (isolation until flush): during any sequence of calls without `Write`,
`WriteThrough` or `Flush` that runs without a panic, the parent receives no `Set` and no
`Delete` call; and when the reading calls of the parent do not change what it holds, it
holds for every key after the sequence what it held before. -/
theorem C8_isolation (E : Deps) (P : StoreOps σ) (view : σ → Str → Bytes) (calls : List Op) :
    ∀ (store store1 : cacheStore (σ × List Call)),
      (∀ op ∈ calls, op.isFlush = false) →
      run E (logged P) store calls = .ok store1 →
      (∃ log, store1.parent.2 = store.parent.2 ++ log ∧ ∀ c ∈ log, c.isWrite = false) ∧
      (ReadsKeep P view → ∀ k, view store1.parent.1 k = view store.parent.1 k) := by
  induction calls with
  | nil =>
    intro store store1 _ hrun
    simp only [run, forEach, Except.ok.injEq] at hrun
    rw [← hrun]
    exact ⟨⟨[], by simp, by simp⟩, fun _ _ => rfl⟩
  | cons op rest ih =>
    intro store store1 hnf hrun
    obtain ⟨s1, h1, h2⟩ := forEach_cons_inv _ _ _ _ _ hrun
    obtain ⟨hv, log1, hl1, hw1⟩ := exec_isolated E P view store s1 op
      (hnf op (List.mem_cons_self _ _)) h1
    obtain ⟨⟨log2, hl2, hw2⟩, hv2⟩ := ih s1 store1
      (fun o ho => hnf o (List.mem_cons_of_mem _ ho)) h2
    refine ⟨⟨log1 ++ log2, by rw [hl2, hl1, List.append_assoc], ?_⟩, ?_⟩
    · intro c hc
      rcases List.mem_append.1 hc with h | h
      · exact hw1 c h
      · exact hw2 c h
    · intro hro k
      rw [hv2 hro k, hv hro]

end

section

variable {σ τ : Type}

open cacheStore

theorem forEach_congr {α β : Type} (f g : β → α → Except Panic β) (l : List α)
    (h : ∀ a ∈ l, ∀ b, f b a = g b a) : ∀ b, forEach f b l = forEach g b l := by
  induction l with
  | nil => intro b; rfl
  | cons a as ih =>
    intro b
    unfold forEach
    rw [h a (List.mem_cons_self _ _) b]
    cases g b a with
    | error e => rfl
    | ok b1 => exact ih (fun a1 h1 => h a1 (List.mem_cons_of_mem _ h1)) b1

/-- `Write` looks only at the dirty entries of the cache map and at the parent. -/
theorem Write_congr (Q : StoreOps τ) (s1 s2 : cacheStore τ)
    (hp : s1.parent = s2.parent)
    (h : ∀ k cv, cv.dirty = true → (s1.cache.lookup k = some cv ↔ s2.cache.lookup k = some cv)) :
    Write Q s1 = Write Q s2 := by
  have hkeys : writeKeys s1 = writeKeys s2 := by
    unfold writeKeys
    apply sortStrings_congr
    apply (List.perm_ext_iff_of_nodup (dirtyKeys_nodup _) (dirtyKeys_nodup _)).2
    intro k
    rw [mem_dirtyKeys, mem_dirtyKeys]
    constructor
    · rintro ⟨cv, h1, h2⟩
      exact ⟨cv, (h k cv h2).1 h1, h2⟩
    · rintro ⟨cv, h1, h2⟩
      exact ⟨cv, (h k cv h2).2 h1, h2⟩
  have hstep : ∀ k ∈ writeKeys s2, ∀ p, writeKey Q s1.cache p k = writeKey Q s2.cache p k := by
    intro k hk p
    obtain ⟨cv, h1, h2⟩ := (mem_writeKeys s2 k).1 hk
    unfold writeKey
    rw [h1, (h k cv h2).2 h1]
  unfold Write
  rw [hkeys, hp, forEach_congr _ _ _ hstep]
  rfl

/-- C9 (ClearThrough preserves pending writes): in a reachable state, after a
`ClearThrough` that returns, every dirty entry is still in the cache with the same value
and flags, `unsortedCache` and `sortedCache` are unchanged, every clean entry is gone, so
only dirty entries remain, and a following `Write` behaves, against any parent, as it
would have without the `ClearThrough`. -/
theorem C9_clearThrough_keeps_pending (E : Deps) (P : StoreOps σ) (store store1 : cacheStore σ)
    (hr : Reachable E P store) (h : ClearThrough P store = .ok store1) :
    (∀ k cv, store.cache.lookup k = some cv → cv.dirty = true →
      store1.cache.lookup k = some cv) ∧
    store1.unsortedCache = store.unsortedCache ∧
    store1.sortedCache = store.sortedCache ∧
    (∀ k cv, store.cache.lookup k = some cv → cv.dirty = false →
      store1.cache.lookup k = none) ∧
    (∀ k cv, store1.cache.lookup k = some cv → cv.dirty = true) ∧
    (∀ (τ : Type) (Q : StoreOps τ) (p : τ),
      Write Q ⟨store1.cache, store1.unsortedCache, store1.sortedCache, p⟩ =
        Write Q ⟨store.cache, store.unsortedCache, store.sortedCache, p⟩) := by
  have hinv := Reachable.inv E P store hr
  obtain ⟨h1, h2, h3⟩ := ClearThrough_cache P _ _ h
  have hl : ∀ k, store1.cache.lookup k = (store.cache.lookup k).filter (fun cv => cv.dirty) := by
    intro k
    rw [h1, clearClean_lookup]
  have hkeep : ∀ k cv, cv.dirty = true →
      (store1.cache.lookup k = some cv ↔ store.cache.lookup k = some cv) := by
    intro k cv hd
    rw [hl]
    cases hc : store.cache.lookup k with
    | none => simp [Option.filter]
    | some cv0 =>
      by_cases hd0 : cv0.dirty = true
      · simp [Option.filter, hd0]
      · simp only [Option.filter, hd0, Bool.false_eq_true, if_false, Option.some.injEq]
        constructor
        · intro h4; exact absurd h4 (by simp)
        · intro h4; rw [h4] at hd0; exact absurd hd hd0
  refine ⟨fun k cv hc hd => (hkeep k cv hd).2 hc, ?_, ?_, ?_, ?_, ?_⟩
  · rw [h2]; exact clearClean_unsorted store hinv
  · rw [h3]; exact clearClean_sortedCache store
  · intro k cv hc hd
    rw [hl, hc]
    simp [Option.filter, hd]
  · intro k cv hc
    rw [hl] at hc
    cases hc0 : store.cache.lookup k with
    | none => simp [hc0, Option.filter] at hc
    | some cv0 =>
      rw [hc0] at hc
      by_cases hd0 : cv0.dirty = true
      · simp only [Option.filter, hd0, if_true, Option.some.injEq] at hc
        rw [← hc]; exact hd0
      · simp [Option.filter, hd0] at hc
  · intro τ Q p
    exact Write_congr Q _ _ rfl (fun k cv hd => hkeep k cv hd)

theorem clearFold_parent (l : List (Sigma fun _ : Str => cValue)) (st : cacheStore σ) (p : σ) :
    l.foldl (fun (st : cacheStore σ) e =>
        if e.2.dirty = false then
          { st with cache := st.cache.erase e.1, unsortedCache := st.unsortedCache.erase e.1 }
        else st) { st with parent := p } =
    { l.foldl (fun (st : cacheStore σ) e =>
        if e.2.dirty = false then
          { st with cache := st.cache.erase e.1, unsortedCache := st.unsortedCache.erase e.1 }
        else st) st with parent := p } := by
  induction l generalizing st with
  | nil => rfl
  | cons e l ih =>
    simp only [List.foldl_cons]
    by_cases hd : e.2.dirty = false
    · rw [if_pos hd, if_pos hd]
      exact ih ⟨AList.erase e.1 st.cache, AList.erase e.1 st.unsortedCache, st.sortedCache,
        st.parent⟩
    · rw [if_neg hd, if_neg hd]
      exact ih st

/-- `clearClean` does not look at the parent. -/
theorem clearClean_with_parent (store : cacheStore σ) (p : σ) :
    clearClean { store with parent := p } = { clearClean store with parent := p } :=
  clearFold_parent _ store p

/-- `ClearThrough` on a chain over a store whose own `ClearThrough`, if it has one, returns
and is idempotent: it returns, and a second call changes nothing. -/
theorem stack_clearThrough_idem (E : Deps) (P : StoreOps σ)
    (hP : ∀ cts, P.clearThrough = some cts → ∀ p, ∃ p1, cts p = .ok p1 ∧ cts p1 = .ok p1)
    (n : Nat) :
    ∀ cts, (stackOps E P n).clearThrough = some cts →
      ∀ s, ∃ s1, cts s = .ok s1 ∧ cts s1 = .ok s1 := by
  induction n with
  | zero => exact hP
  | succ n ih =>
    intro cts hcts s
    have hc : cts = ClearThrough (stackOps E P n) := by
      simp only [stackOps, ops, Option.some.injEq] at hcts
      exact hcts.symm
    subst hc
    cases hpc : (stackOps E P n).clearThrough with
    | none =>
      refine ⟨clearClean s, ?_, ?_⟩
      · simp [ClearThrough, hpc]
      · simp [ClearThrough, hpc, clearClean_idem]
    | some f =>
      obtain ⟨p1, h1, h2⟩ := ih f hpc (clearClean s).parent
      refine ⟨{ clearClean s with parent := p1 }, ?_, ?_⟩
      · simp [ClearThrough, hpc, h1]
      · have h3 : clearClean { clearClean s with parent := p1 } =
            { clearClean s with parent := p1 } := by
          rw [clearClean_with_parent, clearClean_idem]
        simp only [ClearThrough, hpc, h3, h2]

/-- C10 (ClearThrough is idempotent): on a chain of `n + 1` cache stores, over a bottom
store whose own `ClearThrough`, if it has one, returns and is idempotent, `ClearThrough`
on the top store returns, and a second `ClearThrough` on the resulting chain returns that
same chain: the state of every layer is as after the first call. -/
theorem C10_clearThrough_idempotent (E : Deps) (P : StoreOps σ)
    (hP : ∀ cts, P.clearThrough = some cts → ∀ p, ∃ p1, cts p = .ok p1 ∧ cts p1 = .ok p1)
    (n : Nat) (s : Stack σ (n + 1)) :
    ∃ s1 : Stack σ (n + 1),
      ClearThrough (stackOps E P n) s = .ok s1 ∧
      ClearThrough (stackOps E P n) s1 = .ok s1 :=
  stack_clearThrough_idem E P hP (n + 1) (ClearThrough (stackOps E P n)) rfl s

end

section

variable {σ τ γ : Type}

open cacheStore

theorem pendingOf_none_iff (cache : AList (fun _ : Str => cValue)) (k : Str) :
    pendingOf cache k = none ↔ ∀ cv, cache.lookup k = some cv → cv.dirty = false := by
  unfold pendingOf
  cases hc : cache.lookup k with
  | none => simp
  | some cv =>
    cases hd : cv.dirty <;> simp [hd]

theorem pendingOf_dirty (cache : AList (fun _ : Str => cValue)) (k : Str) (cv : cValue)
    (hc : cache.lookup k = some cv) (hd : cv.dirty = true) :
    pendingOf cache k = some (if cv.deleted then none else cv.value) := by
  simp [pendingOf, hc, hd]

/-- The second loop of `Write` against a parent that takes writes as a map does. -/
theorem writeLoop_spec (E : Deps) (P : StoreOps σ) (view : σ → Str → γ)
    (fset : List Nat → γ) (fdel : γ) (below : σ → τ)
    (hP : WriteSpec E P view fset fdel below)
    (cache : AList (fun _ : Str => cValue))
    (hv : ∀ k cv, cache.lookup k = some cv → cv.dirty = true →
      E.validKey (toBytes k) = true ∧
        ((cv.deleted = true ∧ cv.value = none) ∨
          (cv.deleted = false ∧ ∃ v, cv.value = some v ∧ E.validValue (some v) = true)))
    (keys : List Str) :
    keys.Nodup → (∀ k ∈ keys, ∃ cv, cache.lookup k = some cv ∧ cv.dirty = true) →
    ∀ p, ∃ p1, forEach (writeKey P cache) p keys = .ok p1 ∧ below p1 = below p ∧
      ∀ k, view p1 k =
        if k ∈ keys then
          (match pendingOf cache k with
           | some (some v) => fset v
           | some none => fdel
           | none => view p k)
        else view p k := by
  induction keys with
  | nil =>
    intro _ _ p
    exact ⟨p, rfl, rfl, by simp⟩
  | cons k rest ih =>
    intro hnd hk p
    obtain ⟨hnk, hnd1⟩ := List.nodup_cons.1 hnd
    obtain ⟨cv, hc, hd⟩ := hk k (List.mem_cons_self _ _)
    obtain ⟨hvk, hcase⟩ := hv k cv hc hd
    have hstep : ∃ p2, writeKey P cache p k = .ok p2 ∧ below p2 = below p ∧
        view p2 = Function.update (view p) k
          (match pendingOf cache k with
           | some (some v) => fset v
           | some none => fdel
           | none => view p k) := by
      rcases hcase with ⟨hdel, hval⟩ | ⟨hdel, v, hval, hvv⟩
      · obtain ⟨p2, h1, h2, h3⟩ := hP.delete p k hvk
        refine ⟨p2, ?_, h3, ?_⟩
        · simp [writeKey, hc, hdel, h1]
        · rw [h2, pendingOf_dirty _ _ _ hc hd]
          simp [hdel]
      · obtain ⟨p2, h1, h2, h3⟩ := hP.set p k v hvk hvv
        refine ⟨p2, ?_, h3, ?_⟩
        · simp [writeKey, hc, hdel, hval, h1]
        · rw [h2, pendingOf_dirty _ _ _ hc hd]
          simp [hdel, hval]
    obtain ⟨p2, h1, h2, h3⟩ := hstep
    obtain ⟨p1, h4, h5, h6⟩ := ih hnd1 (fun k1 hk1 => hk k1 (List.mem_cons_of_mem _ hk1)) p2
    refine ⟨p1, ?_, by rw [h5, h2], ?_⟩
    · rw [forEach_cons_ok _ _ _ _ _ h1]; exact h4
    · intro k1
      rw [h6 k1, h3]
      by_cases hk1 : k1 = k
      · subst hk1
        simp [hnk]
      · by_cases hk2 : k1 ∈ rest
        · simp [hk2, hk1, Function.update_noteq hk1]
        · simp [hk1, hk2, Function.update_noteq hk1]

/-- The effect of `Write` on a parent that takes writes as a map does. -/
theorem Write_spec (E : Deps) (P : StoreOps σ) (view : σ → Str → γ)
    (fset : List Nat → γ) (fdel : γ) (below : σ → τ)
    (hP : WriteSpec E P view fset fdel below)
    (store : cacheStore σ) (hv : DirtyValid E store) :
    ∃ p1, Write P store = .ok (New p1) ∧ below p1 = below store.parent ∧
      ∀ k, view p1 k =
        match pendingOf store.cache k with
        | some (some v) => fset v
        | some none => fdel
        | none => view store.parent k := by
  obtain ⟨p1, h1, h2, h3⟩ := writeLoop_spec E P view fset fdel below hP store.cache hv
    (writeKeys store) (writeKeys_nodup store)
    (fun k hk => (mem_writeKeys store k).1 hk) store.parent
  refine ⟨p1, Write_of_loop P store p1 h1, h2, ?_⟩
  intro k
  rw [h3 k]
  by_cases hk : k ∈ writeKeys store
  · rw [if_pos hk]
  · rw [if_neg hk]
    have hn : pendingOf store.cache k = none := by
      rw [pendingOf_none_iff]
      intro cv hc
      cases hd : cv.dirty with
      | false => rfl
      | true => exact absurd ((mem_writeKeys store k).2 ⟨cv, hc, hd⟩) hk
    rw [hn]

/-- The base store takes valid writes as a map does. -/
theorem baseOps_writeSpec (E : Deps) :
    WriteSpec E (baseOps E) (fun (m : Base) k => m.lookup k) (fun v => some v) none
      (fun _ => ()) := by
  constructor
  · intro m k v hk hv
    refine ⟨m.insert k v, ?_, ?_, rfl⟩
    · have hk1 : E.validKey (some k) = true := hk
      simp [baseOps, toBytes, toStr, hk1, hv]
    · funext k1
      by_cases hk1 : k1 = k
      · subst hk1; simp
      · simp [Function.update_noteq hk1, AList.lookup_insert_ne hk1]
  · intro m k hk
    refine ⟨m.erase k, ?_, ?_, rfl⟩
    · have hk1 : E.validKey (some k) = true := hk
      simp [baseOps, toBytes, toStr, hk1]
    · funext k1
      by_cases hk1 : k1 = k
      · subst hk1; simp
      · simp [Function.update_noteq hk1, AList.lookup_erase_ne hk1]

/-- After a call the dirty entry of a key stands for what `pendingStep` tells. -/
theorem exec_pendingOf (E : Deps) (P : StoreOps σ) (store store1 : cacheStore σ) (op : Op)
    (k : Str) (hex : exec E P store op = .ok store1) :
    pendingOf store1.cache k = pendingStep k (pendingOf store.cache k) op := by
  have hfilter : ∀ s1 : cacheStore σ,
      (∀ k, s1.cache.lookup k = (store.cache.lookup k).filter (fun cv => cv.dirty)) →
      pendingOf s1.cache k = pendingOf store.cache k := by
    intro s1 h
    unfold pendingOf
    rw [h k]
    cases hc : store.cache.lookup k with
    | none => simp [Option.filter]
    | some cv => cases hd : cv.dirty <;> simp [Option.filter, hd]
  have hget : ∀ key value s1, Get E P store key = .ok (value, s1) →
      pendingOf s1.cache k = pendingOf store.cache k := by
    intro key value s1 hg
    rcases Get_cache E P _ _ _ _ hg with h1 | ⟨h1, h2⟩
    · rw [h1]
    · unfold pendingOf
      rw [h2]
      by_cases hkk : k = toStr key
      · subst hkk
        rw [AList.lookup_insert, h1]
        simp
      · rw [AList.lookup_insert_ne hkk]
  cases hop : op.isFlush with
  | true =>
    obtain ⟨parent, hp⟩ := flushed_is_New P _ _ op hop E hex
    rw [hp]
    simp [pendingStep, hop, pendingOf, New]
  | false =>
    cases op with
    | get key =>
      obtain ⟨value, hg⟩ := map_snd_ok _ _ hex
      rw [hget key value store1 hg]
      simp [pendingStep, Op.isFlush]
    | has key =>
      obtain ⟨b, hg⟩ := map_snd_ok _ _ hex
      obtain ⟨value, hg, -⟩ := Has_cache E P _ _ _ _ hg
      rw [hget key value store1 hg]
      simp [pendingStep, Op.isFlush]
    | set key value =>
      obtain ⟨-, -, h1⟩ := Set_cases E _ _ _ _ hex
      rw [h1]
      unfold pendingOf
      rw [setCacheValue_cache]
      by_cases hkk : k = toStr key
      · subst hkk
        rw [AList.lookup_insert]
        simp [pendingStep, Op.isFlush]
      · rw [AList.lookup_insert_ne hkk]
        have : ¬ toStr key = k := fun h => hkk h.symm
        simp [pendingStep, Op.isFlush, this, pendingOf]
    | delete key =>
      obtain ⟨-, h1⟩ := Delete_cases E _ _ _ hex
      rw [h1]
      unfold pendingOf
      rw [setCacheValue_cache]
      by_cases hkk : k = toStr key
      · subst hkk
        rw [AList.lookup_insert]
        simp [pendingStep, Op.isFlush]
      · rw [AList.lookup_insert_ne hkk]
        have : ¬ toStr key = k := fun h => hkk h.symm
        simp [pendingStep, Op.isFlush, this, pendingOf]
    | write => simp [Op.isFlush] at hop
    | writeThrough n => simp [Op.isFlush] at hop
    | flush => simp [Op.isFlush] at hop
    | clearThrough =>
      obtain ⟨h1, -, -⟩ := ClearThrough_cache P _ _ hex
      rw [hfilter store1 (fun k => by rw [h1, clearClean_lookup])]
      simp [pendingStep, Op.isFlush]
    | iterator start end_ =>
      obtain ⟨items, hg⟩ := map_snd_ok _ _ hex
      rw [iterator_cache E P _ _ _ _ _ _ hg]
      simp [pendingStep, Op.isFlush]
    | reverseIterator start end_ =>
      obtain ⟨items, hg⟩ := map_snd_ok _ _ hex
      rw [iterator_cache E P _ _ _ _ _ _ hg]
      simp [pendingStep, Op.isFlush]
    | cacheWrap =>
      simp only [exec, Except.ok.injEq] at hex
      rw [← hex]
      simp [pendingStep, Op.isFlush]

theorem run_pendingOf (E : Deps) (P : StoreOps σ) (k : Str) (calls : List Op) :
    ∀ (store store1 : cacheStore σ), run E P store calls = .ok store1 →
      pendingOf store1.cache k = calls.foldl (pendingStep k) (pendingOf store.cache k) := by
  induction calls with
  | nil =>
    intro store store1 hrun
    simp only [run, forEach, Except.ok.injEq] at hrun
    rw [← hrun]; rfl
  | cons op rest ih =>
    intro store store1 hrun
    obtain ⟨s1, h1, h2⟩ := forEach_cons_inv _ _ _ _ _ hrun
    rw [ih s1 store1 h2, exec_pendingOf E P store s1 op k h1]
    rfl

theorem run_DirtyValid (E : Deps) (P : StoreOps σ)
    (hnilK : E.validKey none = false) (hnilV : E.validValue none = false)
    (calls : List Op) :
    ∀ (store store1 : cacheStore σ), DirtyValid E store → run E P store calls = .ok store1 →
      DirtyValid E store1 := by
  induction calls with
  | nil =>
    intro store store1 h hrun
    simp only [run, forEach, Except.ok.injEq] at hrun
    rw [← hrun]; exact h
  | cons op rest ih =>
    intro store store1 h hrun
    obtain ⟨s1, h1, h2⟩ := forEach_cons_inv _ _ _ _ _ hrun
    exact ih s1 store1 (exec_DirtyValid E P store s1 op hnilK hnilV h h1) h2

/-- C2 (write postcondition): over a base store modelled as a key-value map, with
validity helpers that reject `nil`, take the state reached from `New` by any sequence of
calls. `Write` returns and leaves the cache store empty over a base that holds `v` for
each key whose last unflushed local operation is `Set(k, v)`, nothing for each key whose
last unflushed local operation is `Delete`, and what it held before for every other key;
a following `Get` of a valid key returns what the base holds. -/
theorem C2_write_postcondition (E : Deps)
    (hnilK : E.validKey none = false) (hnilV : E.validValue none = false)
    (m0 : Base) (calls : List Op) (store : cacheStore Base)
    (hrun : run E (baseOps E) (New m0) calls = .ok store) :
    ∃ m1 : Base, Write (baseOps E) store = .ok (New m1) ∧
      (∀ k v, pendingWrite k calls = some (some v) → m1.lookup k = some v) ∧
      (∀ k, pendingWrite k calls = some none → m1.lookup k = none) ∧
      (∀ k, pendingWrite k calls = none → m1.lookup k = store.parent.lookup k) ∧
      (∀ key, E.validKey key = true →
        ∃ store2, Get E (baseOps E) (New m1) key = .ok (m1.lookup (toStr key), store2)) := by
  have hv : DirtyValid E store :=
    run_DirtyValid E (baseOps E) hnilK hnilV calls _ _ (DirtyValid_New E m0) hrun
  obtain ⟨m1, h1, -, h3⟩ := Write_spec E (baseOps E) _ _ _ _ (baseOps_writeSpec E) store hv
  have hp : ∀ k, pendingOf store.cache k = pendingWrite k calls := by
    intro k
    rw [run_pendingOf E (baseOps E) k calls _ _ hrun]
    simp [pendingWrite, pendingOf, New]
  refine ⟨m1, h1, ?_, ?_, ?_, ?_⟩
  · intro k v hk
    have := h3 k
    rw [hp k, hk] at this
    exact this
  · intro k hk
    have := h3 k
    rw [hp k, hk] at this
    exact this
  · intro k hk
    have := h3 k
    rw [hp k, hk] at this
    exact this
  · intro key hk
    refine ⟨_, Get_miss E (baseOps E) (New m1) key (m1.lookup (toStr key)) m1 hk ?_ ?_⟩
    · simp [New]
    · simp [baseOps, New, hk]

end

section

variable {σ τ γ : Type}

open cacheStore

/-- A cache store takes valid writes as a map does: a `Set` or `Delete` installs a dirty
entry for the key and touches neither another key nor the parent. -/
theorem ops_writeSpec (E : Deps) (Q : StoreOps σ) :
    WriteSpec E (ops E Q)
      (fun (s : cacheStore σ) k => (s.cache.lookup k).filter (fun cv => cv.dirty))
      (fun v => some ⟨some v, false, true⟩) (some ⟨none, true, true⟩)
      (fun s => s.parent) := by
  constructor
  · intro s k v hk hv
    refine ⟨setCacheValue s (toBytes k) (some v) false true, ?_, ?_, ?_⟩
    · simp [ops, cacheStore.Set, hk, hv]
    · funext k1
      simp only [setCacheValue_cache, toBytes, toStr]
      by_cases hk1 : k1 = k
      · subst hk1
        simp [Option.filter]
      · simp [Function.update_noteq hk1, AList.lookup_insert_ne hk1]
    · exact setCacheValue_parent _ _ _ _ _
  · intro s k hk
    refine ⟨setCacheValue s (toBytes k) none true true, ?_, ?_, ?_⟩
    · simp [ops, cacheStore.Delete, hk]
    · funext k1
      simp only [setCacheValue_cache, toBytes, toStr]
      by_cases hk1 : k1 = k
      · subst hk1
        simp [Option.filter]
      · simp [Function.update_noteq hk1, AList.lookup_insert_ne hk1]
    · exact setCacheValue_parent _ _ _ _ _

theorem pendingOf_eq_filter (cache : AList (fun _ : Str => cValue)) (k : Str) :
    pendingOf cache k =
      ((cache.lookup k).filter (fun cv => cv.dirty)).map
        (fun cv => if cv.deleted then none else cv.value) := by
  unfold pendingOf
  cases hc : cache.lookup k with
  | none => simp [Option.filter]
  | some cv => cases hd : cv.dirty <;> simp [Option.filter, hd]

/-- `Write` into a parent that is itself a cache store: the parent's dirty entries are
overlaid by the dirty entries written, and the store below the parent is not touched. -/
theorem Write_into_cache (E : Deps) (Q : StoreOps σ) (s : cacheStore (cacheStore σ))
    (hv : DirtyValid E s) (hvp : DirtyValid E s.parent) :
    ∃ s2 : cacheStore σ, Write (ops E Q) s = .ok (New s2) ∧ s2.parent = s.parent.parent ∧
      DirtyValid E s2 ∧
      ∀ k, pendingOf s2.cache k =
        match pendingOf s.cache k with
        | some r => some r
        | none => pendingOf s.parent.cache k := by
  obtain ⟨s2, h1, h2, h3⟩ := Write_spec E (ops E Q) _ _ _ _ (ops_writeSpec E Q) s hv
  refine ⟨s2, h1, h2, ?_, ?_⟩
  · intro k cv hc hd
    have h4 := h3 k
    simp only [hc, Option.filter, hd, if_true] at h4
    cases hp : pendingOf s.cache k with
    | none =>
      rw [hp] at h4
      simp only at h4
      cases hc1 : s.parent.cache.lookup k with
      | none => simp [hc1, Option.filter] at h4
      | some cv1 =>
        by_cases hd1 : cv1.dirty = true
        · simp only [hc1, Option.filter, hd1, if_true, Option.some.injEq] at h4
          subst h4
          exact hvp k cv hc1 hd
        · simp [hc1, Option.filter, hd1] at h4
    | some r =>
      have hne : ¬ (pendingOf s.cache k = none) := by rw [hp]; simp
      rw [pendingOf_none_iff] at hne
      push_neg at hne
      obtain ⟨cv0, hc0, hd0⟩ := hne
      have hd0 : cv0.dirty = true := by simpa using hd0
      obtain ⟨hk0, hcase⟩ := hv k cv0 hc0 hd0
      rw [pendingOf_dirty _ _ _ hc0 hd0] at hp
      rw [pendingOf_dirty _ _ _ hc0 hd0] at h4
      rcases hcase with ⟨hdel, hval⟩ | ⟨hdel, v, hval, hvv⟩
      · simp only [hdel, if_true, Option.some.injEq] at h4
        subst h4
        exact ⟨hk0, Or.inl ⟨rfl, rfl⟩⟩
      · simp only [hdel, Bool.false_eq_true, if_false, hval, Option.some.injEq] at h4
        subst h4
        exact ⟨hk0, Or.inr ⟨rfl, v, rfl, hvv⟩⟩
  · intro k
    rw [pendingOf_eq_filter s2.cache k, h3 k]
    cases hp : pendingOf s.cache k with
    | none =>
      simp only
      rw [pendingOf_eq_filter]
    | some r =>
      cases r with
      | none => simp
      | some v => simp

/-- C5 (WriteThrough depth): take a chain whose top `m + 1` stores are cache stores with
valid dirty entries, over a store `P` that takes valid writes as a map does.
`WriteThrough(m + 1)` on the top store returns and leaves the `m + 1` cache stores empty;
`P` then holds, for every key that is dirty in some of them, what the topmost such dirty
entry stands for (its value, or nothing for a tombstone) and, for every other key, what it
held before; and the part of the chain below `P` is as it was. -/
theorem C5_writeThrough_depth (E : Deps) (P : StoreOps σ) (view : σ → Str → Bytes)
    (below : σ → τ) (hP : WriteSpec E P view (fun v => some v) none below) (m : Nat) :
    ∀ s : Stack σ (m + 1), Stack.valid E (m + 1) s →
      ∃ p1, WriteThrough (stackOps E P m) s ((m : Int) + 1) = .ok (Stack.empty p1 (m + 1)) ∧
        below p1 = below (Stack.bottom (m + 1) s) ∧
        ∀ k, view p1 k =
          match Stack.pending (m + 1) s k with
          | some r => r
          | none => view (Stack.bottom (m + 1) s) k := by
  induction m with
  | zero =>
    intro s hv
    obtain ⟨p1, h1, h2, h3⟩ := Write_spec E P view _ _ below hP s hv.1
    refine ⟨p1, ?_, h2, ?_⟩
    · show WriteThrough P s 1 = _
      unfold WriteThrough
      rw [h1]
      simp
      rfl
    · intro k
      rw [h3 k]
      show _ = match (match pendingOf (cacheStore.cache s) k with
        | some r => some r
        | none => none) with
        | some r => r
        | none => view (cacheStore.parent s) k
      cases hp : pendingOf (cacheStore.cache s) k with
      | none => rfl
      | some r => cases r <;> rfl
  | succ m ih =>
    intro s hv
    obtain ⟨hv1, hv2, hv3⟩ := hv
    obtain ⟨s2, h1, h2, h3, h4⟩ := Write_into_cache E (stackOps E P m) s hv1 hv2
    have hv4 : Stack.valid E (m + 1) s2 := ⟨h3, by rw [h2]; exact hv3⟩
    obtain ⟨p1, h5, h6, h7⟩ := ih s2 hv4
    refine ⟨p1, ?_, ?_, ?_⟩
    · show WriteThrough (ops E (stackOps E P m)) s _ = _
      unfold WriteThrough
      rw [if_neg (by push_cast; omega), h1]
      simp only
      rw [if_pos (by push_cast; omega)]
      have h8 : (((m + 1 : Nat) : Int) + 1 - 1) = (m : Int) + 1 := by push_cast; omega
      simp only [ops, h8]
      have h9 : (New s2).parent = s2 := rfl
      rw [h9, h5]
      rfl
    · rw [h6]
      show below (Stack.bottom m (cacheStore.parent s2)) =
        below (Stack.bottom m (cacheStore.parent (cacheStore.parent s)))
      rw [h2]
    · intro k
      rw [h7 k]
      show (match (match pendingOf (cacheStore.cache s2) k with
          | some r => some r
          | none => Stack.pending m (cacheStore.parent s2) k) with
        | some r => r
        | none => view (Stack.bottom m (cacheStore.parent s2)) k) =
        match (match pendingOf (cacheStore.cache s) k with
          | some r => some r
          | none =>
            match pendingOf (cacheStore.cache (cacheStore.parent s)) k with
            | some r => some r
            | none => Stack.pending m (cacheStore.parent (cacheStore.parent s)) k) with
        | some r => r
        | none => view (Stack.bottom m (cacheStore.parent (cacheStore.parent s))) k
      rw [h4 k, h2]
      cases pendingOf (cacheStore.cache s) k with
      | some r => rfl
      | none => rfl

/-- A cache store over a store with contents `qview` holds for a key the value of its cache
entry, or what its parent holds; it takes valid writes as a map does. -/
theorem ops_viewSpec (E : Deps) (Q : StoreOps σ) (qview : σ → Str → Bytes) :
    WriteSpec E (ops E Q)
      (fun (s : cacheStore σ) k =>
        match s.cache.lookup k with
        | some cv => cv.value
        | none => qview s.parent k)
      (fun v => some v) none (fun s => s.parent) := by
  constructor
  · intro s k v hk hv
    refine ⟨setCacheValue s (toBytes k) (some v) false true, ?_, ?_, ?_⟩
    · simp [ops, cacheStore.Set, hk, hv]
    · funext k1
      simp only [setCacheValue_cache, setCacheValue_parent, toBytes, toStr]
      by_cases hk1 : k1 = k
      · subst hk1
        simp
      · simp [Function.update_noteq hk1, AList.lookup_insert_ne hk1]
    · exact setCacheValue_parent _ _ _ _ _
  · intro s k hk
    refine ⟨setCacheValue s (toBytes k) none true true, ?_, ?_, ?_⟩
    · simp [ops, cacheStore.Delete, hk]
    · funext k1
      simp only [setCacheValue_cache, setCacheValue_parent, toBytes, toStr]
      by_cases hk1 : k1 = k
      · subst hk1
        simp
      · simp [Function.update_noteq hk1, AList.lookup_insert_ne hk1]
    · exact setCacheValue_parent _ _ _ _ _

/-- C6 (Flush reaches the base): take a chain of `m + 1` cache stores with valid dirty
entries over a base store modelled as a key-value map. `Flush` on the top store returns
and leaves every cache store of the chain empty; the base then holds, for every key that
is dirty in some layer, what the topmost dirty entry stands for (its value, or nothing for
a tombstone) and, for every other key, what it held before, whatever the depth. -/
theorem C6_flush_reaches_base (E : Deps) (m : Nat) :
    ∀ s : Stack Base (m + 1), Stack.valid E (m + 1) s →
      ∃ b1 : Base, Flush (stackOps E (baseOps E) m) s = .ok (Stack.empty b1 (m + 1)) ∧
        ∀ k, b1.lookup k =
          match Stack.pending (m + 1) s k with
          | some r => r
          | none => (Stack.bottom (m + 1) s).lookup k := by
  induction m with
  | zero =>
    intro s hv
    obtain ⟨b1, h1, -, h3⟩ := Write_spec E (baseOps E) _ _ _ _ (baseOps_writeSpec E) s hv.1
    refine ⟨b1, ?_, ?_⟩
    · show Flush (baseOps E) s = _
      unfold Flush
      rw [h1]
      rfl
    · intro k
      rw [h3 k]
      show _ = match (match pendingOf (cacheStore.cache s) k with
        | some r => some r
        | none => none) with
        | some r => r
        | none => (cacheStore.parent s).lookup k
      cases hp : pendingOf (cacheStore.cache s) k with
      | none => rfl
      | some r => cases r <;> rfl
  | succ m ih =>
    intro s hv
    obtain ⟨hv1, hv2, hv3⟩ := hv
    obtain ⟨s2, h1, h2, h3, h4⟩ := Write_into_cache E (stackOps E (baseOps E) m) s hv1 hv2
    have hv4 : Stack.valid E (m + 1) s2 := ⟨h3, by rw [h2]; exact hv3⟩
    obtain ⟨b1, h5, h7⟩ := ih s2 hv4
    refine ⟨b1, ?_, ?_⟩
    · show Flush (ops E (stackOps E (baseOps E) m)) s = _
      unfold Flush
      rw [h1]
      simp only [ops]
      have h9 : (New s2).parent = s2 := rfl
      rw [h9, h5]
      rfl
    · intro k
      rw [h7 k]
      show (match (match pendingOf (cacheStore.cache s2) k with
          | some r => some r
          | none => Stack.pending m (cacheStore.parent s2) k) with
        | some r => r
        | none => (Stack.bottom m (cacheStore.parent s2)).lookup k) =
        match (match pendingOf (cacheStore.cache s) k with
          | some r => some r
          | none =>
            match pendingOf (cacheStore.cache (cacheStore.parent s)) k with
            | some r => some r
            | none => Stack.pending m (cacheStore.parent (cacheStore.parent s)) k) with
        | some r => r
        | none => (Stack.bottom m (cacheStore.parent (cacheStore.parent s))).lookup k
      rw [h4 k, h2]
      cases pendingOf (cacheStore.cache s) k with
      | some r => rfl
      | none => rfl

end

section

variable {σ τ : Type}

namespace cacheStore

end cacheStore

end

section

variable {σ τ : Type}

namespace cacheStore

end cacheStore

open cacheStore

end

section

variable {σ τ : Type}

open cacheStore

end

section

variable {σ τ : Type}

open cacheStore

theorem writeLoop_keep (P : StoreOps σ) (I : σ → Prop) (hP : OpsKeep P I)
    (cache : AList (fun _ : Str => cValue)) (keys : List Str) :
    ∀ p p1, I p → forEach (writeKey P cache) p keys = .ok p1 → I p1 := by
  induction keys with
  | nil =>
    intro p p1 h hf
    simp only [forEach, Except.ok.injEq] at hf
    rw [← hf]; exact h
  | cons k rest ih =>
    intro p p1 h hf
    obtain ⟨p2, h1, h2⟩ := forEach_cons_inv _ _ _ _ _ hf
    refine ih p2 p1 ?_ h2
    cases hc : cache.lookup k with
    | none => simp [writeKey, hc] at h1
    | some cv =>
      by_cases hd : cv.deleted = true
      · exact hP.delete p _ p2 h (by simpa [writeKey, hc, hd] using h1)
      · cases hv : cv.value with
        | none =>
          have : p2 = p := by simpa [writeKey, hc, hd, hv] using h1.symm
          rw [this]; exact h
        | some v => exact hP.set p _ _ p2 h (by simpa [writeKey, hc, hd, hv] using h1)

theorem Write_keep (P : StoreOps σ) (I : σ → Prop) (hP : OpsKeep P I)
    (store store1 : cacheStore σ) (h : I store.parent) (hw : Write P store = .ok store1) :
    I store1.parent := by
  obtain ⟨p, h1, h2⟩ := Write_ok P _ _ hw
  rw [h2]
  exact writeLoop_keep P I hP _ _ _ _ h h1

/-- A call on a cache store keeps what the calls of the parent keep. -/
theorem exec_parent_keep (E : Deps) (P : StoreOps σ) (I : σ → Prop) (hP : OpsKeep P I)
    (store store1 : cacheStore σ) (op : Op) (h : I store.parent)
    (hex : exec E P store op = .ok store1) : I store1.parent := by
  have hget : ∀ key value s1, Get E P store key = .ok (value, s1) → I s1.parent := by
    intro key value s1 hg
    obtain ⟨-, ⟨cv, -, -, h1⟩ | ⟨-, parent, hp, h1⟩⟩ := Get_cases E P _ _ _ _ hg
    · rw [h1]; exact h
    · rw [h1, setCacheValue_parent]
      exact hP.get _ _ _ _ h hp
  have hiter : ∀ start end_ asc items s1,
      iterator E P store start end_ asc = .ok (items, s1) → I s1.parent := by
    intro start end_ asc items s1 hi
    obtain ⟨pitems, parent, hp, hd, -⟩ := iterator_cases E P _ _ _ _ _ _ hi
    rw [(dirtyItems_frame E _ _ _ _ hd).2]
    cases asc with
    | true =>
      simp only [if_true] at hp
      exact hP.iterator _ _ _ _ _ h hp
    | false =>
      simp only [Bool.false_eq_true, if_false] at hp
      exact hP.reverseIterator _ _ _ _ _ h hp
  cases op with
  | get key =>
    obtain ⟨value, hg⟩ := map_snd_ok _ _ hex
    exact hget key value store1 hg
  | has key =>
    obtain ⟨b, hg⟩ := map_snd_ok _ _ hex
    obtain ⟨value, hg, -⟩ := Has_cache E P _ _ _ _ hg
    exact hget key value store1 hg
  | set key value =>
    obtain ⟨-, -, h1⟩ := Set_cases E _ _ _ _ hex
    rw [h1, setCacheValue_parent]; exact h
  | delete key =>
    obtain ⟨-, h1⟩ := Delete_cases E _ _ _ hex
    rw [h1, setCacheValue_parent]; exact h
  | write => exact Write_keep P I hP _ _ h hex
  | writeThrough n =>
    obtain ⟨-, s1, hw, h1 | ⟨-, wt, parent, hwt, hp, h1⟩⟩ := WriteThrough_cases P _ _ _ hex
    · rw [h1.2]; exact Write_keep P I hP _ _ h hw
    · rw [h1]
      exact hP.writeThrough wt _ _ _ hwt (Write_keep P I hP _ _ h hw) hp
  | flush =>
    obtain ⟨s1, hw, h1 | ⟨fs, parent, hfs, hp, h1⟩⟩ := Flush_cases P _ _ hex
    · rw [h1.2]; exact Write_keep P I hP _ _ h hw
    · rw [h1]
      exact hP.flush fs _ _ hfs (Write_keep P I hP _ _ h hw) hp
  | clearThrough =>
    rcases ClearThrough_cases P _ _ hex with ⟨-, h1⟩ | ⟨cts, parent, hc, hp, h1⟩
    · rw [h1, clearClean_parent]; exact h
    · rw [h1]
      exact hP.clearThrough cts _ _ hc (by rw [clearClean_parent]; exact h) hp
  | iterator start end_ =>
    obtain ⟨items, hg⟩ := map_snd_ok _ _ hex
    exact hiter _ _ _ _ _ hg
  | reverseIterator start end_ =>
    obtain ⟨items, hg⟩ := map_snd_ok _ _ hex
    exact hiter _ _ _ _ _ hg
  | cacheWrap =>
    simp only [exec, Except.ok.injEq] at hex
    rw [← hex]; exact h

theorem exec_of_fst {α : Type} (x : Except Panic (α × cacheStore σ)) (a : α)
    (s1 : cacheStore σ) (h : x = .ok (a, s1)) : x.map Prod.snd = .ok s1 := by
  rw [h]; rfl

/-- The calls of a cache store keep its dirty entries valid and keep what the calls of
its parent keep. -/
theorem ops_keep (E : Deps) (hnilK : E.validKey none = false)
    (hnilV : E.validValue none = false) (P : StoreOps σ) (I : σ → Prop) (hP : OpsKeep P I) :
    OpsKeep (ops E P) (fun s => DirtyValid E s ∧ I s.parent) := by
  have hex : ∀ (s s1 : cacheStore σ) (op : Op), DirtyValid E s ∧ I s.parent →
      exec E P s op = .ok s1 → DirtyValid E s1 ∧ I s1.parent :=
    fun s s1 op h hx =>
      ⟨exec_DirtyValid E P s s1 op hnilK hnilV h.1 hx, exec_parent_keep E P I hP s s1 op h.2 hx⟩
  constructor
  · intro s key value s1 h hg
    exact hex s s1 (.get key) h (exec_of_fst _ _ _ hg)
  · intro s key b s1 h hg
    exact hex s s1 (.has key) h (exec_of_fst _ _ _ hg)
  · intro s key value s1 h hg
    exact hex s s1 (.set key value) h hg
  · intro s key s1 h hg
    exact hex s s1 (.delete key) h hg
  · intro s start end_ items s1 h hg
    exact hex s s1 (.iterator start end_) h (exec_of_fst _ _ _ hg)
  · intro s start end_ items s1 h hg
    exact hex s s1 (.reverseIterator start end_) h (exec_of_fst _ _ _ hg)
  · intro wt s n s1 hwt h hg
    simp only [ops, Option.some.injEq] at hwt
    subst hwt
    exact hex s s1 (.writeThrough n) h hg
  · intro fs s s1 hfs h hg
    simp only [ops, Option.some.injEq] at hfs
    subst hfs
    exact hex s s1 .flush h hg
  · intro cts s s1 hc h hg
    simp only [ops, Option.some.injEq] at hc
    subst hc
    exact hex s s1 .clearThrough h hg

/-- The calls of a chain of cache stores keep the dirty entries of all its layers valid. -/
theorem stackOps_keep (E : Deps) (hnilK : E.validKey none = false)
    (hnilV : E.validValue none = false) (P : StoreOps σ) (n : Nat) :
    OpsKeep (stackOps E P n) (Stack.valid E n) := by
  induction n with
  | zero =>
    constructor <;> intros <;> trivial
  | succ n ih => exact ops_keep E hnilK hnilV (stackOps E P n) (Stack.valid E n) ih

/-- A chain stays valid under the calls made on its top store: wrapping a valid chain and
running any sequence of calls on the new top store gives a valid chain. -/
theorem stack_valid_of_run (E : Deps) (hnilK : E.validKey none = false)
    (hnilV : E.validValue none = false) (P : StoreOps σ) (n : Nat) (calls : List Op) :
    ∀ (s s1 : Stack σ (n + 1)), Stack.valid E (n + 1) s →
      run E (stackOps E P n) s calls = .ok s1 → Stack.valid E (n + 1) s1 := by
  induction calls with
  | nil =>
    intro s s1 h hrun
    simp only [run, forEach, Except.ok.injEq] at hrun
    rw [← hrun]; exact h
  | cons op rest ih =>
    intro s s1 h hrun
    obtain ⟨s2, h1, h2⟩ := forEach_cons_inv _ _ _ _ _ hrun
    refine ih s2 s1 ?_ h2
    exact ⟨exec_DirtyValid E (stackOps E P n) s s2 op hnilK hnilV h.1 h1,
      exec_parent_keep E (stackOps E P n) (Stack.valid E n)
        (stackOps_keep E hnilK hnilV P n) s s2 op h.2 h1⟩

/-- Wrapping a valid chain in a new cache store gives a valid chain. -/
theorem stack_valid_New (E : Deps) (n : Nat) (p : Stack σ n) (h : Stack.valid E n p) :
    Stack.valid E (n + 1) (New p) :=
  ⟨DirtyValid_New E p, h⟩

end

section

variable {σ τ : Type}

open cacheStore

/-- C11 (Has agrees with Get): for a valid key, when the key has a cache entry or the
parent answers `Get`, both `Get` and `Has` return, on the same state; `Has` returns true
exactly when the value `Get` returns is not absent, and leaves the store in the state in
which `Get` leaves it. -/
theorem C11_has_agrees_with_get (E : Deps) (P : StoreOps σ) (store : cacheStore σ)
    (key : Bytes) (hk : E.validKey key = true)
    (hp : store.cache.lookup (toStr key) = none →
      ∃ value parent, P.get store.parent key = .ok (value, parent)) :
    ∃ value b store1,
      Get E P store key = .ok (value, store1) ∧
      Has E P store key = .ok (b, store1) ∧
      (b = true ↔ value ≠ none) := by
  cases hc : store.cache.lookup (toStr key) with
  | some cv =>
    have hg := Get_hit E P store key cv hk hc
    refine ⟨cv.value, cv.value != none, store, hg, ?_, ?_⟩
    · unfold Has
      rw [hg]
    · simp
  | none =>
    obtain ⟨value, parent, hpg⟩ := hp hc
    have hg := Get_miss E P store key value parent hk hc hpg
    refine ⟨value, value != none, _, hg, ?_, ?_⟩
    · unfold Has
      rw [hg]
    · simp

/-- C17 (unsorted keys are backed by dirty entries): in every state reachable from `New`
by calls of the public methods, every key of `unsortedCache` has an entry in the cache map
and that entry is dirty; hence `dirtyItems` returns, for every range: its lookup
`store.cache[key]` never misses. -/
theorem C17_unsorted_backed (E : Deps) (P : StoreOps σ) (store : cacheStore σ)
    (hr : Reachable E P store) :
    (∀ k, k ∈ store.unsortedCache →
      ∃ cv, store.cache.lookup k = some cv ∧ cv.dirty = true) ∧
    (∀ start end_, ∃ store1, dirtyItems E store start end_ = .ok store1) := by
  have hinv := Reachable.inv E P store hr
  refine ⟨hinv.unsorted_dirty, ?_⟩
  intro start end_
  obtain ⟨store1, h, -⟩ := dirtyItems_Inv E store start end_ hinv
  exact ⟨store1, h⟩

/-- C18 (no pending write is lost from the indexes): in every state reachable from `New`
by calls of the public methods, a key has a dirty cache entry exactly when it is in
`unsortedCache` or is the key of an item of `sortedCache`. -/
theorem C18_dirty_keys_indexed (E : Deps) (P : StoreOps σ) (store : cacheStore σ)
    (hr : Reachable E P store) (k : Str) :
    (∃ cv, store.cache.lookup k = some cv ∧ cv.dirty = true) ↔
      (k ∈ store.unsortedCache ∨ ∃ kv ∈ store.sortedCache, kv.key = k) := by
  have hinv := Reachable.inv E P store hr
  constructor
  · rintro ⟨cv, h1, h2⟩
    exact hinv.dirty_indexed k cv h1 h2
  · rintro (h | ⟨kv, h1, h2⟩)
    · exact hinv.unsorted_dirty k h
    · obtain ⟨cv, h3, h4, -⟩ := hinv.sorted_dirty kv h1
      exact ⟨cv, by rw [← h2]; exact h3, h4⟩

end

section

variable {σ τ : Type}

open cacheStore

/-- In a list that is strictly ascending by key an item is the only one with its key. -/
theorem filter_key_of_sorted (l : List KVPair) (kv : KVPair)
    (h : l.Pairwise (fun a b => a.key < b.key)) (hm : kv ∈ l) :
    l.filter (fun x => decide (x.key = kv.key)) = [kv] := by
  induction l with
  | nil => simp at hm
  | cons a t ih =>
    obtain ⟨h1, h2⟩ := List.pairwise_cons.1 h
    rcases List.mem_cons.1 hm with h3 | h3
    · subst h3
      have hnone : t.filter (fun x => decide (x.key = kv.key)) = [] := by
        rw [List.filter_eq_nil_iff]
        intro x hx
        simpa using (ne_of_lt (h1 x hx)).symm
      simp [List.filter_cons, hnone]
    · have hne : ¬ a.key = kv.key := ne_of_lt (h1 kv h3)
      simp [List.filter_cons, hne, ih h2 h3]

/-- C15 (reconciliation keeps sorted ordered): in a state whose `sortedCache` is strictly
ascending by key and whose unsorted keys of the range have a cache entry, `dirtyItems`
returns and leaves `sortedCache` strictly ascending by key, hence without duplicate key,
its keys being the old keys together with the keys of `unsortedCache` that lie in the
range; and `sortedCache` is strictly ascending in every state reachable from `New`. -/
theorem C15_sorted_stays_ordered (E : Deps) (P : StoreOps σ) (store : cacheStore σ)
    (start end_ : Bytes)
    (hasc : store.sortedCache.Pairwise (fun a b => a.key < b.key))
    (hent : ∀ k, k ∈ store.unsortedCache → E.isKeyInDomain k start end_ = true →
      ∃ cv, store.cache.lookup k = some cv) :
    (∃ store1, dirtyItems E store start end_ = .ok store1 ∧
      store1.sortedCache.Pairwise (fun a b => a.key < b.key) ∧
      (store1.sortedCache.map KVPair.key).Nodup ∧
      ∀ k, k ∈ store1.sortedCache.map KVPair.key ↔
        (k ∈ store.sortedCache.map KVPair.key ∨
          (k ∈ store.unsortedCache ∧ E.isKeyInDomain k start end_ = true))) ∧
    (∀ s : cacheStore σ, Reachable E P s →
      s.sortedCache.Pairwise (fun a b => a.key < b.key)) := by
  refine ⟨?_, fun s hs => (Reachable.inv E P s hs).sorted_asc⟩
  obtain ⟨uc1, h1, -⟩ := dirtyLoop E store.cache start end_ store.unsortedCache.keys []
    store.unsortedCache (fun k hk hd => hent k (AList.mem_keys.2 hk) hd)
  have hnd : ((dirtyBatch E store.cache start end_ store.unsortedCache.keys).map
      KVPair.key).Nodup := by
    rw [dirtyBatch_keys]
    exact (AList.keys_nodup _).sublist (List.filter_sublist _)
  have hsp := sortPairs_sorted _ hnd
  have hsorted := mergeSorted_sorted _ _ _ (le_refl _) hasc hsp
  refine ⟨{ store with
      unsortedCache := uc1
      sortedCache := mergeSorted store.sortedCache
        (sortPairs (dirtyBatch E store.cache start end_ store.unsortedCache.keys)) },
    ?_, hsorted, ?_, ?_⟩
  · unfold dirtyItems
    rw [h1]
    simp
  · exact (List.pairwise_map.2 (hsorted.imp (fun h => ne_of_lt h)))
  · intro k
    simp only [List.mem_map]
    constructor
    · rintro ⟨kv, hkv, hk⟩
      rcases (mem_mergeSorted _ _ _ (le_refl _) hasc hsp kv).1 hkv with h | ⟨h, -⟩
      · rw [(sortPairs_perm _).mem_iff, mem_dirtyBatch] at h
        exact Or.inr ⟨AList.mem_keys.2 (hk ▸ h.1), hk ▸ h.2.1⟩
      · exact Or.inl ⟨kv, h, hk⟩
    · rintro (⟨kv, hkv, hk⟩ | ⟨h2, h3⟩)
      · by_cases hb : ∃ u ∈ sortPairs
            (dirtyBatch E store.cache start end_ store.unsortedCache.keys), u.key = kv.key
        · obtain ⟨u, hu, huk⟩ := hb
          exact ⟨u, (mem_mergeSorted _ _ _ (le_refl _) hasc hsp u).2 (Or.inl hu),
            by rw [huk, hk]⟩
        · push_neg at hb
          exact ⟨kv, (mem_mergeSorted _ _ _ (le_refl _) hasc hsp kv).2 (Or.inr ⟨hkv, hb⟩), hk⟩
      · refine ⟨⟨k, cachedValue store.cache k⟩, ?_, rfl⟩
        apply (mem_mergeSorted _ _ _ (le_refl _) hasc hsp _).2
        left
        rw [(sortPairs_perm _).mem_iff, mem_dirtyBatch]
        exact ⟨AList.mem_keys.1 h2, h3, rfl⟩

/-- C16 (reconciliation makes sorted up to date in the range): in a reachable state
`dirtyItems` returns, and afterwards every key of the range that has a dirty cache entry
is the key of exactly one item of `sortedCache`, whose value is the value the cache entry
holds now (absent for a tombstone), whatever `sortedCache` held for the key before; no
key of the range is left in `unsortedCache`, and the keys outside the range are in
`unsortedCache` exactly when they were. -/
theorem C16_sorted_up_to_date (E : Deps) (P : StoreOps σ) (store : cacheStore σ)
    (start end_ : Bytes) (hr : Reachable E P store) :
    ∃ store1, dirtyItems E store start end_ = .ok store1 ∧
      (∀ k cv, E.isKeyInDomain k start end_ = true → store.cache.lookup k = some cv →
        cv.dirty = true →
        store1.sortedCache.filter (fun kv => decide (kv.key = k)) = [⟨k, cv.value⟩] ∧
          (cv.deleted = true → cv.value = none)) ∧
      (∀ k, E.isKeyInDomain k start end_ = true → k ∉ store1.unsortedCache) ∧
      (∀ k, E.isKeyInDomain k start end_ = false →
        (k ∈ store1.unsortedCache ↔ k ∈ store.unsortedCache)) := by
  have hinv := Reachable.inv E P store hr
  obtain ⟨store1, h1, hinv1, hcache, -, hun, -⟩ := dirtyItems_Inv E store start end_ hinv
  refine ⟨store1, h1, ?_, ?_, ?_⟩
  · intro k cv hdom hc hd
    refine ⟨?_, hinv.tombstone_nil k cv hc hd⟩
    have hnot : k ∉ store1.unsortedCache := by
      intro hm
      have := ((hun k).1 hm).2
      rw [hdom] at this
      exact absurd this (by simp)
    rcases hinv1.dirty_indexed k cv (by rw [hcache]; exact hc) hd with h2 | ⟨kv, h2, h3⟩
    · exact absurd h2 hnot
    · obtain ⟨cv1, h4, -, h5⟩ := hinv1.sorted_dirty kv h2
      rw [h3, hcache, hc] at h4
      simp only [Option.some.injEq] at h4
      have hval : kv.value = cv.value := by rw [h5 (by rw [h3]; exact hnot), ← h4]
      have hkv : kv = ⟨k, cv.value⟩ := by
        cases kv
        simp only at h3 hval
        simp [h3, hval]
      have := filter_key_of_sorted store1.sortedCache kv hinv1.sorted_asc h2
      rw [hkv] at this
      exact this
  · intro k hdom hm
    have := ((hun k).1 hm).2
    rw [hdom] at this
    exact absurd this (by simp)
  · intro k hdom
    rw [hun k]
    exact ⟨fun h => h.1, fun h => ⟨h, hdom⟩⟩

end

section

variable {σ τ : Type}

open cacheStore

theorem callOf_filter_ne (cache : AList (fun _ : Str => cValue)) (k k1 : Str) (h : k1 ≠ k) :
    (callOf cache k1).filter (fun c => decide (c.key = k)) = [] := by
  rw [List.filter_eq_nil_iff]
  intro c hc
  rw [(callOf_isWrite cache k1 c hc).2]
  simpa using h

theorem callOf_filter_eq (cache : AList (fun _ : Str => cValue)) (k : Str) :
    (callOf cache k).filter (fun c => decide (c.key = k)) = callOf cache k := by
  rw [List.filter_eq_self]
  intro c hc
  rw [(callOf_isWrite cache k c hc).2]
  simp

/-- Among the calls `Write` makes, those made with a given key are the calls made for it. -/
theorem writeCalls_filter (cache : AList (fun _ : Str => cValue)) (k : Str)
    (keys : List Str) (hnd : keys.Nodup) :
    (keys.flatMap (callOf cache)).filter (fun c => decide (c.key = k)) =
      if k ∈ keys then callOf cache k else [] := by
  induction keys with
  | nil => simp
  | cons k1 rest ih =>
    obtain ⟨hn, hnd1⟩ := List.nodup_cons.1 hnd
    rw [List.flatMap_cons, List.filter_append, ih hnd1]
    by_cases hk : k1 = k
    · subst hk
      rw [callOf_filter_eq, if_neg hn]
      simp
    · rw [callOf_filter_ne cache k k1 hk]
      have hkk : ¬ k = k1 := fun h => hk h.symm
      by_cases hr : k ∈ rest
      · rw [if_pos hr, if_pos (List.mem_cons_of_mem _ hr)]
        rfl
      · rw [if_neg hr, if_neg (fun h => (List.mem_cons.1 h).elim hkk hr)]
        rfl

/-- The calls a `Write` that returns has made for one key, read off the parent's record. -/
theorem Write_calls_for_key (P : StoreOps σ) (store store1 : cacheStore (σ × List Call))
    (h : Write (logged P) store = .ok store1) :
    ∃ calls, store1.parent.2 = store.parent.2 ++ calls ∧
      ∀ k, calls.filter (fun c => decide (c.key = k)) =
        if (∃ cv, store.cache.lookup k = some cv ∧ cv.dirty = true) then
          callOf store.cache k
        else [] := by
  obtain ⟨parent, hloop, hs1⟩ := Write_ok _ _ _ h
  have hlog := writeLoop_log P store.cache _ _ _ hloop
  refine ⟨(writeKeys store).flatMap (callOf store.cache), by rw [hs1]; exact hlog, ?_⟩
  intro k
  rw [writeCalls_filter _ _ _ (writeKeys_nodup store)]
  by_cases hk : k ∈ writeKeys store
  · rw [if_pos hk, if_pos ((mem_writeKeys store k).1 hk)]
  · rw [if_neg hk, if_neg (fun h => hk ((mem_writeKeys store k).2 h))]

/-- C14, amended (`Write` does not skip a tombstone): `Delete` of a valid key records the
dirty tombstone `{value absent, deleted, dirty}` and adds the key to `unsortedCache`,
whatever the parent holds for the key; and the following `Write`, when it returns, has
made exactly one call to the parent for the key, `Delete(key)`. -/
theorem C14_delete_is_written (E : Deps) (P : StoreOps σ)
    (store : cacheStore (σ × List Call)) (key : Bytes) (hk : E.validKey key = true) :
    ∃ store1, Delete E store key = .ok store1 ∧
      store1.cache.lookup (toStr key) = some ⟨none, true, true⟩ ∧
      toStr key ∈ store1.unsortedCache ∧
      ∀ store2, Write (logged P) store1 = .ok store2 →
        ∃ calls, store2.parent.2 = store.parent.2 ++ calls ∧
          calls.filter (fun c => decide (c.key = toStr key)) =
            [Call.delete (toBytes (toStr key))] := by
  refine ⟨setCacheValue store key none true true, ?_, ?_, ?_, ?_⟩
  · simp [Delete, hk]
  · rw [setCacheValue_cache]; exact AList.lookup_insert _
  · rw [setCacheValue_unsorted_dirty]; exact (AList.mem_insert _).2 (Or.inl rfl)
  · intro store2 hw
    obtain ⟨calls, h1, h2⟩ := Write_calls_for_key P _ _ hw
    refine ⟨calls, by rw [h1, setCacheValue_parent], ?_⟩
    have hl : (setCacheValue store key none true true).cache.lookup (toStr key) =
        some ⟨none, true, true⟩ := by
      rw [setCacheValue_cache]; exact AList.lookup_insert _
    rw [h2 (toStr key), if_pos ⟨_, hl, rfl⟩]
    simp [callOf, hl]

/-- Counterexample to C14: over an empty base store, which holds no value for `a`,
`Delete(a)` followed by `Write` calls `Delete(a)` on the base store. -/
theorem C14_counterexample :
    (baseOps stdDeps).get (∅ : Base) (some [97]) = .ok (none, ∅) ∧
    Delete stdDeps (New ((∅ : Base), ([] : List Call))) (some [97]) = .ok deletedAbsent ∧
    Write (logged (baseOps stdDeps)) deletedAbsent =
      .ok (New ((∅ : Base), [Call.delete (some [97])])) :=
  ⟨rfl, rfl, rfl⟩

theorem NoSkip_New (parent : σ) : NoSkip (New parent) := by
  intro k cv hc
  simp [New] at hc

/-- Every call of a public method keeps the skip branch of `Write` out of reach, when
`Set` rejects an absent value. -/
theorem exec_NoSkip (E : Deps) (P : StoreOps σ) (store store1 : cacheStore σ) (op : Op)
    (hnilV : E.validValue none = false)
    (h : NoSkip store) (hex : exec E P store op = .ok store1) : NoSkip store1 := by
  have hsame : ∀ s1 : cacheStore σ, s1.cache = store.cache → NoSkip s1 := by
    intro s1 h1 k cv hc
    rw [h1] at hc
    exact h k cv hc
  have hwrite : ∀ (s1 : cacheStore σ) (key : Str) (cv0 : cValue),
      s1.cache = store.cache.insert key cv0 →
      (cv0.dirty = true → cv0.deleted = false → cv0.value ≠ none) → NoSkip s1 := by
    intro s1 key cv0 h1 h2 k cv hc hd hdl
    rw [h1] at hc
    by_cases hkk : k = key
    · subst hkk
      rw [AList.lookup_insert] at hc
      simp only [Option.some.injEq] at hc
      subst hc
      exact h2 hd hdl
    · rw [AList.lookup_insert_ne hkk] at hc
      exact h k cv hc hd hdl
  have hget : ∀ key value s1, Get E P store key = .ok (value, s1) → NoSkip s1 := by
    intro key value s1 hg
    rcases Get_cache E P _ _ _ _ hg with h1 | ⟨-, h1⟩
    · exact hsame s1 h1
    · exact hwrite s1 _ _ h1 (fun hd => absurd hd (by simp))
  cases hop : op.isFlush with
  | true =>
    obtain ⟨parent, hp⟩ := flushed_is_New P _ _ op hop E hex
    rw [hp]; exact NoSkip_New parent
  | false =>
    cases op with
    | get key =>
      obtain ⟨value, hg⟩ := map_snd_ok _ _ hex
      exact hget key value store1 hg
    | has key =>
      obtain ⟨b, hg⟩ := map_snd_ok _ _ hex
      obtain ⟨value, hg, -⟩ := Has_cache E P _ _ _ _ hg
      exact hget key value store1 hg
    | set key value =>
      obtain ⟨-, hv, h1⟩ := Set_cases E _ _ _ _ hex
      refine hwrite store1 _ _ (by rw [h1, setCacheValue_cache]) ?_
      intro _ _ hn
      simp only at hn
      rw [hn, hnilV] at hv
      exact absurd hv (by simp)
    | delete key =>
      obtain ⟨-, h1⟩ := Delete_cases E _ _ _ hex
      exact hwrite store1 _ _ (by rw [h1, setCacheValue_cache])
        (fun _ hdl => absurd hdl (by simp))
    | write => simp [Op.isFlush] at hop
    | writeThrough n => simp [Op.isFlush] at hop
    | flush => simp [Op.isFlush] at hop
    | clearThrough =>
      obtain ⟨h1, -, -⟩ := ClearThrough_cache P _ _ hex
      intro k cv hc hd hdl
      rw [h1, clearClean_lookup] at hc
      cases hl : store.cache.lookup k with
      | none => simp [hl, Option.filter] at hc
      | some cv0 =>
        rw [hl] at hc
        by_cases hd0 : cv0.dirty = true
        · simp only [Option.filter, hd0, if_true, Option.some.injEq] at hc
          subst hc
          exact h k cv0 hl hd hdl
        · simp [Option.filter, hd0] at hc
    | iterator start end_ =>
      obtain ⟨items, hg⟩ := map_snd_ok _ _ hex
      exact hsame store1 (iterator_cache E P _ _ _ _ _ _ hg)
    | reverseIterator start end_ =>
      obtain ⟨items, hg⟩ := map_snd_ok _ _ hex
      exact hsame store1 (iterator_cache E P _ _ _ _ _ _ hg)
    | cacheWrap =>
      simp only [exec, Except.ok.injEq] at hex
      exact hsame store1 (by rw [← hex])

/-- A recording store over a parent whose `Set` and `Delete` return for valid arguments
takes every valid write. -/
theorem logged_takes_writes (E : Deps) (P : StoreOps σ)
    (hset : ∀ p k v, E.validKey (toBytes k) = true → E.validValue (some v) = true →
      ∃ p1, P.set p (toBytes k) (some v) = .ok p1)
    (hdel : ∀ p k, E.validKey (toBytes k) = true → ∃ p1, P.delete p (toBytes k) = .ok p1) :
    WriteSpec E (logged P) (fun (_ : σ × List Call) (_ : Str) => ()) (fun _ => ()) ()
      (fun _ => ()) := by
  constructor
  · intro p k v hk hv
    obtain ⟨p1, h1⟩ := hset p.1 k v hk hv
    refine ⟨(p1, p.2 ++ [Call.set (toBytes k) (some v)]), ?_, ?_, rfl⟩
    · simp [logged, h1, Except.map]
    · funext k1; rfl
  · intro p k hk
    obtain ⟨p1, h1⟩ := hdel p.1 k hk
    refine ⟨(p1, p.2 ++ [Call.delete (toBytes k)]), ?_, ?_, rfl⟩
    · simp [logged, h1, Except.map]
    · funext k1; rfl

/-- C19 (the skip branch of `Write` is never taken): when `Set` rejects an absent value,
in every state reachable from `New` by calls of the public methods no cache entry is
dirty, not deleted and without value. So a `Write` that returns has made, for every key
with a dirty entry, exactly one call to the parent: `Delete` when the entry is a
tombstone and `Set` of the cached value otherwise. And `Write` does return, with these
calls made, over every parent whose `Set` and `Delete` return for valid arguments (an
absent key being invalid): only a panic of the parent stops it. -/
theorem C19_skip_never_taken (E : Deps) (P : StoreOps σ)
    (hnilV : E.validValue none = false)
    (store : cacheStore (σ × List Call)) (hr : Reachable E (logged P) store) :
    (∀ k cv, store.cache.lookup k = some cv →
      ¬ (cv.dirty = true ∧ cv.deleted = false ∧ cv.value = none)) ∧
    (∀ store1, Write (logged P) store = .ok store1 →
      ∃ calls, store1.parent.2 = store.parent.2 ++ calls ∧
        ∀ k cv, store.cache.lookup k = some cv → cv.dirty = true →
          calls.filter (fun c => decide (c.key = k)) =
            [if cv.deleted then Call.delete (toBytes k) else Call.set (toBytes k) cv.value]) ∧
    (E.validKey none = false →
      (∀ p k v, E.validKey (toBytes k) = true → E.validValue (some v) = true →
        ∃ p1, P.set p (toBytes k) (some v) = .ok p1) →
      (∀ p k, E.validKey (toBytes k) = true → ∃ p1, P.delete p (toBytes k) = .ok p1) →
      ∃ store1 calls, Write (logged P) store = .ok store1 ∧
        store1.parent.2 = store.parent.2 ++ calls ∧
        ∀ k cv, store.cache.lookup k = some cv → cv.dirty = true →
          calls.filter (fun c => decide (c.key = k)) =
            [if cv.deleted then Call.delete (toBytes k)
              else Call.set (toBytes k) cv.value]) := by
  have hns : NoSkip store := by
    induction hr with
    | new parent => exact NoSkip_New parent
    | step s s1 op _ hex ih => exact exec_NoSkip E (logged P) s s1 op hnilV ih hex
  have hcalls : ∀ store1, Write (logged P) store = .ok store1 →
      ∃ calls, store1.parent.2 = store.parent.2 ++ calls ∧
        ∀ k cv, store.cache.lookup k = some cv → cv.dirty = true →
          calls.filter (fun c => decide (c.key = k)) =
            [if cv.deleted then Call.delete (toBytes k)
              else Call.set (toBytes k) cv.value] := by
    intro store1 hw
    obtain ⟨calls, h1, h2⟩ := Write_calls_for_key P _ _ hw
    refine ⟨calls, h1, ?_⟩
    intro k cv hc hd
    rw [h2 k, if_pos ⟨cv, hc, hd⟩]
    cases hdl : cv.deleted with
    | true => simp [callOf, hc, hdl]
    | false =>
      cases hv : cv.value with
      | none => exact absurd hv (hns k cv hc hd hdl)
      | some v => simp [callOf, hc, hdl, hv]
  refine ⟨fun k cv hc h => hns k cv hc h.1 h.2.1 h.2.2, hcalls, ?_⟩
  intro hnilK hset hdel
  obtain ⟨p1, hw, -, -⟩ := Write_spec E (logged P) _ _ _ _
    (logged_takes_writes E P hset hdel) store
    (Reachable.dirtyValid E (logged P) store hnilK hnilV hr)
  obtain ⟨calls, h1, h2⟩ := hcalls _ hw
  exact ⟨_, calls, hw, h1, h2⟩

end

section

variable {σ τ : Type}

theorem forEachOutcome_agrees {α β : Type} (f : β → α → Except Panic β) (l : List α) :
    ∀ b, forEach f b l =
      match forEachOutcome f b l with
      | (_, some e) => .error e
      | (b1, none) => .ok b1 := by
  induction l with
  | nil => intro b; rfl
  | cons a as ih =>
    intro b
    unfold forEach forEachOutcome
    cases hf : f b a with
    | error e => rfl
    | ok b1 => exact ih b1

/-- The traced `Get` returns what `Get` returns. -/
theorem Traced.Get_agrees (E : Deps) (P : StoreOps σ) (store : cacheStore σ) (key : Bytes) :
    cacheStore.Get E P store key =
      match (Traced.Get E P store key).result with
      | .error e => .error e
      | .ok value => .ok (value, (Traced.Get E P store key).store) := by
  unfold cacheStore.Get Traced.Get
  by_cases hk : E.validKey key = false
  · simp [hk]
  · simp only [hk, if_false]
    cases hc : store.cache.lookup (toStr key) with
    | some cv => rfl
    | none =>
      simp only
      cases hp : P.get store.parent key with
      | error e => rfl
      | ok r => rfl

/-- The traced `Set` returns what `Set` returns. -/
theorem Traced.Set_agrees (E : Deps) (store : cacheStore σ) (key value : Bytes) :
    cacheStore.Set E store key value =
      (Traced.Set E store key value).result.map (fun _ => (Traced.Set E store key value).store) := by
  unfold cacheStore.Set Traced.Set
  by_cases hk : E.validKey key = false
  · simp [hk, Except.map]
  · by_cases hv : E.validValue value = false
    · simp [hk, hv, Except.map]
    · simp [hk, hv, Except.map]

/-- The traced `Delete` returns what `Delete` returns. -/
theorem Traced.Delete_agrees (E : Deps) (store : cacheStore σ) (key : Bytes) :
    cacheStore.Delete E store key =
      (Traced.Delete E store key).result.map (fun _ => (Traced.Delete E store key).store) := by
  unfold cacheStore.Delete Traced.Delete
  by_cases hk : E.validKey key = false
  · simp [hk, Except.map]
  · simp [hk, Except.map]

/-- The traced `Write` returns what `Write` returns. -/
theorem Traced.Write_agrees (P : StoreOps σ) (store : cacheStore σ) :
    cacheStore.Write P store =
      (Traced.Write P store).result.map (fun _ => (Traced.Write P store).store) := by
  unfold cacheStore.Write Traced.Write
  rw [forEachOutcome_agrees]
  cases h : forEachOutcome (cacheStore.writeKey P store.cache) store.parent
      (cacheStore.writeKeys store) with
  | mk parent e =>
    cases e with
    | none => rfl
    | some e => rfl

/-- The traced `WriteThrough` returns what `WriteThrough` returns. -/
theorem Traced.WriteThrough_agrees (P : StoreOps σ) (store : cacheStore σ) (n : Int) :
    cacheStore.WriteThrough P store n =
      (Traced.WriteThrough P store n).result.map
        (fun _ => (Traced.WriteThrough P store n).store) := by
  unfold cacheStore.WriteThrough Traced.WriteThrough
  by_cases hn : n ≤ 0
  · simp [hn, Except.map]
  · simp only [hn, if_false]
    rw [Traced.Write_agrees]
    cases hw : Traced.Write P store with
    | mk store1 r =>
      cases r with
      | error e => rfl
      | ok u =>
        simp only [Except.map]
        by_cases h2 : n ≥ 2
        · simp only [h2, if_true]
          cases hwt : P.writeThrough with
          | none => rfl
          | some wt =>
            simp only
            cases hp : wt store1.parent (n - 1) with
            | error e => rfl
            | ok parent => rfl
        · simp only [h2, if_false]

theorem forEach_error {α β : Type} (f : β → α → Except Panic β) (l : List α) (e : Panic) :
    ∀ b, forEach f b l = .error e → ∃ b1 a, f b1 a = .error e := by
  induction l with
  | nil => intro b h; simp [forEach] at h
  | cons a as ih =>
    intro b h
    unfold forEach at h
    cases hf : f b a with
    | error e1 =>
      rw [hf] at h
      simp only [Except.error.injEq] at h
      exact ⟨b, a, by rw [hf, h]⟩
    | ok b1 =>
      rw [hf] at h
      exact ih b1 h

/-- `Write` does not raise the panic of the guard of `WriteThrough` unless the parent
does. -/
theorem Write_no_guard_panic (P : StoreOps σ) (hP : NoGuardPanic P) (store : cacheStore σ) :
    cacheStore.Write P store ≠ .error .shouldNotHappen := by
  intro h
  unfold cacheStore.Write at h
  cases hf : forEach (cacheStore.writeKey P store.cache) store.parent
      (cacheStore.writeKeys store) with
  | ok p => simp [hf] at h
  | error e =>
    rw [hf] at h
    simp only [Except.error.injEq] at h
    subst h
    obtain ⟨p, k, hk⟩ := forEach_error _ _ _ _ hf
    cases hc : store.cache.lookup k with
    | none => simp [cacheStore.writeKey, hc] at hk
    | some cv =>
      by_cases hd : cv.deleted = true
      · exact hP.delete p _ (by simpa [cacheStore.writeKey, hc, hd] using hk)
      · cases hv : cv.value with
        | none => simp [cacheStore.writeKey, hc, hd, hv] at hk
        | some v => exact hP.set p _ _ (by simpa [cacheStore.writeKey, hc, hd, hv] using hk)

/-- C12 (WriteThrough rejects a non-positive level count): for `n <= 0`, `WriteThrough(n)`
panics with "should not happen" and leaves the store, parent included, exactly as it was:
`Write` is not called. For `n >= 1` that panic is not raised: over a parent whose own
`Set`, `Delete` and `WriteThrough` (with a positive level count) do not raise it,
`WriteThrough(n)` does not end in it. -/
theorem C12_writeThrough_guard (P : StoreOps σ) (store : cacheStore σ) (n : Int) :
    (n ≤ 0 →
      Traced.WriteThrough P store n = ⟨store, .error .shouldNotHappen⟩ ∧
      cacheStore.WriteThrough P store n = .error .shouldNotHappen) ∧
    (1 ≤ n → NoGuardPanic P →
      (Traced.WriteThrough P store n).result ≠ .error .shouldNotHappen ∧
      cacheStore.WriteThrough P store n ≠ .error .shouldNotHappen) := by
  constructor
  · intro hn
    constructor
    · simp [Traced.WriteThrough, hn]
    · simp [cacheStore.WriteThrough, hn]
  · intro hn hP
    have hmain : cacheStore.WriteThrough P store n ≠ .error .shouldNotHappen := by
      intro h
      unfold cacheStore.WriteThrough at h
      rw [if_neg (by omega)] at h
      cases hw : cacheStore.Write P store with
      | error e =>
        rw [hw] at h
        simp only [Except.error.injEq] at h
        rw [h] at hw
        exact Write_no_guard_panic P hP store hw
      | ok s1 =>
        rw [hw] at h
        simp only at h
        by_cases h2 : n ≥ 2
        · rw [if_pos h2] at h
          cases hwt : P.writeThrough with
          | none => simp [hwt] at h
          | some wt =>
            rw [hwt] at h
            simp only at h
            cases hp : wt s1.parent (n - 1) with
            | ok parent => simp [hp] at h
            | error e =>
              rw [hp] at h
              simp only [Except.error.injEq] at h
              rw [h] at hp
              exact hP.writeThrough wt _ _ hwt (by omega) hp
        · rw [if_neg h2] at h
          simp at h
    refine ⟨?_, hmain⟩
    intro h
    apply hmain
    rw [Traced.WriteThrough_agrees, h]
    rfl

/-- C13 (validation happens before caching): `Get`, `Set` and `Delete` with an invalid
key panic with "invalid key", and `Set` with a valid key and an invalid value panics with
"invalid value"; each leaves the store, parent included, exactly as it was, so `cache`,
`unsortedCache` and `sortedCache` are unchanged and the parent has received no call. The
failed `Get` is not a `Get` that returns absent. -/
theorem C13_validation_first (E : Deps) (P : StoreOps σ) (store : cacheStore σ)
    (key value : Bytes) :
    (E.validKey key = false →
      Traced.Get E P store key = ⟨store, .error .invalidKey⟩ ∧
      Traced.Set E store key value = ⟨store, .error .invalidKey⟩ ∧
      Traced.Delete E store key = ⟨store, .error .invalidKey⟩ ∧
      cacheStore.Get E P store key = .error .invalidKey ∧
      cacheStore.Set E store key value = .error .invalidKey ∧
      cacheStore.Delete E store key = .error .invalidKey ∧
      ∀ store1, cacheStore.Get E P store key ≠ .ok (none, store1)) ∧
    (E.validKey key = true → E.validValue value = false →
      Traced.Set E store key value = ⟨store, .error .invalidValue⟩ ∧
      cacheStore.Set E store key value = .error .invalidValue) := by
  constructor
  · intro hk
    have hg : cacheStore.Get E P store key = .error .invalidKey := by
      simp [cacheStore.Get, hk]
    refine ⟨?_, ?_, ?_, hg, ?_, ?_, ?_⟩
    · simp [Traced.Get, hk]
    · simp [Traced.Set, hk]
    · simp [Traced.Delete, hk]
    · simp [cacheStore.Set, hk]
    · simp [cacheStore.Delete, hk]
    · intro store1 h
      rw [hg] at h
      exact absurd h (by simp)
  · intro hk hv
    constructor
    · simp [Traced.Set, hk, hv]
    · simp [cacheStore.Set, hk, hv]

end

section

variable {σ : Type}

open cacheStore

/-- A state that a run from `New` ends in is reachable. -/
theorem Reachable.of_run (E : Deps) (P : StoreOps σ) (calls : List Op) :
    ∀ (store store1 : cacheStore σ), Reachable E P store →
      run E P store calls = .ok store1 → Reachable E P store1 := by
  induction calls with
  | nil =>
    intro store store1 h hrun
    simp only [run, forEach, Except.ok.injEq] at hrun
    rw [← hrun]; exact h
  | cons op rest ih =>
    intro store store1 h hrun
    obtain ⟨s1, h1, h2⟩ := forEach_cons_inv _ _ _ _ _ hrun
    exact ih s1 store1 (Reachable.step store s1 op h h1) h2

theorem exampleStore_reachable : Reachable stdDeps (baseOps stdDeps) exampleStore :=
  Reachable.of_run stdDeps (baseOps stdDeps) exampleCalls (New exampleBase) exampleStore
    (Reachable.new exampleBase) rfl

/-- The base store leaves its contents as they are on every reading call. -/
theorem baseOps_readsKeep (E : Deps) :
    ReadsKeep (baseOps E) (fun (m : Base) k => m.lookup k) := by
  constructor
  · intro p key value p1 h
    simp only [baseOps] at h
    split at h
    · exact absurd h (by simp)
    · simp only [Except.ok.injEq, Prod.mk.injEq] at h
      rw [h.2]
  · intro p key b p1 h
    simp only [baseOps] at h
    split at h
    · exact absurd h (by simp)
    · simp only [Except.ok.injEq, Prod.mk.injEq] at h
      rw [h.2]
  · intro p start end_ items p1 h
    simp only [baseOps, Except.ok.injEq, Prod.mk.injEq] at h
    rw [h.2]
  · intro p start end_ items p1 h
    simp only [baseOps, Except.ok.injEq, Prod.mk.injEq] at h
    rw [h.2]
  · intro cts p p1 h
    simp [baseOps] at h

/-- Witness of C1: after `exampleCalls`, whose last write on `a` is `Set(a, 7)` made after
`Delete(a)`, `Get(a)` returns 7 although the parent holds 1. -/
theorem C1_last_write_wins_witness :
    stdDeps.validKey (some [97]) = true ∧
    lastWrite (toStr (some [97])) exampleCalls = some (some [7]) ∧
    Get stdDeps (baseOps stdDeps) exampleStore (some [97]) = .ok (some [7], exampleStore) :=
  ⟨by decide, by decide,
    C1_last_write_wins stdDeps (baseOps stdDeps) (New exampleBase) exampleStore exampleCalls
      (some [97]) (some [7]) (by decide) (by decide) rfl (by decide)⟩

/-- Witness of C2: `Write` after `exampleCalls` on a new store over `exampleBase`. -/
theorem C2_write_postcondition_witness :
    ∃ m1 : Base, Write (baseOps stdDeps) exampleStore = .ok (New m1) ∧
      (∀ k v, pendingWrite k exampleCalls = some (some v) → m1.lookup k = some v) ∧
      (∀ k, pendingWrite k exampleCalls = some none → m1.lookup k = none) ∧
      (∀ k, pendingWrite k exampleCalls = none → m1.lookup k = exampleStore.parent.lookup k) ∧
      (∀ key, stdDeps.validKey key = true →
        ∃ store2, Get stdDeps (baseOps stdDeps) (New m1) key =
          .ok (m1.lookup (toStr key), store2)) :=
  C2_write_postcondition stdDeps (by decide) (by decide) exampleBase exampleCalls exampleStore
    rfl

/-- Witness of C4: the first `Get(a)` on a new store over `exampleBase`. -/
theorem C4_read_through_witness :
    ∃ store1 : cacheStore (Base × List Call),
      Get stdDeps (logged (baseOps stdDeps)) (New (exampleBase, [])) (some [97]) =
        .ok (some [1], store1) ∧
      store1.cache.lookup (toStr (some [97])) = some ⟨some [1], false, false⟩ ∧
      store1.unsortedCache = (New (exampleBase, ([] : List Call))).unsortedCache ∧
      store1.sortedCache = (New (exampleBase, ([] : List Call))).sortedCache ∧
      store1.parent = (exampleBase,
        (New (exampleBase, ([] : List Call))).parent.2 ++ [Call.get (some [97])]) ∧
      Get stdDeps (logged (baseOps stdDeps)) store1 (some [97]) = .ok (some [1], store1) :=
  C4_read_through stdDeps (baseOps stdDeps) (New (exampleBase, [])) (some [97]) (some [1])
    exampleBase (by decide) (by decide) rfl

/-- Witness of C7: `Write` of the state after `exampleCalls` issues `Set(a, 7)`, then
`Set(b, 2)`. -/
theorem C7_flush_order_witness :
    ∃ calls : List Call,
      (New (exampleWritten,
        [Call.set (some [97]) (some [7]), Call.set (some [98]) (some [2])])).parent.2 =
        (exampleState (exampleBase, ([] : List Call))).parent.2 ++ calls ∧
      (∀ c ∈ calls, c.isWrite = true) ∧
      (calls.map Call.key).Sorted (fun a b => a < b) ∧
      (calls.map Call.key).Nodup ∧
      (∀ c ∈ calls, ∃ cv,
        (exampleState (exampleBase, ([] : List Call))).cache.lookup c.key = some cv ∧
          cv.dirty = true) ∧
      (∀ store2 : cacheStore (Base × List Call),
        store2.cache.entries.Perm (exampleState (exampleBase, ([] : List Call))).cache.entries →
        store2.parent = (exampleState (exampleBase, ([] : List Call))).parent →
        Write (logged (baseOps stdDeps)) store2 =
          .ok (New (exampleWritten,
            [Call.set (some [97]) (some [7]), Call.set (some [98]) (some [2])]))) :=
  C7_flush_order (baseOps stdDeps) (exampleState (exampleBase, []))
    (New (exampleWritten, [Call.set (some [97]) (some [7]), Call.set (some [98]) (some [2])]))
    rfl

/-- Witness of C8: during `exampleCalls` the base store receives `Get(c)` and `Iterator`
only, and holds what it held. -/
theorem C8_isolation_witness :
    (∃ log,
      (exampleState (exampleBase,
        [Call.get (some [99]), Call.iterator (some [97]) (some [122])])).parent.2 =
        (New (exampleBase, ([] : List Call))).parent.2 ++ log ∧
      ∀ c ∈ log, c.isWrite = false) ∧
    (ReadsKeep (baseOps stdDeps) (fun (m : Base) k => m.lookup k) →
      ∀ k,
        (exampleState (exampleBase,
          [Call.get (some [99]), Call.iterator (some [97]) (some [122])])).parent.1.lookup k =
        (New (exampleBase, ([] : List Call))).parent.1.lookup k) :=
  C8_isolation stdDeps (baseOps stdDeps) (fun (m : Base) k => m.lookup k) exampleCalls
    (New (exampleBase, []))
    (exampleState (exampleBase, [Call.get (some [99]), Call.iterator (some [97]) (some [122])]))
    (by decide) rfl

/-- Witness of C9: `ClearThrough` on the state after `exampleCalls` drops the clean entry
of `c` and keeps the pending writes of `a` and `b`. -/
theorem C9_clearThrough_keeps_pending_witness :
    (∀ k cv, exampleStore.cache.lookup k = some cv → cv.dirty = true →
      exampleCleared.cache.lookup k = some cv) ∧
    exampleCleared.unsortedCache = exampleStore.unsortedCache ∧
    exampleCleared.sortedCache = exampleStore.sortedCache ∧
    (∀ k cv, exampleStore.cache.lookup k = some cv → cv.dirty = false →
      exampleCleared.cache.lookup k = none) ∧
    (∀ k cv, exampleCleared.cache.lookup k = some cv → cv.dirty = true) ∧
    (∀ (τ : Type) (Q : StoreOps τ) (p : τ),
      Write Q ⟨exampleCleared.cache, exampleCleared.unsortedCache,
          exampleCleared.sortedCache, p⟩ =
        Write Q ⟨exampleStore.cache, exampleStore.unsortedCache, exampleStore.sortedCache, p⟩) :=
  C9_clearThrough_keeps_pending stdDeps (baseOps stdDeps) exampleStore exampleCleared
    exampleStore_reachable rfl

/-- Witness of C10: `ClearThrough` twice on a cache store over a cache store over the
base store. -/
theorem C10_clearThrough_idempotent_witness :
    ∃ s1 : Stack Base 2,
      ClearThrough (stackOps stdDeps (baseOps stdDeps) 1) (exampleState exampleStore) =
        .ok s1 ∧
      ClearThrough (stackOps stdDeps (baseOps stdDeps) 1) s1 = .ok s1 :=
  C10_clearThrough_idempotent stdDeps (baseOps stdDeps)
    (fun cts h => absurd h (by simp [baseOps])) 1 (exampleState exampleStore)

end

section

variable {σ : Type}

open cacheStore

theorem exampleState_dirtyValid (p : σ) : DirtyValid stdDeps (exampleState p) :=
  DirtyValid_congr stdDeps exampleStore (exampleState p) rfl
    (Reachable.dirtyValid stdDeps (baseOps stdDeps) exampleStore (by decide) (by decide)
      exampleStore_reachable)

/-- Witness of C5: `WriteThrough(2)` on two cache stores stacked over a third cache store
that stands over the base store. -/
theorem C5_writeThrough_depth_witness :
    ∃ p1 : cacheStore Base,
      WriteThrough (stackOps stdDeps (ops stdDeps (baseOps stdDeps)) 1)
          (exampleState (exampleState (New exampleBase))) (((1 : Nat) : Int) + 1) =
        .ok (Stack.empty p1 2) ∧
      p1.parent =
        (Stack.bottom 2 (exampleState (exampleState (New exampleBase)))).parent ∧
      ∀ k,
        (match p1.cache.lookup k with
          | some cv => cv.value
          | none => p1.parent.lookup k) =
          match Stack.pending 2 (exampleState (exampleState (New exampleBase))) k with
          | some r => r
          | none =>
            match (Stack.bottom 2
                (exampleState (exampleState (New exampleBase)))).cache.lookup k with
            | some cv => cv.value
            | none =>
              (Stack.bottom 2 (exampleState (exampleState (New exampleBase)))).parent.lookup k :=
  C5_writeThrough_depth stdDeps (ops stdDeps (baseOps stdDeps))
    (fun (s : cacheStore Base) k =>
      match s.cache.lookup k with
      | some cv => cv.value
      | none => s.parent.lookup k)
    (fun s => s.parent)
    (ops_viewSpec stdDeps (baseOps stdDeps) (fun (m : Base) k => m.lookup k)) 1
    (exampleState (exampleState (New exampleBase)))
    ⟨exampleState_dirtyValid _, exampleState_dirtyValid _, trivial⟩

/-- Witness of C6: `Flush` on a chain of two cache stores over the base store. -/
theorem C6_flush_reaches_base_witness :
    ∃ b1 : Base,
      Flush (stackOps stdDeps (baseOps stdDeps) 1) (exampleState exampleStore) =
        .ok (Stack.empty b1 2) ∧
      ∀ k, b1.lookup k =
        match Stack.pending 2 (exampleState exampleStore) k with
        | some r => r
        | none => (Stack.bottom 2 (exampleState exampleStore)).lookup k :=
  C6_flush_reaches_base stdDeps 1 (exampleState exampleStore)
    ⟨exampleState_dirtyValid _, exampleState_dirtyValid _, trivial⟩

end

section

variable {σ : Type}

open cacheStore

/-- The base store raises none of the panics of a cache store's guards. -/
theorem baseOps_noGuardPanic (E : Deps) : NoGuardPanic (baseOps E) := by
  constructor
  · intro p key value h
    simp only [baseOps] at h
    split at h
    · exact absurd h (by simp)
    · split at h
      · exact absurd h (by simp)
      · split at h
        · exact absurd h (by simp)
        · exact absurd h (by simp)
  · intro p key h
    simp only [baseOps] at h
    split at h
    · exact absurd h (by simp)
    · exact absurd h (by simp)
  · intro wt p n h
    simp [baseOps] at h

/-- Witness of C11: `Get(d)` and `Has(d)` on the example store, whose parent holds no `d`. -/
theorem C11_has_agrees_with_get_witness :
    ∃ value b store1,
      Get stdDeps (baseOps stdDeps) exampleStore (some [100]) = .ok (value, store1) ∧
      Has stdDeps (baseOps stdDeps) exampleStore (some [100]) = .ok (b, store1) ∧
      (b = true ↔ value ≠ none) :=
  C11_has_agrees_with_get stdDeps (baseOps stdDeps) exampleStore (some [100]) (by decide)
    (fun _ => ⟨none, exampleBase, rfl⟩)

/-- Witness of C12: `WriteThrough(0)` and `WriteThrough(1)` on the example store. -/
theorem C12_writeThrough_guard_witness :
    (Traced.WriteThrough (baseOps stdDeps) exampleStore 0 =
        ⟨exampleStore, .error .shouldNotHappen⟩ ∧
      WriteThrough (baseOps stdDeps) exampleStore 0 = .error .shouldNotHappen) ∧
    ((Traced.WriteThrough (baseOps stdDeps) exampleStore 1).result ≠
        .error .shouldNotHappen ∧
      WriteThrough (baseOps stdDeps) exampleStore 1 ≠ .error .shouldNotHappen) :=
  ⟨(C12_writeThrough_guard (baseOps stdDeps) exampleStore 0).1 (by decide),
    (C12_writeThrough_guard (baseOps stdDeps) exampleStore 1).2 (by decide)
      (baseOps_noGuardPanic stdDeps)⟩

/-- Witness of C13: the nil key, and the nil value with the key `a`, on the example
store. -/
theorem C13_validation_first_witness :
    (Traced.Get stdDeps (baseOps stdDeps) exampleStore none =
        ⟨exampleStore, .error .invalidKey⟩ ∧
      Traced.Set stdDeps exampleStore none (some [1]) = ⟨exampleStore, .error .invalidKey⟩ ∧
      Traced.Delete stdDeps exampleStore none = ⟨exampleStore, .error .invalidKey⟩ ∧
      Get stdDeps (baseOps stdDeps) exampleStore none = .error .invalidKey ∧
      cacheStore.Set stdDeps exampleStore none (some [1]) = .error .invalidKey ∧
      Delete stdDeps exampleStore none = .error .invalidKey ∧
      ∀ store1, Get stdDeps (baseOps stdDeps) exampleStore none ≠ .ok (none, store1)) ∧
    (Traced.Set stdDeps exampleStore (some [97]) none =
        ⟨exampleStore, .error .invalidValue⟩ ∧
      cacheStore.Set stdDeps exampleStore (some [97]) none = .error .invalidValue) :=
  ⟨(C13_validation_first stdDeps (baseOps stdDeps) exampleStore none (some [1])).1
      (by decide),
    (C13_validation_first stdDeps (baseOps stdDeps) exampleStore (some [97]) none).2
      (by decide) (by decide)⟩

/-- Witness of C14: `Delete(a)` on a new store over an empty base store. -/
theorem C14_delete_is_written_witness :
    ∃ store1, Delete stdDeps (New ((∅ : Base), ([] : List Call))) (some [97]) = .ok store1 ∧
      store1.cache.lookup (toStr (some [97])) = some ⟨none, true, true⟩ ∧
      toStr (some [97]) ∈ store1.unsortedCache ∧
      ∀ store2, Write (logged (baseOps stdDeps)) store1 = .ok store2 →
        ∃ calls,
          store2.parent.2 = (New ((∅ : Base), ([] : List Call))).parent.2 ++ calls ∧
          calls.filter (fun c => decide (c.key = toStr (some [97]))) =
            [Call.delete (toBytes (toStr (some [97])))] :=
  C14_delete_is_written stdDeps (baseOps stdDeps) (New (∅, [])) (some [97]) (by decide)

/-- Witness of C15: `dirtyItems` over `[a, z)` on the example store, whose `sortedCache`
holds `a` and `b` and whose `unsortedCache` holds `a`. -/
theorem C15_sorted_stays_ordered_witness :
    (∃ store1, dirtyItems stdDeps exampleStore (some [97]) (some [122]) = .ok store1 ∧
      store1.sortedCache.Pairwise (fun a b => a.key < b.key) ∧
      (store1.sortedCache.map KVPair.key).Nodup ∧
      ∀ k, k ∈ store1.sortedCache.map KVPair.key ↔
        (k ∈ exampleStore.sortedCache.map KVPair.key ∨
          (k ∈ exampleStore.unsortedCache ∧
            stdDeps.isKeyInDomain k (some [97]) (some [122]) = true))) ∧
    (∀ s : cacheStore Base, Reachable stdDeps (baseOps stdDeps) s →
      s.sortedCache.Pairwise (fun a b => a.key < b.key)) :=
  C15_sorted_stays_ordered stdDeps (baseOps stdDeps) exampleStore (some [97]) (some [122])
    (Reachable.inv stdDeps (baseOps stdDeps) exampleStore exampleStore_reachable).sorted_asc
    (fun k hk _ =>
      ((Reachable.inv stdDeps (baseOps stdDeps) exampleStore
        exampleStore_reachable).unsorted_dirty k hk).imp (fun _ h => h.1))

/-- Witness of C16: `dirtyItems` over `[a, z)` on the example store, whose `sortedCache`
holds the older, absent value for `a` while the cache entry of `a` holds 7. -/
theorem C16_sorted_up_to_date_witness :
    (∃ store1, dirtyItems stdDeps exampleStore (some [97]) (some [122]) = .ok store1 ∧
      (∀ k cv, stdDeps.isKeyInDomain k (some [97]) (some [122]) = true →
        exampleStore.cache.lookup k = some cv → cv.dirty = true →
        store1.sortedCache.filter (fun kv => decide (kv.key = k)) = [⟨k, cv.value⟩] ∧
          (cv.deleted = true → cv.value = none)) ∧
      (∀ k, stdDeps.isKeyInDomain k (some [97]) (some [122]) = true →
        k ∉ store1.unsortedCache) ∧
      (∀ k, stdDeps.isKeyInDomain k (some [97]) (some [122]) = false →
        (k ∈ store1.unsortedCache ↔ k ∈ exampleStore.unsortedCache))) ∧
    (dirtyItems stdDeps exampleStore (some [97]) (some [122])).map
        (fun s => s.sortedCache) =
      .ok [⟨[97], some [7]⟩, ⟨[98], some [2]⟩] :=
  ⟨C16_sorted_up_to_date stdDeps (baseOps stdDeps) exampleStore (some [97]) (some [122])
    exampleStore_reachable, rfl⟩

/-- Witness of C17: the example store. -/
theorem C17_unsorted_backed_witness :
    (∀ k, k ∈ exampleStore.unsortedCache →
      ∃ cv, exampleStore.cache.lookup k = some cv ∧ cv.dirty = true) ∧
    (∀ start end_, ∃ store1, dirtyItems stdDeps exampleStore start end_ = .ok store1) :=
  C17_unsorted_backed stdDeps (baseOps stdDeps) exampleStore exampleStore_reachable

/-- Witness of C18: the key `b` of the example store, which is in `sortedCache` only. -/
theorem C18_dirty_keys_indexed_witness :
    (∃ cv, exampleStore.cache.lookup [98] = some cv ∧ cv.dirty = true) ↔
      ([98] ∈ exampleStore.unsortedCache ∨ ∃ kv ∈ exampleStore.sortedCache, kv.key = [98]) :=
  C18_dirty_keys_indexed stdDeps (baseOps stdDeps) exampleStore exampleStore_reachable [98]

theorem specLogged_reachable : Reachable stdDeps (logged (baseOps stdDeps)) specLogged :=
  Reachable.of_run stdDeps (logged (baseOps stdDeps)) specCalls (New (exampleBase, []))
    _ (Reachable.new _) rfl

/-- Witness of C19: the store after `Set(b, 2)` and `Delete(a)`, over a base store that
records its calls. `Write` returns, having called `Delete(a)`, then `Set(b, 2)`. -/
theorem C19_skip_never_taken_witness :
    (∀ k cv, specLogged.cache.lookup k = some cv →
      ¬ (cv.dirty = true ∧ cv.deleted = false ∧ cv.value = none)) ∧
    (∃ store1 calls,
      Write (logged (baseOps stdDeps)) specLogged = .ok store1 ∧
      store1.parent.2 = specLogged.parent.2 ++ calls ∧
      ∀ k cv, specLogged.cache.lookup k = some cv → cv.dirty = true →
        calls.filter (fun c => decide (c.key = k)) =
          [if cv.deleted then Call.delete (toBytes k) else Call.set (toBytes k) cv.value]) ∧
    Write (logged (baseOps stdDeps)) specLogged =
      .ok (New (AList.insert [98] [2] (AList.erase [97] exampleBase),
        [Call.delete (some [97]), Call.set (some [98]) (some [2])])) :=
  ⟨(C19_skip_never_taken stdDeps (baseOps stdDeps) (by decide) specLogged
      specLogged_reachable).1,
    (C19_skip_never_taken stdDeps (baseOps stdDeps) (by decide) specLogged
      specLogged_reachable).2.2 (by decide)
      (fun p k v hk hv => ((baseOps_writeSpec stdDeps).set p k v hk hv).imp (fun _ h => h.1))
      (fun p k hk => ((baseOps_writeSpec stdDeps).delete p k hk).imp (fun _ h => h.1)),
    rfl⟩

end

end Cache

namespace Benchmarking

section

variable {M : Type}

theorem wrapInt_eq (x : Int) (h1 : -(2 ^ 63) ≤ x) (h2 : x < 2 ^ 63) : wrapInt x = x := by
  unfold wrapInt
  rw [Int.emod_eq_of_lt (by omega) (by omega)]
  omega

/-- A method call on a slot that is in range and not `nil` returns; it changes that slot
only and keeps it non-nil. -/
theorem callAt_ok (stack : List (Option M)) (i : Int) (f : M → M) (m : M)
    (h0 : 0 ≤ i) (h1 : i < (stack.length : Int)) (hm : stack.get? i.toNat = some (some m)) :
    callAt stack i f = .ok (stack.set i.toNat (some (f m))) := by
  unfold callAt
  rw [if_neg (by omega), hm]

theorem get?_set_filled (stack : List (Option M)) (j : Nat) (a : M) (i : Nat)
    (h : ∃ m, stack.get? i = some (some m)) :
    ∃ m, (stack.set j (some a)).get? i = some (some m) := by
  obtain ⟨m, hm⟩ := h
  rw [List.get?_eq_getElem?] at hm ⊢
  rw [List.getElem?_set]
  by_cases hji : j = i
  · subst hji
    have hlt : j < stack.length := by
      by_contra hc
      rw [List.getElem?_eq_none (by omega)] at hm
      exact absurd hm (by simp)
    rw [if_pos rfl, if_pos hlt]
    exact ⟨a, rfl⟩
  · rw [if_neg hji]
    exact ⟨m, hm⟩

/-- A method call on the top of a stack that is in bounds and not empty returns and
keeps the stack in bounds. -/
theorem callTop_inBounds (E : Env M) (st : State M) (f : M → M) (h : InBounds E st)
    (hne : st.stackSize ≠ 0) :
    ∃ stack, callAt st.measurementStack (st.stackSize - 1) f = .ok stack ∧
      stack.length = st.measurementStack.length ∧
      (∀ i : Nat, (∃ m, st.measurementStack.get? i = some (some m)) →
        ∃ m, stack.get? i = some (some m)) := by
  have h0 := h.nonneg
  have h1 := h.le_len
  obtain ⟨m, hm⟩ := h.filled (st.stackSize - 1).toNat
    (by rw [Int.toNat_of_nonneg (by omega)]; omega)
  refine ⟨_, callAt_ok _ _ f m (by omega) (by omega) hm, List.length_set _ _ _, ?_⟩
  intro i hi
  exact get?_set_filled _ _ _ _ hi

theorem copy_grow (stack : List (Option M)) (n : Nat) (h : stack.length ≤ n) :
    copy (List.replicate n (none : Option M)) stack =
      stack ++ List.replicate (n - stack.length) none := by
  unfold copy
  rw [List.length_replicate, List.take_of_length_le h, List.drop_replicate]

/-- `Pause`, `Resume` and `RecordAllocation` return and keep the stack in bounds. -/
theorem touchTop_inBounds (E : Env M) (st : State M) (f : M → M) (h : InBounds E st) :
    ∃ st1, (if st.stackSize ≠ 0 then
        match callAt st.measurementStack (st.stackSize - 1) f with
        | .error e => .error e
        | .ok stack => .ok { st with measurementStack := stack }
      else (.ok st : Except Fault (State M))) = .ok st1 ∧ InBounds E st1 := by
  by_cases hne : st.stackSize ≠ 0
  · obtain ⟨stack, h1, h2, h3⟩ := callTop_inBounds E st f h hne
    refine ⟨{ st with measurementStack := stack }, ?_, ?_⟩
    · rw [if_pos hne, h1]
    · exact ⟨h.nonneg, by simpa [h2] using h.le_len, by simpa [h2] using h.len_pos,
        by simpa [h2] using h.len_max, fun i hi => h3 i (h.filled i hi)⟩
  · exact ⟨st, by rw [if_neg hne], h⟩

theorem Pause_inBounds (E : Env M) (st : State M) (h : InBounds E st) :
    ∃ st1, Pause E st = .ok st1 ∧ InBounds E st1 :=
  touchTop_inBounds E st E.pause h

theorem Resume_inBounds (E : Env M) (st : State M) (h : InBounds E st) :
    ∃ st1, Resume E st = .ok st1 ∧ InBounds E st1 :=
  touchTop_inBounds E st E.resume h

theorem RecordAllocation_inBounds (E : Env M) (st : State M) (size : Nat)
    (h : InBounds E st) :
    ∃ st1, RecordAllocation E st size = .ok st1 ∧ InBounds E st1 := by
  by_cases hz : st.stackSize = 0
  · exact ⟨st, by simp [RecordAllocation, hz], h⟩
  · obtain ⟨st1, h1, h2⟩ := touchTop_inBounds E st (fun m => E.addAllocation m size) h
    refine ⟨st1, ?_, h2⟩
    rw [if_pos hz] at h1
    unfold RecordAllocation
    rw [if_neg hz]
    exact h1

/-- `StopMeasurement` returns and keeps the stack in bounds. -/
theorem StopMeasurement_inBounds (E : Env M) (hmax : E.maxLen < 2 ^ 62) (st : State M)
    (size : Nat) (h : InBounds E st) :
    ∃ st1, StopMeasurement E st size = .ok st1 ∧ InBounds E st1 := by
  by_cases hz : st.stackSize = 0
  · exact ⟨st, by simp [StopMeasurement, hz], h⟩
  · obtain ⟨stack1, h1, h2, h3⟩ :=
      callTop_inBounds E st (fun m => E.end_ m size) h hz
    have h0 := h.nonneg
    have hl := h.le_len
    have hlm := h.len_max
    have hw : wrapInt (st.stackSize - 1) = st.stackSize - 1 :=
      wrapInt_eq _ (by omega) (by omega)
    have hin1 : InBounds E { measurementStack := stack1, stackSize := st.stackSize - 1 } := by
      refine ⟨?_, ?_, ?_, ?_, ?_⟩
      · show 0 ≤ st.stackSize - 1
        omega
      · show st.stackSize - 1 ≤ (stack1.length : Int)
        rw [h2]; omega
      · show 0 < stack1.length
        rw [h2]; exact h.len_pos
      · show stack1.length ≤ E.maxLen
        rw [h2]; exact h.len_max
      · intro i hi
        have hi1 : (i : Int) < st.stackSize - 1 := hi
        exact h3 i (h.filled i (by omega))
    unfold StopMeasurement
    rw [if_neg hz, h1]
    simp only [hw]
    by_cases hz1 : st.stackSize - 1 ≠ 0
    · obtain ⟨stack2, h4, h5, h6⟩ := callTop_inBounds E _ E.resume hin1 hz1
      refine ⟨{ measurementStack := stack2, stackSize := st.stackSize - 1 }, ?_, ?_⟩
      · rw [if_pos hz1]
        simp only at h4
        rw [h4]
      · refine ⟨hin1.nonneg, ?_, ?_, ?_, fun i hi => h6 i (hin1.filled i hi)⟩
        · show st.stackSize - 1 ≤ (stack2.length : Int)
          rw [h5]; exact hin1.le_len
        · show 0 < stack2.length
          rw [h5]; exact hin1.len_pos
        · show stack2.length ≤ E.maxLen
          rw [h5]; exact hin1.len_max
    · exact ⟨_, by rw [if_neg hz1], hin1⟩

/-- `StartMeasurement` returns and keeps the stack in bounds, unless `make` refuses to
allocate the doubled slice. -/
theorem StartMeasurement_inBounds (E : Env M) (hmax : E.maxLen < 2 ^ 62) (st : State M)
    (opCode : Nat) (h : InBounds E st) :
    (∃ st1, StartMeasurement E st opCode = .ok st1 ∧ InBounds E st1) ∨
      StartMeasurement E st opCode = .error .makeslice := by
  have h0 := h.nonneg
  have hl := h.le_len
  have hlm := h.len_max
  have hlp := h.len_pos
  -- the first statement
  have hp : ∃ stack1, pauseTop E st = .ok stack1 ∧
      stack1.length = st.measurementStack.length ∧
      (∀ i : Nat, (i : Int) < st.stackSize → ∃ m, stack1.get? i = some (some m)) := by
    by_cases hne : st.stackSize ≠ 0
    · obtain ⟨stack, h1, h2, h3⟩ := callTop_inBounds E st E.pause h hne
      exact ⟨stack, by simp only [pauseTop, if_pos hne, h1], h2,
        fun i hi => h3 i (h.filled i hi)⟩
    · exact ⟨st.measurementStack, by simp only [pauseTop, if_neg hne], rfl, h.filled⟩
  obtain ⟨stack1, hp1, hp2, hp3⟩ := hp
  -- the second statement
  have hg : (∃ stack2, grow E st.stackSize stack1 = .ok stack2 ∧
      st.stackSize < (stack2.length : Int) ∧ stack2.length ≤ E.maxLen ∧
      (∀ i : Nat, (i : Int) < st.stackSize → ∃ m, stack2.get? i = some (some m))) ∨
      grow E st.stackSize stack1 = .error .makeslice := by
    by_cases hfull : st.stackSize = (stack1.length : Int)
    · have hw : wrapInt (st.stackSize * 2) = st.stackSize * 2 :=
        wrapInt_eq _ (by omega) (by omega)
      by_cases hbig : (E.maxLen : Int) < st.stackSize * 2
      · right
        simp only [grow, if_pos hfull, hw, make, hbig, or_true, if_true]
      · left
        have hn : (st.stackSize * 2).toNat = 2 * stack1.length := by
          rw [hfull]; omega
        refine ⟨stack1 ++ List.replicate (2 * stack1.length - stack1.length) none, ?_, ?_, ?_, ?_⟩
        · have hnn : ¬ (st.stackSize * 2 < 0 ∨ (E.maxLen : Int) < st.stackSize * 2) := by
            omega
          simp only [grow, if_pos hfull, hw, make, if_neg hnn, hn]
          rw [copy_grow _ _ (by omega)]
        · simp only [List.length_append, List.length_replicate]
          omega
        · simp only [List.length_append, List.length_replicate]
          omega
        · intro i hi
          obtain ⟨m, hm⟩ := hp3 i hi
          refine ⟨m, ?_⟩
          rw [List.get?_eq_getElem?] at hm ⊢
          rw [List.getElem?_append_left (by omega)]
          exact hm
    · left
      exact ⟨stack1, by simp only [grow, if_neg hfull], by omega, by omega, hp3⟩
  rcases hg with ⟨stack2, hg1, hg2, hg3, hg4⟩ | hg
  · left
    have hw : wrapInt (st.stackSize + 1) = st.stackSize + 1 :=
      wrapInt_eq _ (by omega) (by omega)
    refine ⟨State.mk (stack2.set st.stackSize.toNat (some (E.startNewMeasurement opCode)))
      (st.stackSize + 1), ?_, ?_⟩
    · unfold StartMeasurement
      rw [hp1]
      simp only
      rw [hg1]
      simp only [assignAt]
      rw [if_neg (by omega), hw]
    · refine ⟨?_, ?_, ?_, ?_, ?_⟩
      · show 0 ≤ st.stackSize + 1
        omega
      · show st.stackSize + 1 ≤ ((stack2.set _ _).length : Int)
        rw [List.length_set]; omega
      · show 0 < (stack2.set _ _).length
        rw [List.length_set]; omega
      · show (stack2.set _ _).length ≤ E.maxLen
        rw [List.length_set]; exact hg3
      · intro i hi
        have hi1 : (i : Int) < st.stackSize + 1 := hi
        show ∃ m, (stack2.set _ _).get? i = some (some m)
        by_cases hlt : (i : Int) < st.stackSize
        · exact get?_set_filled _ _ _ _ (hg4 i hlt)
        · have hi2 : st.stackSize.toNat = i := by omega
          rw [List.get?_eq_getElem?, List.getElem?_set, if_pos hi2, if_pos (by omega)]
          exact ⟨_, rfl⟩
  · right
    unfold StartMeasurement
    rw [hp1]
    simp only
    rw [hg]

/-- Every call returns and keeps the stack in bounds, or panics in `make`. -/
theorem exec_inBounds (E : Env M) (hmax : E.maxLen < 2 ^ 62) (st : State M) (c : Call)
    (h : InBounds E st) :
    (∃ st1, exec E st c = .ok st1 ∧ InBounds E st1) ∨ exec E st c = .error .makeslice := by
  cases c with
  | start opCode => exact StartMeasurement_inBounds E hmax st opCode h
  | stop size => exact Or.inl (StopMeasurement_inBounds E hmax st size h)
  | pause => exact Or.inl (Pause_inBounds E st h)
  | resume => exact Or.inl (Resume_inBounds E st h)
  | recordAllocation size => exact Or.inl (RecordAllocation_inBounds E st size h)

theorem run_inBounds (E : Env M) (hmax : E.maxLen < 2 ^ 62) (calls : List Call) :
    ∀ st, InBounds E st →
      (∃ st1, run E st calls = .ok st1 ∧ InBounds E st1) ∨
        run E st calls = .error .makeslice := by
  induction calls with
  | nil => intro st h; exact Or.inl ⟨st, rfl, h⟩
  | cons c cs ih =>
    intro st h
    rcases exec_inBounds E hmax st c h with ⟨st1, h1, h2⟩ | h1
    · rcases ih st1 h2 with ⟨st2, h3, h4⟩ | h3
      · exact Or.inl ⟨st2, by simp only [run, h1, h3], h4⟩
      · exact Or.inr (by simp only [run, h1, h3])
    · exact Or.inr (by simp only [run, h1])

/-- The state that `initStack` leaves, when the stack was empty, is in bounds. -/
theorem initStack_inBounds (E : Env M) (s0 st0 : State M) (h0 : s0.stackSize = 0)
    (hinit : initStack E s0 = .ok st0) : InBounds E st0 := by
  unfold initStack make at hinit
  by_cases hm : initStackSize < 0 ∨ (E.maxLen : Int) < initStackSize
  · rw [if_pos hm] at hinit
    exact absurd hinit (by simp)
  · rw [if_neg hm] at hinit
    simp only [Except.ok.injEq] at hinit
    subst hinit
    have h64 : initStackSize.toNat = 64 := rfl
    have hm1 : ¬ ((E.maxLen : Int) < 64) := fun hc => hm (Or.inr hc)
    refine ⟨?_, ?_, ?_, ?_, ?_⟩
    · show 0 ≤ s0.stackSize
      omega
    · show s0.stackSize ≤ ((List.replicate initStackSize.toNat none).length : Int)
      rw [List.length_replicate, h0]; omega
    · show 0 < (List.replicate initStackSize.toNat (none : Option M)).length
      rw [List.length_replicate, h64]; omega
    · show (List.replicate initStackSize.toNat (none : Option M)).length ≤ E.maxLen
      rw [List.length_replicate, h64]; omega
    · intro i hi
      have : (i : Int) < s0.stackSize := hi
      omega

/-- C20 (measurement stack stays in bounds): on a platform whose slices are shorter than
`2 ^ 62`, start with an empty stack (`stackSize = 0`) and call `initStack`. After every
sequence of `StartMeasurement`, `StopMeasurement`, `Pause`, `Resume` and `RecordAllocation`
calls that returns, `0 <= stackSize <= len(measurementStack)` and every slot below
`stackSize` holds a measurement; no sequence ends in an index out of range or in a nil
dereference (a sequence ends either in a state or in a refusal of `make`); and
`StopMeasurement` and `RecordAllocation` on an empty stack change nothing. -/
theorem C20_stack_in_bounds (E : Env M) (hmax : E.maxLen < 2 ^ 62) (s0 st0 : State M)
    (h0 : s0.stackSize = 0) (hinit : initStack E s0 = .ok st0) (calls : List Call) :
    (∀ st, run E st0 calls = .ok st →
      0 ≤ st.stackSize ∧ st.stackSize ≤ (st.measurementStack.length : Int) ∧
      ∀ i : Nat, (i : Int) < st.stackSize →
        ∃ m, st.measurementStack.get? i = some (some m)) ∧
    run E st0 calls ≠ .error .indexOutOfRange ∧
    run E st0 calls ≠ .error .nilDereference ∧
    (∀ (st : State M) (size : Nat), st.stackSize = 0 →
      StopMeasurement E st size = .ok st ∧ RecordAllocation E st size = .ok st) := by
  have hin := initStack_inBounds E s0 st0 h0 hinit
  have hrun := run_inBounds E hmax calls st0 hin
  refine ⟨?_, ?_, ?_, ?_⟩
  · intro st hst
    rcases hrun with ⟨st1, h1, h2⟩ | h1
    · rw [h1] at hst
      simp only [Except.ok.injEq] at hst
      subst hst
      exact ⟨h2.nonneg, h2.le_len, h2.filled⟩
    · rw [h1] at hst
      exact absurd hst (by simp)
  · intro hc
    rcases hrun with ⟨st1, h1, -⟩ | h1
    · rw [h1] at hc; exact absurd hc (by simp)
    · rw [h1] at hc; exact absurd hc (by simp)
  · intro hc
    rcases hrun with ⟨st1, h1, -⟩ | h1
    · rw [h1] at hc; exact absurd hc (by simp)
    · rw [h1] at hc; exact absurd hc (by simp)
  · intro st size hz
    exact ⟨by simp [StopMeasurement, hz], by simp [RecordAllocation, hz]⟩

end

section

/-- Witness of C20: two measurements are started and the second one is stopped. -/
theorem C20_stack_in_bounds_witness :
    (∀ st, run exampleEnv ⟨List.replicate 64 none, 0⟩ [.start 7, .start 8, .stop 3] = .ok st →
      0 ≤ st.stackSize ∧ st.stackSize ≤ (st.measurementStack.length : Int) ∧
      ∀ i : Nat, (i : Int) < st.stackSize →
        ∃ m, st.measurementStack.get? i = some (some m)) ∧
    run exampleEnv ⟨List.replicate 64 none, 0⟩ [.start 7, .start 8, .stop 3] ≠
      .error .indexOutOfRange ∧
    run exampleEnv ⟨List.replicate 64 none, 0⟩ [.start 7, .start 8, .stop 3] ≠
      .error .nilDereference ∧
    (∀ (st : State Nat) (size : Nat), st.stackSize = 0 →
      StopMeasurement exampleEnv st size = .ok st ∧
        RecordAllocation exampleEnv st size = .ok st) :=
  C20_stack_in_bounds exampleEnv (by decide) ⟨[], 0⟩ ⟨List.replicate 64 none, 0⟩ rfl rfl
    [.start 7, .start 8, .stop 3]

end

end Benchmarking
